import Mathlib

/-!
# Verification of the `neurone_loader` container hierarchy

A shallow embedding of `neurone_loader/loader.py` (classes `BaseContainer`,
`Phase`, `Session`, `Recording`) and the relevant parts of
`neurone_loader/neurone.py` (`read_neurone_events`, `read_neurone_protocol`,
`read_neurone_data`, `read_neurone_data_info`).

Modelling conventions, justified against the source:

* A numpy 2-D array is a `Mat` (`List (List ℚ)`, rows of samples, columns of
  channels).  Raw on-disk sample files hold 32-bit integers (nanovolts); the
  loader divides by 1000 (`loader.py:130`).  We model the quotient exactly in
  `ℚ`; the claims under study are about equality and structure, not about
  float rounding of the division itself.
* numpy aliasing is modelled with an explicit heap (`Heap := List Mat`) of
  owned buffers and row-range views (`BufRef`).  This is exact for the code at
  hand: every view created by `loader.py` is a row slice `buf[a:b]` of one
  owned buffer (`np.delete` and `np.copy` always allocate fresh buffers,
  `resize`/slice-assign grow and fill one buffer in place, which has the same
  value semantics as concatenating rows).  Buffers abandoned by `del p.data`
  simply become unreachable garbage in the heap.
* Python `set`s of channel names are modelled as duplicate-free `List String`
  built with `setInsert`; every use in the source (membership, union, set
  difference, intersection, `len`) is order-insensitive.
* The `Lazy` cache (`lazy.py`) for `data` is the `dataSlot : Option BufRef`
  field; `_has_data` is `dataSlot.isSome`, `del self.data` sets it to `none`.
  The `Lazy` cache of `channels` is *not* modelled: `_extend_droplist`
  (`loader.py:62-66`) re-filters the cached list whenever the drop set grows,
  so the cached value always equals the recomputation
  `[c for c in protocol_channels if c not in dropped]`; the cache is therefore
  observationally irrelevant and `channels` is embedded as a pure function.
  Likewise `Phase.events` is cached but never mutated, so it is embedded as a
  pure function of the on-disk events.
* Python `assert` failures (fatal errors) are `Except.error`; accessors that
  contain an `assert` return `Except String α`.
* Phase numbers are the *strings* parsed from the phase folder name
  (`neurone.py:94`); `sorted(..., key=lambda p: p.number)` therefore compares
  strings lexicographically by code point, which `strLtB` reproduces on
  `String.data`.  Python's `sorted` is stable; `sortTagged` is a stable
  insertion sort that carries each element's original list position, which
  stands in for Python's in-place mutation of the shared objects.
-/

/-! ## Matrices, heap buffers and row-range views -/

abbrev Mat : Type := List (List ℚ)

abbrev Heap : Type := List Mat

/-- A row-range view into the heap buffer with index `buf`:
the rows `start, ..., stop - 1` (a Python slice `b[start:stop]`). -/
structure BufRef where
  buf : Nat
  start : Nat
  stop : Nat
deriving Repr, DecidableEq

/-- Python row slice `m[a:b]` (with clamping, as in Python). -/
def sliceRows (m : Mat) (a b : Nat) : Mat := (m.take b).drop a

/-- Read a view's current value. -/
def deref (h : Heap) (r : BufRef) : Mat := sliceRows (h.getD r.buf []) r.start r.stop

/-- Allocate a fresh owned buffer holding `m`; returns the view of the whole
buffer (`np.copy` / building a new array). -/
def allocBuf (h : Heap) (m : Mat) : Heap × BufRef :=
  (h ++ [m], ⟨h.length, 0, m.length⟩)

/-- Overwrite entry `(r, c)` of a matrix. -/
def setEntry (m : Mat) (r c : Nat) (v : ℚ) : Mat :=
  m.set r ((m.getD r []).set c v)

/-- In-place mutation of one element through a view (`view[r][c] = v`):
writes into the underlying owned buffer, so it is visible through every other
view of the same buffer. -/
def heapWrite (h : Heap) (ref : BufRef) (r c : Nat) (v : ℚ) : Heap :=
  h.set ref.buf (setEntry (h.getD ref.buf []) (ref.start + r) c v)

/-- Read entry `(r, c)` through a view. -/
def readCell (h : Heap) (ref : BufRef) (r c : Nat) : ℚ :=
  ((deref h ref).getD r []).getD c 0

/-! ## Python sets of channel names as duplicate-free lists -/

def setInsert (l : List String) (c : String) : List String :=
  if l.contains c then l else l ++ [c]

/-- `l | set(names)` (set union, `_dropped_channels |= set(...)`). -/
def setUnion (l : List String) (names : List String) : List String :=
  names.foldl setInsert l

/-- `set(a) - set(b)`. -/
def setDiff (a b : List String) : List String :=
  a.filter (fun c => !(b.contains c))

/-- `set(a).intersection(set(b))` (kept duplicate-free by deduplicating `a`). -/
def setInter (a b : List String) : List String :=
  (setUnion [] a).filter (fun c => b.contains c)

/-- `len(set(l)) <= 1`, i.e. all elements equal. -/
def allEqB [BEq α] : List α → Bool
  | [] => true
  | x :: xs => xs.all (fun y => y == x)

/-! ## Sorting

`sorted(..., reverse=True)` over drop indices, and the stable `sorted` by key
used on phases (string key) and sessions (timestamp key). -/

/-- Insert into a descending list (used for `sorted(indexes, reverse=True)`;
`np.delete` treats the index list as a set, so only the multiset matters). -/
def insertGe (x : Nat) : List Nat → List Nat
  | [] => [x]
  | y :: ys => if x ≤ y then y :: insertGe x ys else x :: y :: ys

def sortDescNat (l : List Nat) : List Nat :=
  l.foldl (fun acc x => insertGe x acc) []

/-- Lexicographic `<` on code points: Python string comparison. -/
def strLtB : List Char → List Char → Bool
  | [], [] => false
  | [], _ :: _ => true
  | _ :: _, [] => false
  | a :: as, b :: bs =>
    if a.val < b.val then true else if b.val < a.val then false else strLtB as bs

def strLeB (a b : List Char) : Bool := !(strLtB b a)

/-- Stable insertion into a list sorted by `le`, keeping elements that compare
`le` to the new one in front of it (Python `sorted` stability).  The `Nat`
component is the element's original position in the unsorted list and stands
in for Python's object identity. -/
def insertTagged (le : α → α → Bool) (x : Nat × α) :
    List (Nat × α) → List (Nat × α)
  | [] => [x]
  | y :: ys => if le y.2 x.2 then y :: insertTagged le x ys else x :: y :: ys

/-- `sorted(l, key=...)`, each element tagged with its original position. -/
def sortTagged (le : α → α → Bool) (l : List α) : List (Nat × α) :=
  l.enum.foldl (fun acc x => insertTagged le x acc) []

/-! ## Column deletion (`np.delete(m, idxs, axis=1)`) -/

def deleteRow (idxs : List Nat) (row : List ℚ) : List ℚ :=
  (row.enum.filter (fun q => !(idxs.contains q.1))).map (fun q => q.2)

/-- `np.delete(m, idxs, axis=1)`: remove the columns whose index is in `idxs`
(the index list is treated as a set of positions; always returns a fresh
buffer, never a view). -/
def deleteCols (idxs : List Nat) (m : Mat) : Mat := m.map (deleteRow idxs)

/-! ## Events (`neurone.py`, `read_neurone_events` and the event dtype)

An on-disk event record has the fields of `get_n1_event_format` minus the
reserved (`RFU*`) fields, which the reader deletes.  `read_neurone_events`
derives `StartTime`/`StopTime` = sample index / sampling rate; the float
quotient is then stored into an `np.int64` column of `events_dtype`
(`neurone.py:302-310`), which truncates toward zero — for the non-negative
`Int64ul` sample indices this is floor division. -/

structure DiskEvent where
  Revision : Int
  Type' : Int
  SourcePort : Int
  ChannelNumber : Int
  Code : Int
  StartSampleIndex : Nat
  StopSampleIndex : Nat
  DescriptionLength : Nat
  DescriptionOffset : Nat
  DataLength : Nat
  DataOffset : Nat
deriving Repr, DecidableEq

structure NeuroneEvent where
  Revision : Int
  Type' : Int
  SourcePort : Int
  ChannelNumber : Int
  Code : Int
  StartSampleIndex : Nat
  StopSampleIndex : Nat
  DescriptionLength : Nat
  DescriptionOffset : Nat
  DataLength : Nat
  DataOffset : Nat
  StartTime : Int
  StopTime : Int
deriving Repr, DecidableEq

/-- One record of `read_neurone_events(...)['events']`. -/
def annotateEvent (sampling_rate : Nat) (e : DiskEvent) : NeuroneEvent :=
  { Revision := e.Revision
    Type' := e.Type'
    SourcePort := e.SourcePort
    ChannelNumber := e.ChannelNumber
    Code := e.Code
    StartSampleIndex := e.StartSampleIndex
    StopSampleIndex := e.StopSampleIndex
    DescriptionLength := e.DescriptionLength
    DescriptionOffset := e.DescriptionOffset
    DataLength := e.DataLength
    DataOffset := e.DataOffset
    StartTime := Int.ofNat (e.StartSampleIndex / sampling_rate)
    StopTime := Int.ofNat (e.StopSampleIndex / sampling_rate) }

/-- `read_neurone_events(fpath, phase, sampling_rate)['events']`. -/
def read_neurone_events (sampling_rate : Nat) (disk : List DiskEvent) :
    List NeuroneEvent :=
  disk.map (annotateEvent sampling_rate)

/-- The in-place `+=` adjustments of `Session.events` / `Recording.events`
(`loader.py:252-256`): add a sample offset to both sample-index columns and a
(truncated) time offset to both time columns. -/
def offsetEvent (ds : Nat) (dt : Int) (e : NeuroneEvent) : NeuroneEvent :=
  { e with
    StartSampleIndex := e.StartSampleIndex + ds
    StopSampleIndex := e.StopSampleIndex + ds
    StartTime := e.StartTime + dt
    StopTime := e.StopTime + dt }

/-! ## Protocol (`read_neurone_protocol`): channel order and sampling rate -/

structure Protocol where
  channels : List String
  sampling_rate : Nat
deriving Repr, DecidableEq

/-- `read_neurone_data(...) / 1000` (`loader.py:130`: source is nanovolts). -/
def toMicroVolts (raw : List (List Int)) : Mat :=
  raw.map (fun row => row.map (fun x => (x : ℚ) / 1000))

/-! ## Shared `BaseContainer.drop_channels` bookkeeping (`loader.py:68-83`) -/

/-- `drop_set = (set(names) - dropped).intersection(set(channels))`. -/
def dropResolve (visible dropped names : List String) : List String :=
  (setDiff (setUnion [] names) dropped).filter (fun c => visible.contains c)

/-- `not_dropping = set(names) - drop_set`: the names reported in the
"Not dropping channels ..." warning. -/
def dropWarnings (visible dropped names : List String) : List String :=
  setDiff (setUnion [] names) (dropResolve visible dropped names)

/-! ## Phase (`loader.py:86-166`)

A `Phase` holds its folder name (`number`), the raw on-disk sample matrix of
`<number>/1.bin` (already reshaped to `(n_samples, n_channels)` rows of
nanovolt integers, as `read_neurone_data` does) and the raw records of
`<number>/events.bin`.  The session protocol is shared: `Session.__init__`
passes its own `_protocol` to every `Phase` (`loader.py:188`), so phase
operations take it as the `proto` argument. -/

structure Phase where
  number : String
  rawData : List (List Int)
  rawEvents : List DiskEvent
  dropped : List String
  dataSlot : Option BufRef
deriving Repr, DecidableEq

/-- Error propagation of a raising Python call inside a larger computation
(`Except.bind`, written out so proofs can unfold it by name). -/
def ebind {α β : Type} (x : Except String α)
    (f : α → Except String β) : Except String β :=
  match x with
  | .error e => .error e
  | .ok a => f a

theorem ebind_error {α β : Type} (e : String) (f : α → Except String β) :
    ebind (.error e) f = .error e := rfl

theorem ebind_ok {α β : Type} (a : α) (f : α → Except String β) :
    ebind (.ok a) f = f a := rfl

theorem ebind_ok_inv {α β : Type} {x : Except String α}
    {f : α → Except String β} {b : β} (h : ebind x f = .ok b) :
    ∃ a, x = .ok a ∧ f a = .ok b := by
  cases x with
  | error e => exact Except.noConfusion h
  | ok a => exact ⟨a, rfl, h⟩

theorem ebind_error_frame {α β : Type} {x : Except String α}
    {f : α → Except String β} {e : String} (hx : x = .error e) :
    ebind x f = .error e := by
  rw [hx]; rfl

theorem emap_ok {α β : Type} (a : α) (f : α → β) :
    (Except.ok a : Except String α).map f = .ok (f a) := rfl

theorem emap_error {α β : Type} (e : String) (f : α → β) :
    (Except.error e : Except String α).map f = .error e := rfl

theorem emap_ok_inv {α β : Type} {x : Except String α} {f : α → β} {b : β}
    (h : x.map f = .ok b) : ∃ a, x = .ok a ∧ f a = b := by
  cases x with
  | error e => exact Except.noConfusion h
  | ok a => exact ⟨a, rfl, Except.ok.inj h⟩

theorem emap_error_inv {α β : Type} {x : Except String α} {f : α → β}
    {e : String} (h : x.map f = .error e) : x = .error e := by
  cases x with
  | error e2 => rw [Except.error.inj h]
  | ok a => exact Except.noConfusion h

/-- `operator.indexOf` (imported at `loader.py:25`): Python raises
`ValueError` when the element is absent from the sequence. -/
def indexOfE (l : List String) (c : String) : Except String Nat :=
  if l.contains c then .ok (l.indexOf c)
  else .error "ValueError: sequence.index(x): x not in sequence"

/-- The list comprehension of `_drop_indexes` (`loader.py:48`), left to
right; the first missing name raises. -/
def indexListE (chs : List String) : List String → Except String (List Nat)
  | [] => .ok []
  | c :: cs =>
    ebind (indexOfE chs c) (fun i =>
      ebind (indexListE chs cs) (fun is2 => .ok (i :: is2)))

namespace Phase

/-- `BaseContainer.channels` (`loader.py:50-56`). -/
def channels (proto : Protocol) (p : Phase) : List String :=
  proto.channels.filter (fun c => !(p.dropped.contains c))

/-- `BaseContainer._drop_indexes` (`loader.py:47-48`): *unguarded*
`operator.indexOf` against the full protocol channel order, so a dropped
name absent from the protocol raises `ValueError`.  (Reachable: the
materialized `Session`/`Recording` drop walks push the raw argument names
into phase drop sets, and a later `Phase.data` reload calls this.) -/
def drop_indexes (proto : Protocol) (p : Phase) : Except String (List Nat) :=
  ebind (indexListE proto.channels p.dropped) (fun l => .ok (sortDescNat l))

/-- `Phase.n_samples` (`loader.py:133-139`): from the binary file size. -/
def n_samples (p : Phase) : Nat := p.rawData.length

/-- `Phase.n_channels` (`loader.py:141-149`): protocol channel count minus
the size of the drop set. -/
def n_channels (proto : Protocol) (p : Phase) : Nat :=
  proto.channels.length - p.dropped.length

/-- `Phase.events` (`loader.py:107-114`). -/
def events (proto : Protocol) (p : Phase) : List NeuroneEvent :=
  read_neurone_events proto.sampling_rate p.rawEvents

/-- The matrix the `Phase.data` body produces on its non-raising executions
(every dropped name present in the protocol); `dataCompute` returns exactly
this when `_drop_indexes` does not raise (`dataCompute_ok_of_valid`). -/
def dataMat (proto : Protocol) (p : Phase) : Mat :=
  deleteCols (sortDescNat (p.dropped.map (fun c => proto.channels.indexOf c)))
    (toMicroVolts p.rawData)

/-- The body of the `Phase.data` lazy property (`loader.py:124-131`):
`_drop_indexes` may raise `ValueError`. -/
def dataCompute (proto : Protocol) (p : Phase) : Except String Mat :=
  ebind (drop_indexes proto p)
    (fun idxs => .ok (deleteCols idxs (toMicroVolts p.rawData)))

/-- The value `p.data` currently denotes (cached view or fresh computation),
without the caching side effect. -/
def dataValue (proto : Protocol) (h : Heap) (p : Phase) : Except String Mat :=
  match p.dataSlot with
  | some r => .ok (deref h r)
  | none => dataCompute proto p

/-- Reading `p.data`: return the cache if populated, otherwise compute, store
and return (`lazy.py:81-91`). -/
def data (proto : Protocol) (h : Heap) (p : Phase) :
    Except String (Heap × Phase × Mat) :=
  match p.dataSlot with
  | some r => .ok (h, p, deref h r)
  | none =>
    ebind (dataCompute proto p) (fun m =>
      let hr := allocBuf h m
      .ok (hr.1, { p with dataSlot := some hr.2 }, m))

/-- `Phase.clear_data` (`loader.py:151-155`): `del self.data`. -/
def clear_data (p : Phase) : Phase := { p with dataSlot := none }

/-- `p.data = view` (assignment to the lazy property). -/
def setData (p : Phase) (r : BufRef) : Phase := { p with dataSlot := some r }

/-- `BaseContainer._extend_droplist` (`loader.py:62-66`); the re-filtering of
the cached `channels` list is omitted (see the header note). -/
def extend_droplist (p : Phase) (names : List String) : Phase :=
  { p with dropped := setUnion p.dropped names }

/-- `Phase.drop_channels` (`loader.py:157-166`): if data is materialized,
delete the resolvable columns (indices against the *current* channel list)
from the buffer, then the shared `BaseContainer.drop_channels` bookkeeping. -/
def drop_channels (proto : Protocol) (h : Heap) (p : Phase)
    (names : List String) : Heap × Phase :=
  let step :=
    match p.dataSlot with
    | some ref =>
      let cur := channels proto p
      let idxs := sortDescNat
        ((names.filter (fun c => cur.contains c)).map (fun c => cur.indexOf c))
      let hr := allocBuf h (deleteCols idxs (deref h ref))
      (hr.1, { p with dataSlot := some hr.2 })
    | none => (h, p)
  (step.1, extend_droplist step.2
    (dropResolve (channels proto step.2) step.2.dropped names))

end Phase

/-! ## Session (`loader.py:169-300`) -/

structure Session where
  protocol : Protocol
  time_start : Nat
  phases : List Phase
  dropped : List String
  dataSlot : Option BufRef
deriving Repr, DecidableEq

/-- `sorted(phases, key=lambda phase: phase.number)`: stable sort on the
folder-name string. -/
def phaseLe (a b : Phase) : Bool := strLeB a.number.data b.number.data

namespace Session

/-- `BaseContainer.sampling_rate` (`loader.py:36-42`). -/
def sampling_rate (s : Session) : Nat := s.protocol.sampling_rate

/-- `BaseContainer.channels` for a Session. -/
def channels (s : Session) : List String :=
  s.protocol.channels.filter (fun c => !(s.dropped.contains c))

/-- `Session.n_samples` (`loader.py:261-267`). -/
def n_samples (s : Session) : Nat := (s.phases.map Phase.n_samples).sum

/-- `Session.n_channels` (`loader.py:269-279`): asserts all phases agree. -/
def n_channels (s : Session) : Except String Nat :=
  if allEqB (s.phases.map (Phase.n_channels s.protocol)) then
    .ok (match s.phases with
         | [] => 0
         | p :: _ => Phase.n_channels s.protocol p)
  else .error "The number of channels should not change between phases"

/-- `Session._extend_droplist` (inherited, `loader.py:62-66`). -/
def extend_droplist (s : Session) (names : List String) : Session :=
  { s with dropped := setUnion s.dropped names }

/-- First loop of the `Session.data` computation (`loader.py:207-222`), over
the phases sorted by number (tagged with their original list positions):
apply the session's drop set to each phase, read its data, append the rows to
the growing buffer, record the row range, and `del p.data`.  Returns the
final heap, the mutated phases (still in sorted order, with their tags), the
concatenated rows and the recorded `(start, stop)` slices. -/
def dataLoop (proto : Protocol) (sdropped : List String) :
    Heap → Mat → List (Nat × Phase) →
    Except String (Heap × List (Nat × Phase) × Mat × List (Nat × Nat))
  | h, rows, [] => .ok (h, [], rows, [])
  | h, rows, (i, p) :: rest =>
    let hp := Phase.drop_channels proto h p sdropped
    ebind (Phase.data proto hp.1 hp.2) (fun hpd =>
      let sl := (rows.length, rows.length + hpd.2.2.length)
      let p₃ := Phase.clear_data hpd.2.1
      ebind (dataLoop proto sdropped hpd.1 (rows ++ hpd.2.2) rest) (fun r =>
        .ok (r.1, (i, p₃) :: r.2.1, r.2.2.1, sl :: r.2.2.2)))

/-- Write mutated phases back to their original list positions (Python
mutates the shared objects in place; the tag is the original position). -/
def writeBack (base : List Phase) (upd : List (Nat × Phase)) : List Phase :=
  upd.foldl (fun acc ip => acc.set ip.1 ip.2) base

/-- The body of the `Session.data` lazy property (`loader.py:198-228`):
loop 1 (`dataLoop`), allocate the combined buffer (the source grows
`new_array` in place with `resize`; the net value is the row concatenation),
then loop 2 (`loader.py:224-226`): reassign every phase's `data` to a view of
its recorded row range. -/
def dataCompute (h : Heap) (s : Session) :
    Except String (Heap × Session × Mat) :=
  let tagged := sortTagged phaseLe s.phases
  ebind (dataLoop s.protocol s.dropped h [] tagged) (fun l =>
    let hb := allocBuf l.1 l.2.2.1
    let upd := (l.2.1.zip l.2.2.2).map
      (fun psl => (psl.1.1, Phase.setData psl.1.2 ⟨hb.2.buf, psl.2.1, psl.2.2⟩))
    .ok (hb.1,
      { s with phases := writeBack s.phases upd, dataSlot := some hb.2 },
      l.2.2.1))

/-- Reading `s.data` (cached view or aggregation). -/
def data (h : Heap) (s : Session) : Except String (Heap × Session × Mat) :=
  match s.dataSlot with
  | some r => .ok (h, s, deref h r)
  | none => dataCompute h s

/-- The value `s.data` currently denotes, without side effects. -/
def dataValue (h : Heap) (s : Session) : Except String Mat :=
  match s.dataSlot with
  | some r => .ok (deref h r)
  | none => ebind (dataCompute h s) (fun res => .ok res.2.2)

/-- `Session.clear_data` (`loader.py:230-236`): clear every phase, then the
session's own slot. -/
def clear_data (s : Session) : Session :=
  { s with phases := s.phases.map Phase.clear_data, dataSlot := none }

/-- `Session.events` (`loader.py:238-259`).  Phases sorted by number; the
first phase's table is taken as is; every *later* phase with a non-empty
table is shifted by the running sample total and the truncated running time
total, and only then does the running total advance by that phase's
`n_samples` (the advance sits inside the non-empty check in the source).
A session constructed by the loader always has at least one phase
(`loader.py:186`); on an empty phase list the source would raise `IndexError`,
modelled as an error. -/
def events (s : Session) : Except String (List NeuroneEvent) :=
  let ps := (sortTagged phaseLe s.phases).map (fun x => x.2)
  match ps with
  | [] => .error "IndexError: list index out of range"
  | p0 :: rest =>
    .ok (rest.foldl
      (fun (acc : List NeuroneEvent × Nat) p =>
        if 0 < (Phase.events s.protocol p).length then
          (acc.1 ++ (Phase.events s.protocol p).map
              (offsetEvent acc.2 (Int.ofNat (acc.2 / s.protocol.sampling_rate))),
           acc.2 + Phase.n_samples p)
        else acc)
      (Phase.events s.protocol p0, Phase.n_samples p0)).1

/-- The phase-walk of the materialized branch of `Session.drop_channels`
(`loader.py:291-296`): walk `self.phases` in stored order, extend each
phase's drop set with the *raw* argument list, read `phase.data.shape[0]`
(which recomputes the phase's data if its slot is empty) and reassign
`phase.data` to the matching row range of the shrunk session buffer. -/
def dropWalk (proto : Protocol) (names : List String) (newBuf : Nat) :
    Heap → Nat → List Phase → Except String (Heap × List Phase × Nat)
  | h, off, [] => .ok (h, [], off)
  | h, off, p :: ps =>
    let p₁ := Phase.extend_droplist p names
    ebind (Phase.data proto h p₁) (fun hpd =>
      let len := hpd.2.2.length
      let p₃ := Phase.setData hpd.2.1 ⟨newBuf, off, off + len⟩
      ebind (dropWalk proto names newBuf hpd.1 (off + len) ps) (fun r =>
        .ok (r.1, p₃ :: r.2.1, r.2.2)))

/-- `Session.drop_channels` (`loader.py:281-300`).  The materialized branch
walks the phases reading `phase.data` (`loader.py:294`), which reloads a
cleared phase and can then raise `ValueError` through `_drop_indexes`. -/
def drop_channels (h : Heap) (s : Session) (names : List String) :
    Except String (Heap × Session) :=
  match s.dataSlot with
  | some ref =>
    let cur := channels s
    let idxs := sortDescNat
      ((names.filter (fun c => cur.contains c)).map (fun c => cur.indexOf c))
    let hb := allocBuf h (deleteCols idxs (deref h ref))
    ebind (dropWalk s.protocol names hb.2.buf hb.1 0 s.phases) (fun w =>
      let s₂ : Session := { s with phases := w.2.1, dataSlot := some hb.2 }
      .ok (w.1, extend_droplist s₂
        (dropResolve (channels s₂) s₂.dropped names)))
  | none =>
    let w := s.phases.foldl
      (fun (acc : Heap × List Phase) p =>
        let hp := Phase.drop_channels s.protocol acc.1 p names
        (hp.1, acc.2 ++ [hp.2]))
      (h, [])
    let s₂ : Session := { s with phases := w.2 }
    .ok (w.1, extend_droplist s₂
      (dropResolve (channels s₂) s₂.dropped names))

end Session

/-! ## Recording (`loader.py:303-489`) -/

structure Recording where
  sessions : List Session
  dropped : List String
  dataSlot : Option BufRef
deriving Repr, DecidableEq

/-- `sorted(sessions, key=lambda x: x.time_start)` (timestamps modelled as
naturals; `datetime` comparison is a linear order). -/
def sessionLe (a b : Session) : Bool := a.time_start ≤ b.time_start

namespace Recording

/-- `Recording.sampling_rate` (`loader.py:437-447`): asserts all sessions
agree. -/
def sampling_rate (r : Recording) : Except String Nat :=
  if allEqB (r.sessions.map Session.sampling_rate) then
    .ok (match r.sessions with
         | [] => 0
         | s :: _ => Session.sampling_rate s)
  else .error "The sampling rate should not change between sessions"

/-- `Recording.channels` (`loader.py:449-460`): asserts the sessions'
channel lists agree, compared by their *joined* strings as in the source;
then the first session's channels filtered by the recording's own drop set.
(For an empty session list the source returns the integer `0`; a `Recording`
is constructed with at least one session, `loader.py:321`.) -/
def channels (r : Recording) : Except String (List String) :=
  if allEqB (r.sessions.map (fun s => String.join (Session.channels s))) then
    .ok (match r.sessions with
         | [] => []
         | s :: _ =>
           (Session.channels s).filter (fun c => !(r.dropped.contains c)))
  else .error "Channel names should not change between sessions"

/-- `[s.n_channels for s in sessions]`: left to right, the first session
whose own assert fires raises. -/
def nChannelsList : List Session → Except String (List Nat)
  | [] => .ok []
  | s :: ss =>
    match Session.n_channels s with
    | .error e => .error e
    | .ok n =>
      match nChannelsList ss with
      | .error e => .error e
      | .ok ns => .ok (n :: ns)

/-- `Recording.n_channels` (`loader.py:425-435`): evaluates each session's
`n_channels` (whose own assert may fire) and asserts they agree. -/
def n_channels (r : Recording) : Except String Nat :=
  match nChannelsList r.sessions with
  | .error e => .error e
  | .ok ns =>
    if allEqB ns then .ok (ns.headD 0)
    else .error "The number of channels should not change between sessions"

/-- `Recording.n_samples` (`loader.py:416-423`). -/
def n_samples (r : Recording) : Nat :=
  (r.sessions.map Session.n_samples).sum

/-- Count of distinct elements, `len(set(l))`. -/
def distinctCount (l : List Nat) : Nat :=
  (l.foldl (fun acc x => if acc.contains x then acc else acc ++ [x]) []).length

/-- `Recording.events` (`loader.py:390-414`).  Sessions sorted by
`time_start`.  The source's guard
`assert len(set([s.sampling_rate for s in sessions])) >= 1` is satisfied by
*any* non-empty session list, so differing sampling rates are NOT rejected
here; the offsets are computed with the first session's rate.  The running
sample total advances only for sessions with a non-empty events table, as at
session level. -/
def eventsLoop (rate : Nat) :
    List Session → List NeuroneEvent → Nat → Except String (List NeuroneEvent)
  | [], evs, _ => .ok evs
  | s :: ss, evs, cur =>
    match Session.events s with
    | .error e => .error e
    | .ok es =>
      if 0 < es.length then
        eventsLoop rate ss
          (evs ++ es.map (offsetEvent cur (Int.ofNat (cur / rate))))
          (cur + Session.n_samples s)
      else eventsLoop rate ss evs cur

def events (r : Recording) : Except String (List NeuroneEvent) :=
  let ss := (sortTagged sessionLe r.sessions).map (fun x => x.2)
  if 1 ≤ distinctCount (ss.map Session.sampling_rate) then
    match ss with
    | [] => .error "IndexError: list index out of range"
    | s0 :: rest =>
      match Session.events s0 with
      | .error e => .error e
      | .ok e0 =>
        eventsLoop (Session.sampling_rate s0) rest e0 (Session.n_samples s0)
  else .error "Loading Sessions with different sampling rates is not supported"

/-- `Recording._extend_droplist` (inherited).  (The cached-`channels`
re-filtering of `_extend_droplist` does not apply to `Recording`, whose
`channels` is a plain property, `loader.py:64`.) -/
def extend_droplist (r : Recording) (names : List String) : Recording :=
  { r with dropped := setUnion r.dropped names }

/-- Outer session loop of the `Recording.data` computation
(`loader.py:346-371`): for each session (sorted by `time_start`), compute its
row range (from `len(s.data)` if its slot is populated, else `s.n_samples`),
`del s.data`, then run the phase loop over its phases sorted by number (the
source repeats the `Session.data` phase loop verbatim at lines 354-368, with
the recording's drop set; we reuse `Session.dataLoop`).
Returns (heap, sessions with loop-1 mutations written back (tagged), rows,
session slices, per-session phase-slice lists). -/
def dataSessionLoop (rdropped : List String) :
    Heap → Mat → List (Nat × Session) →
    Except String (Heap × List (Nat × Session) × Mat × List (Nat × Nat) ×
      List (List (Nat × Nat)))
  | h, rows, [] => .ok (h, [], rows, [], [])
  | h, rows, (i, s) :: rest =>
    let oldLength := rows.length
    let newLength := oldLength +
      (match s.dataSlot with
       | some ref => (deref h ref).length
       | none => Session.n_samples s)
    let s₁ : Session := { s with dataSlot := none }
    ebind (Session.dataLoop s₁.protocol rdropped h rows
        (sortTagged phaseLe s₁.phases)) (fun pl =>
      let s₂ : Session :=
        { s₁ with phases := Session.writeBack s₁.phases pl.2.1 }
      ebind (dataSessionLoop rdropped pl.1 pl.2.2.1 rest) (fun r =>
        .ok (r.1, (i, s₂) :: r.2.1, r.2.2.1,
          (oldLength, newLength) :: r.2.2.2.1, pl.2.2.2 :: r.2.2.2.2)))

/-- Second loop of the `Recording.data` computation (`loader.py:373-378`):
for each session of the *sorted* list, reassign each phase of `s.phases`
(the stored, unsorted list) positionally to the phase slices recorded while
walking the *sorted* phases, then the session itself to its session slice. -/
def dataAssign (newBuf : Nat) (upd : List (Nat × Session))
    (sslices : List (Nat × Nat)) (pslices : List (List (Nat × Nat))) :
    List (Nat × Session) :=
  match upd, sslices, pslices with
  | (i, s) :: us, ssl :: ssls, psl :: psls =>
    let s' : Session :=
      { s with
        phases := (s.phases.zip psl).map
          (fun q => Phase.setData q.1 ⟨newBuf, q.2.1, q.2.2⟩)
        dataSlot := some ⟨newBuf, ssl.1, ssl.2⟩ }
    (i, s') :: dataAssign newBuf us ssls psls
  | _, _, _ => []

/-- The body of the `Recording.data` lazy property (`loader.py:332-380`). -/
def dataCompute (h : Heap) (r : Recording) :
    Except String (Heap × Recording × Mat) :=
  let tagged := sortTagged sessionLe r.sessions
  ebind (dataSessionLoop r.dropped h [] tagged) (fun l =>
    let hb := allocBuf l.1 l.2.2.1
    let upd := dataAssign hb.2.buf l.2.1 l.2.2.2.1 l.2.2.2.2
    .ok (hb.1,
      { r with
        sessions := upd.foldl (fun acc is => acc.set is.1 is.2) r.sessions
        dataSlot := some hb.2 },
      l.2.2.1))

/-- Reading `r.data`. -/
def data (h : Heap) (r : Recording) :
    Except String (Heap × Recording × Mat) :=
  match r.dataSlot with
  | some ref => .ok (h, r, deref h ref)
  | none => dataCompute h r

/-- The value `r.data` currently denotes, without side effects. -/
def dataValue (h : Heap) (r : Recording) : Except String Mat :=
  match r.dataSlot with
  | some ref => .ok (deref h ref)
  | none => ebind (dataCompute h r) (fun res => .ok res.2.2)

/-- `Recording.clear_data` (`loader.py:382-388`). -/
def clear_data (r : Recording) : Recording :=
  { r with sessions := r.sessions.map Session.clear_data, dataSlot := none }

/-- The session/phase walk of the materialized branch of
`Recording.drop_channels` (`loader.py:472-484`): sessions in stored order
with their own offset counter; phases of all sessions in stored order with a
single cumulative offset counter.  Extending a droplist happens before the
`data` access, and `session.data`/`phase.data` accesses recompute if the
slot is empty. -/
def dropWalkRec (names : List String) (newBuf : Nat) :
    Heap → Nat → Nat → List Session → Except String (Heap × List Session)
  | h, _, _, [] => .ok (h, [])
  | h, soff, poff, s :: ss =>
    let s₁ := Session.extend_droplist s names
    ebind (Session.data h s₁) (fun hsd =>
      let slen := hsd.2.2.length
      let s₂ : Session :=
        { hsd.2.1 with dataSlot := some ⟨newBuf, soff, soff + slen⟩ }
      ebind (Session.dropWalk s₂.protocol names newBuf hsd.1 poff s₂.phases)
        (fun w =>
        let s₃ : Session := { s₂ with phases := w.2.1 }
        ebind (dropWalkRec names newBuf w.1 (soff + slen) w.2.2 ss) (fun r =>
          .ok (r.1, s₃ :: r.2))))

/-- The `for s in self.sessions: s.drop_channels(...)` loop of the
non-materialized branch (`loader.py:478-480` shape): a session's
`ValueError` aborts the loop. -/
def dropSessions (names : List String) :
    Heap → List Session → List Session → Except String (Heap × List Session)
  | h, acc, [] => .ok (h, acc)
  | h, acc, s :: ss =>
    ebind (Session.drop_channels h s names) (fun hs =>
      dropSessions names hs.1 (acc ++ [hs.2]) ss)

/-- `Recording.drop_channels` (`loader.py:462-488`).  `self.channels` and
the walks can raise, hence the `Except`.  Note that the final
`BaseContainer.drop_channels` re-reads `self.channels` *after* the names have
been pushed into every session, so the names are no longer visible there and
the recording's own drop set is left unchanged (the resolved set is empty). -/
def drop_channels (h : Heap) (r : Recording) (names : List String) :
    Except String (Heap × Recording) :=
  match r.dataSlot with
  | some ref =>
    ebind (channels r) (fun cur =>
      let idxs := sortDescNat
        ((names.filter (fun c => cur.contains c)).map (fun c => cur.indexOf c))
      let hb := allocBuf h (deleteCols idxs (deref h ref))
      ebind (dropWalkRec names hb.2.buf hb.1 0 0 r.sessions) (fun w =>
        let r₁ : Recording :=
          { r with sessions := w.2, dataSlot := some hb.2 }
        ebind (channels r₁) (fun vis =>
          .ok (w.1, extend_droplist r₁ (dropResolve vis r₁.dropped names)))))
  | none =>
    ebind (dropSessions names h [] r.sessions) (fun w =>
      let r₁ : Recording := { r with sessions := w.2 }
      ebind (channels r₁) (fun vis =>
        .ok (w.1, extend_droplist r₁ (dropResolve vis r₁.dropped names))))

end Recording

/-! ## Concrete instances used by counterexamples and witnesses -/

/-- A disk event with the given channel, code and sample range (auxiliary
fields zero). -/
def mkDiskEvent (ch code : Int) (a b : Nat) : DiskEvent :=
  ⟨1, 0, 0, ch, code, a, b, 0, 0, 0, 0⟩

def exProto : Protocol := ⟨["a", "b", "c"], 10⟩

def exPhaseA : Phase :=
  ⟨"1", [[1000, 2000, 3000], [4000, 5000, 6000]],
   [mkDiskEvent 2 7 10 11, mkDiskEvent 2 7 50 51, mkDiskEvent 2 7 190 191],
   [], none⟩

def exPhaseB : Phase :=
  ⟨"2", [[7000, 8000, 9000]], [mkDiskEvent 2 7 5 6], [], none⟩

def exSession : Session := ⟨exProto, 0, [exPhaseA, exPhaseB], [], none⟩

def exRecording : Recording := ⟨[exSession], [], none⟩

/-- A phase with `n` one-channel rows of zeros and the given events. -/
def mkFlatPhase (num : String) (n : Nat) (evs : List DiskEvent) : Phase :=
  ⟨num, List.replicate n [0], evs, [], none⟩

/-! ## C9: derived event times -/

def exProtoC9 : Protocol := ⟨["a"], 2⟩

def exPhaseC9 : Phase := ⟨"1", [[0]], [mkDiskEvent 1 5 1 3], [], none⟩

/-- **C9, counterexample.**  The claim states that the derived `StartTime`
equals `StartSampleIndex` divided by the sampling rate.  For the event with
`StartSampleIndex = 1` at sampling rate 2, the events table holds
`StartTime = 0`, not `1/2`: `read_neurone_events` computes the float quotient
but stores it into the `np.int64` column `StartTime` of `events_dtype`
(`neurone.py:284,302`), truncating it. -/
theorem C9_counterexample :
    (Phase.events exProtoC9 exPhaseC9).map
        (fun e => ((e.StartTime : ℚ),
          (e.StartSampleIndex : ℚ) / (exProtoC9.sampling_rate : ℚ)))
      = [(0, 1 / 2)] ∧ (0 : ℚ) ≠ 1 / 2 := by
  constructor
  · simp [Phase.events, exPhaseC9, exProtoC9, read_neurone_events,
      annotateEvent, mkDiskEvent]
  · norm_num

/-- **C9, amended.**  For every event record of a Phase, the derived
`StartTime` (resp. `StopTime`) equals the *floor* of `StartSampleIndex`
(resp. `StopSampleIndex`) divided by the sampling rate — the integer
truncation imposed by the `int64` events dtype; all other fields are carried
over from the on-disk record unchanged. -/
theorem C9_event_times_floor (proto : Protocol) (p : Phase) :
    Phase.events proto p = p.rawEvents.map (fun d =>
      { Revision := d.Revision
        Type' := d.Type'
        SourcePort := d.SourcePort
        ChannelNumber := d.ChannelNumber
        Code := d.Code
        StartSampleIndex := d.StartSampleIndex
        StopSampleIndex := d.StopSampleIndex
        DescriptionLength := d.DescriptionLength
        DescriptionOffset := d.DescriptionOffset
        DataLength := d.DataLength
        DataOffset := d.DataOffset
        StartTime := Int.ofNat
          ⌊(d.StartSampleIndex : ℚ) / (proto.sampling_rate : ℚ)⌋₊
        StopTime := Int.ofNat
          ⌊(d.StopSampleIndex : ℚ) / (proto.sampling_rate : ℚ)⌋₊ }) := by
  unfold Phase.events read_neurone_events
  refine List.map_congr_left (fun d _ => ?_)
  unfold annotateEvent
  have h1 : ⌊(d.StartSampleIndex : ℚ) / (proto.sampling_rate : ℚ)⌋₊
      = d.StartSampleIndex / proto.sampling_rate := by
    rw [Nat.floor_div_nat, Nat.floor_natCast]
  have h2 : ⌊(d.StopSampleIndex : ℚ) / (proto.sampling_rate : ℚ)⌋₊
      = d.StopSampleIndex / proto.sampling_rate := by
    rw [Nat.floor_div_nat, Nat.floor_natCast]
  rw [h1, h2]

/-! ## C5: cross-session consistency errors -/

def exSessRate1 : Session :=
  ⟨⟨["a"], 1000⟩, 0, [mkFlatPhase "1" 200 [mkDiskEvent 1 7 10 11]], [], none⟩

def exSessRate2 : Session :=
  ⟨⟨["a"], 500⟩, 1, [mkFlatPhase "1" 100 [mkDiskEvent 1 7 5 6]], [], none⟩

/-- Two sessions whose protocols report different sampling rates
(1000 vs 500). -/
def exRecMismatch : Recording := ⟨[exSessRate1, exSessRate2], [], none⟩

deriving instance DecidableEq for Except

set_option maxRecDepth 10000 in
/-- **C5, failing input.**  Reading `Recording.sampling_rate` on a recording
whose sessions report different sampling rates fails, as claimed — but
reading `Recording.events`, an aggregate depending on the sampling rate, does
*not* fail: its guard `assert len(set([s.sampling_rate ...])) >= 1`
(`loader.py:399`) is satisfied by any non-empty session list (the comparison
direction contradicts the assert's own message), and the events are silently
combined with the first session's rate (offset 200 for the second session's
event at index 5). -/
theorem C5_mismatch_only_partially_detected :
    Recording.sampling_rate exRecMismatch
        = .error "The sampling rate should not change between sessions"
      ∧ (Recording.events exRecMismatch).map (fun evs =>
          evs.map (fun e => e.StartSampleIndex)) = .ok [10, 205] := by
  constructor
  · decide
  · decide

/-! ## C3: event-offset aggregation -/

/-- The claim's offset rule, following its words: every subsequent phase's
events are shifted by the running total of *all* prior phases' sample counts
(and the truncated running time), the total advancing by each phase's
`n_samples` whether or not its events table is empty. -/
def claimC3Offsets (proto : Protocol) (base : Nat) : List Phase → List NeuroneEvent
  | [] => []
  | p :: ps =>
    (Phase.events proto p).map
        (offsetEvent base (Int.ofNat (base / proto.sampling_rate)))
      ++ claimC3Offsets proto (base + Phase.n_samples p) ps

/-- The claim's account of `Session.events`, applied to the phases in phase
order. -/
def claimC3Events (proto : Protocol) : List Phase → List NeuroneEvent
  | [] => []
  | p0 :: rest => Phase.events proto p0 ++ claimC3Offsets proto (Phase.n_samples p0) rest

/-- What the code actually does (`loader.py:249-258`): the running sample
total advances *only* past a phase whose events table is non-empty, because
`current_samples += phases[i].n_samples` sits inside the
`if len(phases[i].events) > 0` block. -/
def codeC3Offsets (proto : Protocol) (base : Nat) : List Phase → List NeuroneEvent
  | [] => []
  | p :: ps =>
    if (Phase.events proto p).length = 0 then codeC3Offsets proto base ps
    else
      (Phase.events proto p).map
          (offsetEvent base (Int.ofNat (base / proto.sampling_rate)))
        ++ codeC3Offsets proto (base + Phase.n_samples p) ps

/-- Phase A: 200 samples, events at 10, 50, 190; phase B: 150 samples, no
events; phase C: 100 samples, one event at 5. -/
def exPhase200 : Phase := mkFlatPhase "1" 200
  [mkDiskEvent 1 7 10 11, mkDiskEvent 1 7 50 51, mkDiskEvent 1 7 190 191]

def exPhaseEmpty : Phase := mkFlatPhase "2" 150 []

def exPhase100 : Phase := mkFlatPhase "3" 100 [mkDiskEvent 1 7 5 6]

def exSessBug : Session :=
  ⟨⟨["a"], 10⟩, 0, [exPhase200, exPhaseEmpty, exPhase100], [], none⟩

/-- Phase A (200 samples, events 10/50/190) and B (150 samples, event 5):
the claim's worked example. -/
def exSessAB : Session :=
  ⟨⟨["a"], 10⟩, 0, [mkFlatPhase "1" 200
      [mkDiskEvent 1 7 10 11, mkDiskEvent 1 7 50 51, mkDiskEvent 1 7 190 191],
    mkFlatPhase "2" 150 [mkDiskEvent 1 7 5 6]], [], none⟩

set_option maxRecDepth 10000 in
/-- **C3, counterexample.**  With phases A (200 samples, 3 events),
B (150 samples, *no* events), C (100 samples, 1 event at 5), the code leaves
C's event at `StartSampleIndex = 205`: B's 150 samples are never added to the
running total because the advance sits inside the non-empty check.  The
claim's rule ("the running total advancing by each Phase's n_samples") puts
it at 355. -/
theorem C3_counterexample :
    (Session.events exSessBug).map (fun evs =>
        evs.map (fun e => e.StartSampleIndex)) = .ok [10, 50, 190, 205]
      ∧ (claimC3Events exSessBug.protocol exSessBug.phases).map
          (fun e => e.StartSampleIndex) = [10, 50, 190, 355]
      ∧ (205 : Nat) ≠ 355 := by
  refine ⟨by decide, by decide, by decide⟩


/-- The `Session.events` fold with an explicit accumulator equals the direct
recursion `codeC3Offsets`. -/
theorem sessionEvents_foldl_eq (proto : Protocol) (ps : List Phase)
    (acc : List NeuroneEvent) (cur : Nat) :
    (ps.foldl
      (fun (a : List NeuroneEvent × Nat) p =>
        if 0 < (Phase.events proto p).length then
          (a.1 ++ (Phase.events proto p).map
              (offsetEvent a.2 (Int.ofNat (a.2 / proto.sampling_rate))),
           a.2 + Phase.n_samples p)
        else a)
      (acc, cur)).1 = acc ++ codeC3Offsets proto cur ps := by
  induction ps generalizing acc cur with
  | nil => simp [codeC3Offsets]
  | cons p ps ih =>
    rw [List.foldl_cons]
    by_cases h : (Phase.events proto p).length = 0
    · rw [if_neg (by omega), ih]
      simp only [codeC3Offsets, if_pos h]
    · rw [if_pos (Nat.pos_of_ne_zero h), ih]
      simp only [codeC3Offsets, if_neg h, List.append_assoc]

set_option maxRecDepth 10000 in
/-- **C3, amended.**  `Session.events` is the concatenation, over the phases
sorted by phase number, of the phases' event tables, the first table taken
as is and each later *non-empty* table shifted by the running sample total
and by that total divided by the sampling rate truncated to a whole number —
where the running total advances only past phases whose events table is
non-empty (the first phase's `n_samples` is always counted).  In particular
the claim's worked example holds: phase A (200 samples, events at 10, 50,
190) and phase B (150 samples, one event at 5) yield B's event at 205. -/
theorem C3_events_offsets :
    (∀ s : Session,
      Session.events s =
        match (sortTagged phaseLe s.phases).map (fun x => x.2) with
        | [] => .error "IndexError: list index out of range"
        | p0 :: rest =>
          .ok (Phase.events s.protocol p0
            ++ codeC3Offsets s.protocol (Phase.n_samples p0) rest))
      ∧ (Session.events exSessAB).map (fun evs =>
          evs.map (fun e => e.StartSampleIndex)) = .ok [10, 50, 190, 205] := by
  constructor
  · intro s
    unfold Session.events
    cases hs : (sortTagged phaseLe s.phases).map (fun x => x.2) with
    | nil => rfl
    | cons p0 rest =>
      simp only [sessionEvents_foldl_eq s.protocol rest
        (Phase.events s.protocol p0) (Phase.n_samples p0)]
  · decide

/-! ## Basic lemmas about the set-as-list operations -/

theorem containsB_iff (l : List String) (c : String) :
    l.contains c = true ↔ c ∈ l := List.elem_iff

theorem contains_eq_decide (l : List String) (c : String) :
    l.contains c = decide (c ∈ l) := by
  by_cases h : c ∈ l
  · simp [h, (containsB_iff l c).2 h]
  · cases hc : l.contains c
    · simp [h]
    · exact absurd ((containsB_iff l c).1 hc) h

theorem mem_setInsert (l : List String) (d c : String) :
    c ∈ setInsert l d ↔ c ∈ l ∨ c = d := by
  unfold setInsert
  by_cases h : l.contains d = true
  · rw [if_pos h]
    exact ⟨fun hc => Or.inl hc, fun hc => hc.elim id
      (fun e => e ▸ (containsB_iff l d).1 h)⟩
  · rw [if_neg h]
    simp [List.mem_append]

theorem mem_setUnion (l ns : List String) (c : String) :
    c ∈ setUnion l ns ↔ c ∈ l ∨ c ∈ ns := by
  induction ns generalizing l with
  | nil => simp [setUnion]
  | cons d ns ih =>
    unfold setUnion at ih ⊢
    rw [List.foldl_cons, ih (setInsert l d), mem_setInsert]
    simp only [List.mem_cons]
    tauto

theorem setUnion_nil (l : List String) : setUnion l [] = l := rfl

theorem nodup_setInsert (l : List String) (d : String) (h : l.Nodup) :
    (setInsert l d).Nodup := by
  unfold setInsert
  by_cases hc : l.contains d = true
  · rw [if_pos hc]; exact h
  · rw [if_neg hc]
    have : d ∉ l := fun hm => hc ((containsB_iff l d).2 hm)
    simp [List.nodup_append, h, this]

theorem nodup_setUnion (l ns : List String) (h : l.Nodup) :
    (setUnion l ns).Nodup := by
  induction ns generalizing l with
  | nil => exact h
  | cons d ns ih =>
    unfold setUnion
    rw [List.foldl_cons]
    exact ih (setInsert l d) (nodup_setInsert l d h)

theorem mem_setDiff (a b : List String) (c : String) :
    c ∈ setDiff a b ↔ c ∈ a ∧ c ∉ b := by
  simp [setDiff, List.mem_filter, contains_eq_decide]

theorem mem_dropResolve (vis dropped names : List String) (c : String) :
    c ∈ dropResolve vis dropped names ↔ c ∈ names ∧ c ∉ dropped ∧ c ∈ vis := by
  simp [dropResolve, List.mem_filter, mem_setDiff, mem_setUnion,
    contains_eq_decide, and_assoc]

theorem mem_dropWarnings (vis dropped names : List String) (c : String) :
    c ∈ dropWarnings vis dropped names
      ↔ c ∈ names ∧ ¬(c ∉ dropped ∧ c ∈ vis) := by
  rw [dropWarnings, mem_setDiff, mem_setUnion, mem_dropResolve]
  simp only [List.not_mem_nil, false_or]
  tauto

theorem nodup_dropResolve (vis dropped names : List String) :
    (dropResolve vis dropped names).Nodup := by
  unfold dropResolve setDiff
  exact ((nodup_setUnion [] names List.nodup_nil).filter _).filter _

/-- Filtering by the extended drop set = filtering by the old set, then by
the new names. -/
theorem filter_setUnion (chs dropped ns : List String) :
    chs.filter (fun c => !((setUnion dropped ns).contains c))
      = (chs.filter (fun c => !(dropped.contains c))).filter
          (fun c => !(ns.contains c)) := by
  rw [List.filter_filter]
  refine List.filter_congr (fun c _ => ?_)
  by_cases h₁ : c ∈ dropped
  · simp [contains_eq_decide, h₁, mem_setUnion]
  · by_cases h₂ : c ∈ ns
    · simp [contains_eq_decide, h₁, h₂, mem_setUnion]
    · simp [contains_eq_decide, h₁, h₂, mem_setUnion]

/-- Extending the drop set by the *resolved* part of `names` removes exactly
the `names` from the visible channel list. -/
theorem filter_setUnion_resolve (chs dropped names : List String) :
    chs.filter (fun c =>
        !((setUnion dropped (dropResolve
            (chs.filter (fun c => !(dropped.contains c))) dropped names)).contains c))
      = (chs.filter (fun c => !(dropped.contains c))).filter
          (fun c => !(names.contains c)) := by
  rw [List.filter_filter]
  refine List.filter_congr (fun c hc => ?_)
  by_cases h₁ : c ∈ dropped
  · simp [contains_eq_decide, h₁, mem_setUnion, mem_dropResolve]
  · by_cases h₂ : c ∈ names
    · simp [contains_eq_decide, h₁, h₂, mem_setUnion, mem_dropResolve,
        List.mem_filter, hc]
    · simp [contains_eq_decide, h₁, h₂, mem_setUnion, mem_dropResolve]

/-! ## Bookkeeping effects of `drop_channels` (towards C6) -/

/-- `Phase.drop_channels` extends the drop set by exactly the resolved names
and touches no other non-buffer field. -/
theorem phase_drop_bookkeeping (proto : Protocol) (h : Heap) (p : Phase)
    (names : List String) :
    (Phase.drop_channels proto h p names).2.dropped
        = setUnion p.dropped
            (dropResolve (Phase.channels proto p) p.dropped names)
      ∧ (Phase.drop_channels proto h p names).2.number = p.number
      ∧ (Phase.drop_channels proto h p names).2.rawData = p.rawData
      ∧ (Phase.drop_channels proto h p names).2.rawEvents = p.rawEvents := by
  cases hslot : p.dataSlot <;>
    simp [Phase.drop_channels, hslot, Phase.extend_droplist, Phase.channels]

/-- The channel list visible after `Phase.drop_channels` is the old one with
the requested names removed — resolvable or not. -/
theorem phase_drop_channels_filter (proto : Protocol) (h : Heap) (p : Phase)
    (names : List String) :
    Phase.channels proto (Phase.drop_channels proto h p names).2
      = (Phase.channels proto p).filter (fun c => !(names.contains c)) := by
  have hb := (phase_drop_bookkeeping proto h p names).1
  unfold Phase.channels at *
  rw [hb]
  exact filter_setUnion_resolve proto.channels p.dropped names

/-- When `Session.drop_channels` succeeds it extends the session's own drop
set by exactly the resolved names and preserves protocol and timestamp. -/
theorem session_drop_bookkeeping (h : Heap) (s : Session)
    (names : List String) (h' : Heap) (s' : Session)
    (hok : Session.drop_channels h s names = .ok (h', s')) :
    s'.dropped
        = setUnion s.dropped (dropResolve (Session.channels s) s.dropped names)
      ∧ s'.protocol = s.protocol
      ∧ s'.time_start = s.time_start := by
  cases hslot : s.dataSlot with
  | some ref =>
    simp only [Session.drop_channels, hslot] at hok
    obtain ⟨w, hw, hok₂⟩ := ebind_ok_inv hok
    simp only [Except.ok.injEq, Prod.mk.injEq] at hok₂
    obtain ⟨rfl, rfl⟩ := hok₂
    simp [Session.extend_droplist, Session.channels]
  | none =>
    simp only [Session.drop_channels, hslot, Except.ok.injEq,
      Prod.mk.injEq] at hok
    obtain ⟨rfl, rfl⟩ := hok
    simp [Session.extend_droplist, Session.channels]

theorem session_drop_channels_filter (h : Heap) (s : Session)
    (names : List String) (h' : Heap) (s' : Session)
    (hok : Session.drop_channels h s names = .ok (h', s')) :
    Session.channels s'
      = (Session.channels s).filter (fun c => !(names.contains c)) := by
  have hb := session_drop_bookkeeping h s names h' s' hok
  unfold Session.channels at *
  rw [hb.1, hb.2.1]
  exact filter_setUnion_resolve s.protocol.channels s.dropped names

/-- A successful `Session.data` read does not change the session's drop set,
protocol or timestamp. -/
theorem session_data_preserves (h : Heap) (s : Session) (h' : Heap)
    (s' : Session) (m : Mat) (hok : Session.data h s = .ok (h', s', m)) :
    s'.dropped = s.dropped
      ∧ s'.protocol = s.protocol
      ∧ s'.time_start = s.time_start := by
  cases hslot : s.dataSlot with
  | some ref =>
    simp only [Session.data, hslot, Except.ok.injEq, Prod.mk.injEq] at hok
    obtain ⟨rfl, rfl, rfl⟩ := hok
    exact ⟨rfl, rfl, rfl⟩
  | none =>
    simp only [Session.data, Session.dataCompute, hslot] at hok
    obtain ⟨l, hl, hok₂⟩ := ebind_ok_inv hok
    simp only [Except.ok.injEq, Prod.mk.injEq] at hok₂
    obtain ⟨rfl, rfl, rfl⟩ := hok₂
    exact ⟨rfl, rfl, rfl⟩

/-- `channels` only reads `protocol` and `dropped`. -/
theorem session_channels_congr (s₁ s₂ : Session)
    (hp : s₁.protocol = s₂.protocol) (hd : s₁.dropped = s₂.dropped) :
    Session.channels s₁ = Session.channels s₂ := by
  unfold Session.channels; rw [hp, hd]

/-- Channel-list effect of one session's processing inside the materialized
branch of `Recording.drop_channels`: on success the names end up removed. -/
theorem dropWalkRec_channels (names : List String) (newBuf : Nat) :
    ∀ (ss : List Session) (h : Heap) (soff poff : Nat) (h' : Heap)
      (out : List Session),
      Recording.dropWalkRec names newBuf h soff poff ss = .ok (h', out) →
      List.Forall₂
        (fun s s' => Session.channels s'
          = (Session.channels s).filter (fun c => !(names.contains c)))
        ss out := by
  intro ss
  induction ss with
  | nil =>
    intro h soff poff h' out hok
    simp only [Recording.dropWalkRec, Except.ok.injEq, Prod.mk.injEq] at hok
    obtain ⟨rfl, rfl⟩ := hok
    exact List.Forall₂.nil
  | cons s ss ih =>
    intro h soff poff h' out hok
    simp only [Recording.dropWalkRec] at hok
    obtain ⟨hsd, hdata, hok₂⟩ := ebind_ok_inv hok
    obtain ⟨w, hwalk, hok₃⟩ := ebind_ok_inv hok₂
    obtain ⟨r, hrec, hok₄⟩ := ebind_ok_inv hok₃
    simp only [Except.ok.injEq, Prod.mk.injEq] at hok₄
    obtain ⟨rfl, rfl⟩ := hok₄
    refine List.forall₂_cons.2 ⟨?_, ih _ _ _ _ _ hrec⟩
    have hd := session_data_preserves h (Session.extend_droplist s names)
      hsd.1 hsd.2.1 hsd.2.2 hdata
    refine Eq.trans (session_channels_congr _ (Session.extend_droplist s names)
      hd.2.1 hd.1) ?_
    unfold Session.extend_droplist Session.channels
    exact filter_setUnion s.protocol.channels s.dropped names

/-- The session loop of the non-materialized branch of
`Recording.drop_channels`: on success each session is processed once, the
results appended in order. -/
theorem dropSessions_spec (names : List String) :
    ∀ (ss : List Session) (h : Heap) (acc : List Session) (h' : Heap)
      (out : List Session),
      Recording.dropSessions names h acc ss = .ok (h', out) →
      ∃ new, out = acc ++ new
        ∧ List.Forall₂
            (fun s s' => Session.channels s'
              = (Session.channels s).filter (fun c => !(names.contains c)))
            ss new := by
  intro ss
  induction ss with
  | nil =>
    intro h acc h' out hok
    simp only [Recording.dropSessions, Except.ok.injEq, Prod.mk.injEq] at hok
    obtain ⟨rfl, rfl⟩ := hok
    exact ⟨[], by simp, List.Forall₂.nil⟩
  | cons s ss ih =>
    intro h acc h' out hok
    simp only [Recording.dropSessions] at hok
    obtain ⟨hs, hdrop, hok₂⟩ := ebind_ok_inv hok
    obtain ⟨new, hout, hrel⟩ := ih hs.1 (acc ++ [hs.2]) h' out hok₂
    exact ⟨hs.2 :: new, by rw [hout, List.append_assoc]; rfl,
      List.Forall₂.cons
        (session_drop_channels_filter h s names hs.1 hs.2 hdrop) hrel⟩

/-- The heap-threading `foldl` pattern of the non-materialized drop branches:
each element is processed once, results appended in order. -/
theorem foldl_thread_spec {α β : Type} (f : Heap → α → Heap × β)
    (R : α → β → Prop) (hf : ∀ h a, R a (f h a).2) :
    ∀ (l : List α) (h : Heap) (init : List β),
      ∃ out,
        (l.foldl (fun (acc : Heap × List β) x =>
            ((f acc.1 x).1, acc.2 ++ [(f acc.1 x).2])) (h, init)).2
          = init ++ out
        ∧ List.Forall₂ R l out := by
  intro l
  induction l with
  | nil => exact fun h init => ⟨[], by simp, List.Forall₂.nil⟩
  | cons a l ih =>
    intro h init
    rw [List.foldl_cons]
    obtain ⟨out, hout, hrel⟩ := ih (f h a).1 (init ++ [(f h a).2])
    exact ⟨(f h a).2 :: out, by rw [hout, List.append_assoc]; rfl,
      List.Forall₂.cons (hf h a) hrel⟩

/-- When `Recording.drop_channels` succeeds, every session's channel list
loses exactly the requested names, and the recording's *own* drop set is
unchanged: the final `BaseContainer.drop_channels` re-reads `self.channels`
only after the sessions have been extended, so none of the names resolve. -/
theorem recording_drop_ok_spec (h : Heap) (r : Recording) (names : List String)
    (h' : Heap) (r' : Recording)
    (hok : Recording.drop_channels h r names = .ok (h', r')) :
    r'.dropped = r.dropped
      ∧ List.Forall₂
          (fun s s' => Session.channels s'
            = (Session.channels s).filter (fun c => !(names.contains c)))
          r.sessions r'.sessions := by
  have main : ∀ (ss : List Session) (slot : Option BufRef) (w₁ : Heap)
      (hses : List.Forall₂
        (fun s s' => Session.channels s'
          = (Session.channels s).filter (fun c => !(names.contains c)))
        r.sessions ss)
      (hbind : ebind (Recording.channels ⟨ss, r.dropped, slot⟩)
        (fun vis => Except.ok (w₁, Recording.extend_droplist
            ⟨ss, r.dropped, slot⟩
            (dropResolve vis r.dropped names))) = Except.ok (h', r')),
      r'.dropped = r.dropped
        ∧ List.Forall₂
            (fun s s' => Session.channels s'
              = (Session.channels s).filter (fun c => !(names.contains c)))
            r.sessions r'.sessions := by
    intro ss slot w₁ hses hbind
    obtain ⟨vis, hvis, hok₂⟩ := ebind_ok_inv hbind
    have hnone : ∀ c ∈ names, c ∉ vis := by
      intro c hc hcv
      unfold Recording.channels at hvis
      by_cases hall : allEqB ((⟨ss, r.dropped, slot⟩ : Recording).sessions.map
          (fun s => String.join (Session.channels s))) = true
      · rw [if_pos hall] at hvis
        have hvis' := Except.ok.inj hvis
        cases hs : ss with
        | nil =>
          rw [hs] at hvis'
          rw [← hvis'] at hcv
          simp at hcv
        | cons s₀ sl =>
          rw [hs] at hvis'
          rw [← hvis'] at hcv
          have hmem := (List.mem_filter.1 hcv).1
          cases hs0 : r.sessions with
          | nil => rw [hs0, hs] at hses; exact absurd hses (by simp)
          | cons t₀ ts =>
            rw [hs0, hs] at hses
            have hrel := (List.forall₂_cons.1 hses).1
            rw [hrel] at hmem
            have := (List.mem_filter.1 hmem).2
            simp [contains_eq_decide, hc] at this
      · rw [if_neg hall] at hvis
        exact Except.noConfusion hvis
    have hres : dropResolve vis r.dropped names = [] := by
      unfold dropResolve
      refine List.filter_eq_nil_iff.2 (fun c hc => ?_)
      have hcn : c ∈ names := by
        have := (mem_setDiff _ _ c).1 hc
        exact ((mem_setUnion [] names c).1 this.1).elim
          (fun hx => absurd hx (List.not_mem_nil c)) id
      intro hcont
      exact hnone c hcn ((containsB_iff vis c).1 hcont)
    simp only [Except.ok.injEq, Prod.mk.injEq] at hok₂
    obtain ⟨rfl, rfl⟩ := hok₂
    rw [hres]
    constructor
    · show setUnion r.dropped [] = r.dropped
      exact setUnion_nil r.dropped
    · exact hses
  cases hslot : r.dataSlot with
  | some ref =>
    simp only [Recording.drop_channels, hslot] at hok
    obtain ⟨cur, hcur, hok₂⟩ := ebind_ok_inv hok
    obtain ⟨w, hw, hok₃⟩ := ebind_ok_inv hok₂
    exact main w.2 _ w.1
      (dropWalkRec_channels names _ r.sessions _ 0 0 w.1 w.2 hw) hok₃
  | none =>
    simp only [Recording.drop_channels, hslot] at hok
    obtain ⟨w, hw, hok₂⟩ := ebind_ok_inv hok
    obtain ⟨new, hout, hrel⟩ := dropSessions_spec names r.sessions h [] w.1 w.2 hw
    rw [List.nil_append] at hout
    exact main w.2 none w.1 (hout ▸ hrel) hok₂

/-! ## C6: unresolvable names in `drop_channels` -/

/-- The `_drop_indexes` comprehension raises `ValueError` as soon as a
dropped name is absent from the protocol channel list. -/
theorem indexListE_error_of_absent (chs : List String) :
    ∀ l : List String, (∃ c ∈ l, c ∉ chs) →
    ∃ e, indexListE chs l = .error e := by
  intro l
  induction l with
  | nil =>
    rintro ⟨c, hc, -⟩
    exact absurd hc (List.not_mem_nil c)
  | cons d ds ih =>
    rintro ⟨c, hc, hcn⟩
    by_cases hd : chs.contains d = true
    · have hdok : indexOfE chs d = .ok (chs.indexOf d) := by
        unfold indexOfE
        rw [if_pos hd]
      have hcds : c ∈ ds := by
        rcases List.mem_cons.1 hc with rfl | h2
        · exact absurd ((containsB_iff chs c).1 hd) hcn
        · exact h2
      obtain ⟨e, he⟩ := ih ⟨c, hcds, hcn⟩
      refine ⟨e, ?_⟩
      simp only [indexListE, hdok, ebind_ok, he, ebind_error]
    · refine ⟨"ValueError: sequence.index(x): x not in sequence", ?_⟩
      have hderr : indexOfE chs d
          = .error "ValueError: sequence.index(x): x not in sequence" := by
        unfold indexOfE
        rw [if_neg hd]
      simp only [indexListE, hderr, ebind_error]

/-- Reading an unloaded phase whose drop set holds a name that never existed
in the protocol raises `ValueError` (through `_drop_indexes`,
`loader.py:48`). -/
theorem phase_data_error_of_bad_drop (proto : Protocol) (h : Heap) (p : Phase)
    (hslot : p.dataSlot = none)
    (hbad : ∃ c ∈ p.dropped, c ∉ proto.channels) :
    ∃ e, Phase.data proto h p = .error e := by
  obtain ⟨e, he⟩ := indexListE_error_of_absent proto.channels p.dropped hbad
  refine ⟨e, ?_⟩
  simp only [Phase.data, hslot, Phase.dataCompute, Phase.drop_indexes, he,
    ebind_error]

/-- On fully cached phases the materialized drop walk cannot raise. -/
theorem dropWalk_all_some (proto : Protocol) (names : List String)
    (newBuf : Nat) :
    ∀ (ps : List Phase) (h : Heap) (off : Nat),
      (∀ p ∈ ps, p.dataSlot.isSome) →
      ∃ w, Session.dropWalk proto names newBuf h off ps = .ok w := by
  intro ps
  induction ps with
  | nil => intro h off _; exact ⟨(h, [], off), rfl⟩
  | cons p ps ih =>
    intro h off hall
    obtain ⟨ref, href⟩ := Option.isSome_iff_exists.1
      (hall p (List.mem_cons_self _ _))
    have href2 : (Phase.extend_droplist p names).dataSlot = some ref := href
    obtain ⟨w2, hw2⟩ := ih h (off + (deref h ref).length)
      (fun q hq => hall q (List.mem_cons_of_mem _ hq))
    have hdata : Phase.data proto h (Phase.extend_droplist p names)
        = .ok (h, Phase.extend_droplist p names, deref h ref) := by
      unfold Phase.data
      rw [href2]
    rw [Session.dropWalk, hdata, ebind_ok]
    dsimp only
    rw [hw2, ebind_ok]
    exact ⟨_, rfl⟩

/-- `Session.drop_channels` cannot raise when the session is not
materialized, or when every phase is still materialized (no reload
happens). -/
theorem session_drop_ok_of_fresh_or_loaded (h : Heap) (s : Session)
    (names : List String)
    (hcase : s.dataSlot = none ∨ ∀ p ∈ s.phases, p.dataSlot.isSome) :
    ∃ h' s', Session.drop_channels h s names = .ok (h', s') := by
  cases hslot : s.dataSlot with
  | none =>
    simp only [Session.drop_channels, hslot]
    exact ⟨_, _, rfl⟩
  | some ref =>
    have hall : ∀ p ∈ s.phases, p.dataSlot.isSome := by
      rcases hcase with hnone | hall
      · rw [hslot] at hnone
        exact Option.noConfusion hnone
      · exact hall
    obtain ⟨w, hw⟩ := dropWalk_all_some s.protocol names _ s.phases _ 0 hall
    simp only [Session.drop_channels, hslot]
    rw [hw, ebind_ok]
    exact ⟨_, _, rfl⟩

/-- A materialized session holding an unloaded phase: the phase slot was
cleared, the session buffer is still cached. -/
def exPhaseC6err : Phase := ⟨"1", [[0, 0, 0]], [], [], none⟩

def exHeapC6 : Heap := [[[0, 0, 0]]]

def exSessC6err : Session :=
  ⟨exProto, 0, [exPhaseC6err], [], some ⟨0, 0, 1⟩⟩

set_option maxRecDepth 10000 in
/-- **C6, counterexample.**  Two failures of the claim.  (1) `drop_channels`
*can* raise: on a materialized session whose phase data was cleared, dropping
a never-existed name pushes the raw name into the phase's drop set
(`loader.py:293`) and the subsequent `phase.data` reload (`loader.py:294`)
hits `operator.indexOf` in `_drop_indexes` (`loader.py:48`), raising
`ValueError` instead of skipping the name with a warning.  (2) On a
*Recording*, the valid names are NOT added to the container's own drop set:
`"a"` is visible in the recording's channel list,
`drop_channels(["a", "bogus"])` succeeds and removes `"a"` from every
level's channel view, but the recording's drop set stays empty (the
session's gets it): by the time the shared base bookkeeping resolves the
names against `self.channels`, the sessions have already dropped them, so
the resolved set is empty. -/
theorem C6_counterexample :
    Session.drop_channels exHeapC6 exSessC6err ["bogus"]
        = .error "ValueError: sequence.index(x): x not in sequence"
      ∧ Recording.channels exRecording = .ok ["a", "b", "c"]
      ∧ (Recording.drop_channels [] exRecording ["a", "bogus"]).map
          (fun x => (x.2.dropped, x.2.sessions.map Session.dropped))
        = .ok ([], [["a"]])
      ∧ ¬("a" ∈ ([] : List String)) := by
  refine ⟨by decide, by decide, by decide, by decide⟩

/-- **C6, amended.**  For a Phase the claim holds verbatim: `drop_channels`
is total (its `indexOf` comprehension is guarded by `channel in
self.channels` and nothing reloads), the drop set is extended by exactly the
resolved names, the requested names all disappear from the channel list, and
the emitted warning names exactly the unresolvable ones.  For a Session,
`drop_channels` raises no error when the session's data is not materialized
or when all its phases' data still are, and whenever it returns, the same
bookkeeping holds (drop set extended by exactly the resolved names, names
gone from `channels`); but on materialized session data with a cleared
phase, a never-existed name reaches the unguarded `operator.indexOf` of the
phase reload and raises `ValueError` (counterexample).  For a Recording the
same reload hazard applies through its sessions; when `drop_channels`
returns, the names are removed from the channel views, but the recording's
*own* drop set is left unchanged — the valid names land in the sessions' and
phases' drop sets instead. -/
theorem C6_drop_unresolvable :
    (∀ (proto : Protocol) (h : Heap) (p : Phase) (names : List String),
      (Phase.drop_channels proto h p names).2.dropped
          = setUnion p.dropped
              (dropResolve (Phase.channels proto p) p.dropped names)
        ∧ Phase.channels proto (Phase.drop_channels proto h p names).2
          = (Phase.channels proto p).filter (fun c => !(names.contains c)))
    ∧ (∀ (vis dropped names : List String) (c : String),
      c ∈ dropWarnings vis dropped names
        ↔ c ∈ names ∧ ¬(c ∉ dropped ∧ c ∈ vis))
    ∧ (∀ (h : Heap) (s : Session) (names : List String),
        s.dataSlot = none ∨ (∀ p ∈ s.phases, p.dataSlot.isSome) →
        ∃ h' s', Session.drop_channels h s names = .ok (h', s'))
    ∧ (∀ (h : Heap) (s : Session) (names : List String) (h' : Heap)
        (s' : Session), Session.drop_channels h s names = .ok (h', s') →
      s'.dropped
          = setUnion s.dropped
              (dropResolve (Session.channels s) s.dropped names)
        ∧ Session.channels s'
          = (Session.channels s).filter (fun c => !(names.contains c)))
    ∧ (∀ (proto : Protocol) (h : Heap) (p : Phase),
        p.dataSlot = none → (∃ c ∈ p.dropped, c ∉ proto.channels) →
        ∃ e, Phase.data proto h p = .error e)
    ∧ (∀ (h : Heap) (r : Recording) (names : List String) (h' : Heap)
        (r' : Recording), Recording.drop_channels h r names = .ok (h', r') →
      r'.dropped = r.dropped
        ∧ ∀ l, Recording.channels r' = .ok l → ∀ c ∈ names, c ∉ l) := by
  refine ⟨?_, mem_dropWarnings, session_drop_ok_of_fresh_or_loaded, ?_,
    phase_data_error_of_bad_drop, ?_⟩
  · intro proto h p names
    exact ⟨(phase_drop_bookkeeping proto h p names).1,
      phase_drop_channels_filter proto h p names⟩
  · intro h s names h' s' hok
    exact ⟨(session_drop_bookkeeping h s names h' s' hok).1,
      session_drop_channels_filter h s names h' s' hok⟩
  · intro h r names h' r' hok
    obtain ⟨hdr, hses⟩ := recording_drop_ok_spec h r names h' r' hok
    refine ⟨hdr, fun l hl c hc hcl => ?_⟩
    unfold Recording.channels at hl
    by_cases hall : allEqB (r'.sessions.map
        (fun s => String.join (Session.channels s))) = true
    · rw [if_pos hall] at hl
      have hl' := Except.ok.inj hl
      cases hs : r'.sessions with
      | nil => rw [hs] at hl'; rw [← hl'] at hcl; simp at hcl
      | cons s₀ sl =>
        rw [hs] at hl'
        rw [← hl'] at hcl
        have hmem := (List.mem_filter.1 hcl).1
        cases hs0 : r.sessions with
        | nil => rw [hs0, hs] at hses; exact absurd hses (by simp)
        | cons t₀ ts =>
          rw [hs0, hs] at hses
          have hrel := (List.forall₂_cons.1 hses).1
          rw [hrel] at hmem
          have := (List.mem_filter.1 hmem).2
          simp [contains_eq_decide, hc] at this
    · rw [if_neg hall] at hl
      exact Except.noConfusion hl

/-- The recording the C6 recording-level conclusions are witnessed on. -/
def exC6Res : Heap × Recording :=
  (Recording.drop_channels [] exRecording ["a", "bogus"]).toOption.getD
    ([], exRecording)

set_option maxRecDepth 10000 in
theorem C6_witness :
    (∃ h' s', Session.drop_channels [] exSession ["a", "bogus"]
        = .ok (h', s'))
      ∧ exC6Res.2.dropped = exRecording.dropped
      ∧ Phase.channels exProto
          (Phase.drop_channels exProto [] exPhaseA ["a", "bogus"]).2
        = ["b", "c"] := by
  refine ⟨?_, ?_, ?_⟩
  · exact C6_drop_unresolvable.2.2.1 [] exSession ["a", "bogus"] (Or.inl rfl)
  · exact (C6_drop_unresolvable.2.2.2.2.2 [] exRecording ["a", "bogus"]
      exC6Res.1 exC6Res.2 (by decide)).1
  · rw [(C6_drop_unresolvable.1 exProto [] exPhaseA ["a", "bogus"]).2]
    decide

/-! ## Skeleton preservation (towards C10): `drop_channels` touches only
channel bookkeeping and buffers, never the identity, raw data or raw events
of a node. -/

/-- The drop-invariant part of a `Phase`. -/
def SkelEq (p q : Phase) : Prop :=
  q.number = p.number ∧ q.rawData = p.rawData ∧ q.rawEvents = p.rawEvents

theorem skelEq_refl (p : Phase) : SkelEq p p := ⟨rfl, rfl, rfl⟩

/-- The drop-invariant part of a `Session` (with its phases'). -/
def SessSkelEq (s t : Session) : Prop :=
  t.protocol = s.protocol ∧ t.time_start = s.time_start
    ∧ List.Forall₂ SkelEq s.phases t.phases

theorem phase_drop_skel (proto : Protocol) (h : Heap) (p : Phase)
    (names : List String) : SkelEq p (Phase.drop_channels proto h p names).2 :=
  (phase_drop_bookkeeping proto h p names).2

theorem phase_data_skel (proto : Protocol) (h : Heap) (p : Phase)
    (h' : Heap) (p' : Phase) (m : Mat)
    (hok : Phase.data proto h p = .ok (h', p', m)) : SkelEq p p' := by
  cases hslot : p.dataSlot with
  | some r =>
    simp only [Phase.data, hslot, Except.ok.injEq, Prod.mk.injEq] at hok
    obtain ⟨rfl, rfl, rfl⟩ := hok
    exact skelEq_refl p
  | none =>
    simp only [Phase.data, hslot] at hok
    obtain ⟨mm, hmm, hok₂⟩ := ebind_ok_inv hok
    simp only [Except.ok.injEq, Prod.mk.injEq] at hok₂
    obtain ⟨rfl, rfl, rfl⟩ := hok₂
    exact ⟨rfl, rfl, rfl⟩

theorem phase_clear_skel (p : Phase) : SkelEq p (Phase.clear_data p) :=
  ⟨rfl, rfl, rfl⟩

theorem skelEq_trans {p q r : Phase} (h₁ : SkelEq p q) (h₂ : SkelEq q r) :
    SkelEq p r :=
  ⟨h₂.1.trans h₁.1, h₂.2.1.trans h₁.2.1, h₂.2.2.trans h₁.2.2⟩

/-- `insertTagged` only permutes. -/
theorem insertTagged_perm (le : α → α → Bool) (x : Nat × α)
    (l : List (Nat × α)) : (insertTagged le x l).Perm (x :: l) := by
  induction l with
  | nil => exact List.Perm.refl _
  | cons y ys ih =>
    unfold insertTagged
    by_cases hle : le y.2 x.2 = true
    · rw [if_pos hle]
      exact ((ih.cons y).trans (List.Perm.swap x y ys)).symm.symm
    · rw [if_neg hle]

/-- `sorted(...)` only permutes the tagged list. -/
theorem sortTagged_perm (le : α → α → Bool) (l : List α) :
    (sortTagged le l).Perm l.enum := by
  suffices h : ∀ (xs acc : List (Nat × α)),
      (xs.foldl (fun acc x => insertTagged le x acc) acc).Perm (acc ++ xs) by
    simpa using h l.enum []
  intro xs
  induction xs with
  | nil => intro acc; simp
  | cons x xs ih =>
    intro acc
    rw [List.foldl_cons]
    refine (ih (insertTagged le x acc)).trans ?_
    have hp : (insertTagged le x acc).Perm (x :: acc) := insertTagged_perm le x acc
    refine (hp.append_right xs).trans ?_
    have : (x :: acc).Perm (acc ++ [x]) := by
      simpa using (@List.perm_append_comm _ [x] acc)
    refine (this.append_right xs).trans ?_
    simp [List.append_assoc]

/-- A member of the sorted tagged list is the original element at its tag. -/
theorem sortTagged_mem (le : α → α → Bool) (l : List α) (i : Nat) (x : α)
    (h : (i, x) ∈ sortTagged le l) : l[i]? = some x :=
  List.mk_mem_enum_iff_getElem?.mp ((sortTagged_perm le l).mem_iff.1 h)

/-- Writing tagged updates back: if every update is related to the base
element at its tag, the result is pointwise related to the base. -/
theorem writeBack_forall₂ {R : Phase → Phase → Prop} (hrefl : ∀ p, R p p)
    (base : List Phase) (upd : List (Nat × Phase))
    (hupd : ∀ i p, (i, p) ∈ upd → ∀ hi : i < base.length, R base[i] p) :
    List.Forall₂ R base (Session.writeBack base upd) := by
  unfold Session.writeBack
  suffices h : ∀ (upd : List (Nat × Phase)) (cur : List Phase),
      List.Forall₂ R base cur → cur.length = base.length →
      (∀ i p, (i, p) ∈ upd → ∀ hi : i < base.length, R base[i] p) →
      List.Forall₂ R base (upd.foldl (fun acc ip => acc.set ip.1 ip.2) cur) by
    exact h upd base (List.forall₂_iff_get.2 ⟨rfl, fun i h₁ h₂ => hrefl _⟩) rfl hupd
  intro upd
  induction upd with
  | nil => intro cur hcur _ _; exact hcur
  | cons ip upd ih =>
    intro cur hcur hlen hupd
    rw [List.foldl_cons]
    refine ih _ ?_ (by simp [hlen]) (fun i p hm hi => hupd i p (by simp [hm]) hi)
    refine List.forall₂_iff_get.2 ⟨by simp [hcur.length_eq], fun i h₁ h₂ => ?_⟩
    by_cases hip : ip.1 = i
    · subst hip
      simp only [List.get_eq_getElem, List.getElem_set, if_pos rfl]
      exact hupd ip.1 ip.2 (by simp) h₁
    · simp only [List.get_eq_getElem, List.getElem_set, if_neg hip]
      exact List.forall₂_iff_get.1 hcur |>.2 i h₁ (by omega)

theorem forall₂_mem_right {R : α → β → Prop} {l₁ : List α} {l₂ : List β}
    (h : List.Forall₂ R l₁ l₂) (y : β) (hy : y ∈ l₂) :
    ∃ x ∈ l₁, R x y := by
  induction h with
  | nil => cases hy
  | cons hr _ ih =>
    rcases List.mem_cons.1 hy with hy | hy
    · exact ⟨_, List.mem_cons_self _ _, hy ▸ hr⟩
    · obtain ⟨x, hx, hxy⟩ := ih hy
      exact ⟨x, List.mem_cons_of_mem _ hx, hxy⟩

theorem forall₂_skel_trans {l₁ l₂ l₃ : List Phase}
    (h₁ : List.Forall₂ SkelEq l₁ l₂) (h₂ : List.Forall₂ SkelEq l₂ l₃) :
    List.Forall₂ SkelEq l₁ l₃ := by
  have e₁ := h₁.length_eq
  have e₂ := h₂.length_eq
  refine List.forall₂_iff_get.2 ⟨e₁.trans e₂, fun i ha hb => ?_⟩
  have g₁ := (List.forall₂_iff_get.1 h₁).2 i ha (by omega)
  have g₂ := (List.forall₂_iff_get.1 h₂).2 i (by omega) hb
  exact skelEq_trans g₁ g₂

/-- One pass of the `Session.data` phase loop, when it succeeds, preserves
each phase's tag and skeleton (only drop sets and data slots change). -/
theorem dataLoop_tags_skel (proto : Protocol) (sd : List String) :
    ∀ (tps : List (Nat × Phase)) (h : Heap) (rows : Mat)
      (out : Heap × List (Nat × Phase) × Mat × List (Nat × Nat)),
      Session.dataLoop proto sd h rows tps = .ok out →
      List.Forall₂ (fun ip jq => jq.1 = ip.1 ∧ SkelEq ip.2 jq.2) tps
        out.2.1 := by
  intro tps
  induction tps with
  | nil =>
    intro h rows out hok
    simp only [Session.dataLoop, Except.ok.injEq] at hok
    rw [← hok]
    exact List.Forall₂.nil
  | cons ip tps ih =>
    intro h rows out hok
    simp only [Session.dataLoop] at hok
    obtain ⟨hpd, hdata, hok₂⟩ := ebind_ok_inv hok
    obtain ⟨r, hrest, hok₃⟩ := ebind_ok_inv hok₂
    have hout : (r.1, (ip.1, Phase.clear_data hpd.2.1) :: r.2.1, r.2.2.1,
        (rows.length, rows.length + hpd.2.2.length) :: r.2.2.2) = out :=
      Except.ok.inj hok₃
    rw [← hout]
    refine List.forall₂_cons.2 ⟨⟨rfl, ?_⟩, ih _ _ _ hrest⟩
    exact skelEq_trans
      (skelEq_trans (phase_drop_skel proto h ip.2 sd)
        (phase_data_skel proto _ _ hpd.1 hpd.2.1 hpd.2.2 hdata))
      (phase_clear_skel _)

/-- A successful `Session.dataCompute` preserves the session's protocol,
timestamp, drop set and every phase's skeleton. -/
theorem session_dataCompute_skel (h : Heap) (s : Session) (h' : Heap)
    (s' : Session) (m : Mat)
    (hok : Session.dataCompute h s = .ok (h', s', m)) :
    s'.protocol = s.protocol
      ∧ s'.time_start = s.time_start
      ∧ s'.dropped = s.dropped
      ∧ List.Forall₂ SkelEq s.phases s'.phases := by
  simp only [Session.dataCompute] at hok
  obtain ⟨l, hl, hok₂⟩ := ebind_ok_inv hok
  simp only [Except.ok.injEq, Prod.mk.injEq] at hok₂
  obtain ⟨rfl, rfl, rfl⟩ := hok₂
  refine ⟨rfl, rfl, rfl, ?_⟩
  refine writeBack_forall₂ skelEq_refl s.phases _ (fun i q hm hi => ?_)
  obtain ⟨psl, hmem, hf⟩ := List.mem_map.1 hm
  have hi1 : psl.1.1 = i := congrArg Prod.fst hf
  have hq := congrArg Prod.snd hf
  have hmem₁ : psl.1 ∈ l.2.1 := (List.of_mem_zip hmem).1
  obtain ⟨x, hx, hrx⟩ := forall₂_mem_right
    (dataLoop_tags_skel s.protocol s.dropped (sortTagged phaseLe s.phases)
      h [] l hl)
    psl.1 hmem₁
  have hget : s.phases[x.1]? = some x.2 :=
    sortTagged_mem phaseLe s.phases x.1 x.2 (by rw [Prod.mk.eta]; exact hx)
  have hxi : x.1 = i := by rw [← hrx.1, hi1]
  have hbase : s.phases[i] = x.2 := by
    rw [hxi] at hget
    rw [List.getElem?_eq_getElem hi] at hget
    exact (Option.some.inj hget)
  have hq' : Phase.setData psl.1.2 _ = q := hq
  rw [← hq', hbase]
  exact skelEq_trans hrx.2 ⟨rfl, rfl, rfl⟩

/-- A successful `Session.data` read preserves skeletons. -/
theorem session_data_skel (h : Heap) (s : Session) (h' : Heap) (s' : Session)
    (m : Mat) (hok : Session.data h s = .ok (h', s', m)) :
    s'.protocol = s.protocol
      ∧ s'.time_start = s.time_start
      ∧ s'.dropped = s.dropped
      ∧ List.Forall₂ SkelEq s.phases s'.phases := by
  cases hslot : s.dataSlot with
  | some ref =>
    simp only [Session.data, hslot, Except.ok.injEq, Prod.mk.injEq] at hok
    obtain ⟨rfl, rfl, rfl⟩ := hok
    exact ⟨rfl, rfl, rfl,
      List.forall₂_iff_get.2 ⟨rfl, fun i h₁ h₂ => skelEq_refl _⟩⟩
  | none =>
    simp only [Session.data, hslot] at hok
    exact session_dataCompute_skel h s h' s' m hok

/-- The phase walk of a materialized `Session.drop_channels` preserves
skeletons when it succeeds. -/
theorem dropWalk_skel (proto : Protocol) (names : List String) (newBuf : Nat) :
    ∀ (ps : List Phase) (h : Heap) (off : Nat) (w : Heap × List Phase × Nat),
      Session.dropWalk proto names newBuf h off ps = .ok w →
      List.Forall₂ SkelEq ps w.2.1 := by
  intro ps
  induction ps with
  | nil =>
    intro h off w hok
    simp only [Session.dropWalk, Except.ok.injEq] at hok
    rw [← hok]
    exact List.Forall₂.nil
  | cons p ps ih =>
    intro h off w hok
    simp only [Session.dropWalk] at hok
    obtain ⟨hpd, hdata, hok₂⟩ := ebind_ok_inv hok
    obtain ⟨r, hrest, hok₃⟩ := ebind_ok_inv hok₂
    rw [← Except.ok.inj hok₃]
    refine List.forall₂_cons.2 ⟨?_, ih _ _ _ hrest⟩
    refine skelEq_trans
      (show SkelEq p (Phase.extend_droplist p names) from ⟨rfl, rfl, rfl⟩) ?_
    exact skelEq_trans
      (phase_data_skel proto h _ hpd.1 hpd.2.1 hpd.2.2 hdata) ⟨rfl, rfl, rfl⟩

/-- A successful `Session.drop_channels` changes only drop sets and
buffers. -/
theorem session_drop_skel (h : Heap) (s : Session) (names : List String)
    (h' : Heap) (s' : Session)
    (hok : Session.drop_channels h s names = .ok (h', s')) :
    SessSkelEq s s' := by
  cases hslot : s.dataSlot with
  | some ref =>
    simp only [Session.drop_channels, hslot] at hok
    obtain ⟨w, hw, hok₂⟩ := ebind_ok_inv hok
    simp only [Except.ok.injEq, Prod.mk.injEq] at hok₂
    obtain ⟨rfl, rfl⟩ := hok₂
    exact ⟨rfl, rfl, dropWalk_skel s.protocol names _ s.phases _ 0 w hw⟩
  | none =>
    simp only [Session.drop_channels, hslot, Except.ok.injEq,
      Prod.mk.injEq] at hok
    obtain ⟨rfl, rfl⟩ := hok
    obtain ⟨out, hout, hrel⟩ := foldl_thread_spec
      (fun hh p => Phase.drop_channels s.protocol hh p names) SkelEq
      (fun hh p => phase_drop_skel s.protocol hh p names) s.phases h []
    rw [List.nil_append] at hout
    refine ⟨rfl, rfl, ?_⟩
    show List.Forall₂ SkelEq s.phases
      (s.phases.foldl (fun (acc : Heap × List Phase) p =>
        ((Phase.drop_channels s.protocol acc.1 p names).1,
         acc.2 ++ [(Phase.drop_channels s.protocol acc.1 p names).2])) (h, [])).2
    rw [hout]
    exact hrel

/-- The session walk of a materialized `Recording.drop_channels` preserves
session skeletons when it succeeds. -/
theorem dropWalkRec_skel (names : List String) (newBuf : Nat) :
    ∀ (ss : List Session) (h : Heap) (soff poff : Nat) (h' : Heap)
      (out : List Session),
      Recording.dropWalkRec names newBuf h soff poff ss = .ok (h', out) →
      List.Forall₂ SessSkelEq ss out := by
  intro ss
  induction ss with
  | nil =>
    intro h soff poff h' out hok
    simp only [Recording.dropWalkRec, Except.ok.injEq, Prod.mk.injEq] at hok
    obtain ⟨rfl, rfl⟩ := hok
    exact List.Forall₂.nil
  | cons s ss ih =>
    intro h soff poff h' out hok
    simp only [Recording.dropWalkRec] at hok
    obtain ⟨hsd, hdata, hok₂⟩ := ebind_ok_inv hok
    obtain ⟨w, hwalk, hok₃⟩ := ebind_ok_inv hok₂
    obtain ⟨r, hrec, hok₄⟩ := ebind_ok_inv hok₃
    simp only [Except.ok.injEq, Prod.mk.injEq] at hok₄
    obtain ⟨rfl, rfl⟩ := hok₄
    refine List.forall₂_cons.2 ⟨?_, ih _ _ _ _ _ hrec⟩
    have hd := session_data_skel h (Session.extend_droplist s names)
      hsd.1 hsd.2.1 hsd.2.2 hdata
    refine ⟨hd.1, hd.2.1, ?_⟩
    refine forall₂_skel_trans hd.2.2.2 ?_
    exact dropWalk_skel _ names newBuf _ _ poff w hwalk

/-- Generic walk of the non-materialized `Recording.drop_channels` branch:
any relation respected by a single successful `Session.drop_channels` holds
pairwise on success. -/
theorem dropSessions_rel (names : List String) (R : Session → Session → Prop)
    (hone : ∀ (hh : Heap) (s : Session) (h₂ : Heap) (s₂ : Session),
      Session.drop_channels hh s names = .ok (h₂, s₂) → R s s₂) :
    ∀ (ss : List Session) (h : Heap) (acc : List Session) (h' : Heap)
      (out : List Session),
      Recording.dropSessions names h acc ss = .ok (h', out) →
      ∃ new, out = acc ++ new ∧ List.Forall₂ R ss new := by
  intro ss
  induction ss with
  | nil =>
    intro h acc h' out hok
    simp only [Recording.dropSessions, Except.ok.injEq, Prod.mk.injEq] at hok
    obtain ⟨rfl, rfl⟩ := hok
    exact ⟨[], by simp, List.Forall₂.nil⟩
  | cons s ss ih =>
    intro h acc h' out hok
    simp only [Recording.dropSessions] at hok
    obtain ⟨hs, hdrop, hok₂⟩ := ebind_ok_inv hok
    obtain ⟨new, hout, hrel⟩ := ih hs.1 (acc ++ [hs.2]) h' out hok₂
    exact ⟨hs.2 :: new, by rw [hout, List.append_assoc]; rfl,
      List.Forall₂.cons (hone h s hs.1 hs.2 hdrop) hrel⟩

/-- Generic: when `Recording.drop_channels` succeeds, the sessions are
related to the originals by any relation both branch walks respect. -/
theorem recording_drop_sessions_rel (R : Session → Session → Prop)
    (h : Heap) (r : Recording) (names : List String) (h' : Heap)
    (r' : Recording) (hok : Recording.drop_channels h r names = .ok (h', r'))
    (hwalk : ∀ (newBuf : Nat) (hh : Heap) (so po : Nat) (h₂ : Heap)
      (out : List Session),
      Recording.dropWalkRec names newBuf hh so po r.sessions = .ok (h₂, out) →
      List.Forall₂ R r.sessions out)
    (hone : ∀ (hh : Heap) (s : Session) (h₂ : Heap) (s₂ : Session),
      Session.drop_channels hh s names = .ok (h₂, s₂) → R s s₂) :
    List.Forall₂ R r.sessions r'.sessions := by
  have main : ∀ (ss : List Session) (slot : Option BufRef) (w₁ : Heap)
      (hses : List.Forall₂ R r.sessions ss)
      (hbind : ebind (Recording.channels ⟨ss, r.dropped, slot⟩)
        (fun vis => Except.ok (w₁, Recording.extend_droplist
            ⟨ss, r.dropped, slot⟩
            (dropResolve vis r.dropped names))) = Except.ok (h', r')),
      List.Forall₂ R r.sessions r'.sessions := by
    intro ss slot w₁ hses hbind
    obtain ⟨vis, hvis, hok₂⟩ := ebind_ok_inv hbind
    simp only [Except.ok.injEq, Prod.mk.injEq] at hok₂
    obtain ⟨rfl, rfl⟩ := hok₂
    exact hses
  cases hslot : r.dataSlot with
  | some ref =>
    simp only [Recording.drop_channels, hslot] at hok
    obtain ⟨cur, hcur, hok₂⟩ := ebind_ok_inv hok
    obtain ⟨w, hw, hok₃⟩ := ebind_ok_inv hok₂
    exact main w.2 _ w.1 (hwalk _ _ 0 0 w.1 w.2 hw) hok₃
  | none =>
    simp only [Recording.drop_channels, hslot] at hok
    obtain ⟨w, hw, hok₂⟩ := ebind_ok_inv hok
    obtain ⟨new, hout, hrel⟩ := dropSessions_rel names R hone r.sessions h []
      w.1 w.2 hw
    rw [List.nil_append] at hout
    exact main w.2 none w.1 (hout ▸ hrel) hok₂

/-! ## Congruence: `events`, `n_samples`, `sampling_rate` only read the
skeleton (towards C10) -/

theorem forall₂_map_eq {R : α → β → Prop} {l₁ : List α} {l₂ : List β}
    (h : List.Forall₂ R l₁ l₂) (f : α → γ) (g : β → γ)
    (hfg : ∀ a b, R a b → g b = f a) : l₂.map g = l₁.map f := by
  induction h with
  | nil => rfl
  | cons hr _ ih => simp [ih, hfg _ _ hr]

theorem enum_forall₂ {R : α → β → Prop} {l₁ : List α} {l₂ : List β}
    (h : List.Forall₂ R l₁ l₂) :
    List.Forall₂ (fun x y => x.1 = y.1 ∧ R x.2 y.2) l₁.enum l₂.enum := by
  suffices hs : ∀ n, List.Forall₂ (fun x y => x.1 = y.1 ∧ R x.2 y.2)
      (List.enumFrom n l₁) (List.enumFrom n l₂) by
    exact hs 0
  induction h with
  | nil => intro n; exact List.Forall₂.nil
  | cons hr _ ih =>
    intro n
    exact List.forall₂_cons.2 ⟨⟨rfl, hr⟩, ih (n + 1)⟩

theorem insertTagged_rel (le : α → α → Bool) (lf : β → β → Bool)
    {R : α → β → Prop}
    (hle : ∀ a b a' b', R a a' → R b b' → le a b = lf a' b')
    {x : Nat × α} {y : Nat × β} (hxy : x.1 = y.1 ∧ R x.2 y.2) :
    ∀ {acc₁ : List (Nat × α)} {acc₂ : List (Nat × β)},
      List.Forall₂ (fun u v => u.1 = v.1 ∧ R u.2 v.2) acc₁ acc₂ →
      List.Forall₂ (fun u v => u.1 = v.1 ∧ R u.2 v.2)
        (insertTagged le x acc₁) (insertTagged lf y acc₂) := by
  intro acc₁ acc₂ h
  induction h with
  | nil => exact List.forall₂_cons.2 ⟨hxy, List.Forall₂.nil⟩
  | cons hr hrest ih =>
    rename_i u v l₁ l₂
    unfold insertTagged
    rw [show le u.2 x.2 = lf v.2 y.2 from hle _ _ _ _ hr.2 hxy.2]
    by_cases hc : lf v.2 y.2 = true
    · rw [if_pos hc, if_pos hc]
      exact List.forall₂_cons.2 ⟨hr, ih⟩
    · rw [if_neg hc, if_neg hc]
      exact List.forall₂_cons.2 ⟨hxy, List.forall₂_cons.2 ⟨hr, hrest⟩⟩

/-- Sorting two pointwise-related lists with compatible comparators yields
pointwise-related results (tags included). -/
theorem sortTagged_rel (le : α → α → Bool) (lf : β → β → Bool)
    {R : α → β → Prop}
    (hle : ∀ a b a' b', R a a' → R b b' → le a b = lf a' b')
    {l₁ : List α} {l₂ : List β} (h : List.Forall₂ R l₁ l₂) :
    List.Forall₂ (fun u v => u.1 = v.1 ∧ R u.2 v.2)
      (sortTagged le l₁) (sortTagged lf l₂) := by
  unfold sortTagged
  have henum := enum_forall₂ h
  have main : ∀ {xs : List (Nat × α)} {ys : List (Nat × β)},
      List.Forall₂ (fun u v => u.1 = v.1 ∧ R u.2 v.2) xs ys →
      ∀ {acc₁ : List (Nat × α)} {acc₂ : List (Nat × β)},
        List.Forall₂ (fun u v => u.1 = v.1 ∧ R u.2 v.2) acc₁ acc₂ →
        List.Forall₂ (fun u v => u.1 = v.1 ∧ R u.2 v.2)
          (xs.foldl (fun acc x => insertTagged le x acc) acc₁)
          (ys.foldl (fun acc y => insertTagged lf y acc) acc₂) := by
    intro xs ys hxy
    induction hxy with
    | nil => intro acc₁ acc₂ hacc; exact hacc
    | cons hr _ ih =>
      intro acc₁ acc₂ hacc
      rw [List.foldl_cons, List.foldl_cons]
      exact ih (insertTagged_rel le lf hle hr hacc)
  exact main henum List.Forall₂.nil

/-- `phaseLe` is compatible with skeleton equality. -/
theorem phaseLe_skel (a b a' b' : Phase) (ha : SkelEq a a') (hb : SkelEq b b') :
    phaseLe a b = phaseLe a' b' := by
  unfold phaseLe
  rw [ha.1, hb.1]

/-- `Session.events` reads only the protocol and the phases' skeletons. -/
theorem session_events_congr (s t : Session) (hp : t.protocol = s.protocol)
    (hrel : List.Forall₂ SkelEq s.phases t.phases) :
    Session.events t = Session.events s := by
  unfold Session.events
  have hsorted := sortTagged_rel phaseLe phaseLe phaseLe_skel hrel
  have hev : ∀ (proto : Protocol) (p q : Phase), SkelEq p q →
      Phase.events proto q = Phase.events proto p := by
    intro proto p q hpq
    unfold Phase.events
    rw [hpq.2.2]
  have hns : ∀ p q, SkelEq p q → Phase.n_samples q = Phase.n_samples p := by
    intro p q hpq
    unfold Phase.n_samples
    rw [hpq.2.1]
  have hfold : ∀ {r₁ r₂ : List (Nat × Phase)},
      List.Forall₂ (fun u v => u.1 = v.1 ∧ SkelEq u.2 v.2) r₁ r₂ →
      ∀ (acc : List NeuroneEvent) (cur : Nat),
      ((r₂.map (fun x => x.2)).foldl
        (fun (a : List NeuroneEvent × Nat) p =>
          if 0 < (Phase.events s.protocol p).length then
            (a.1 ++ (Phase.events s.protocol p).map
                (offsetEvent a.2 (Int.ofNat (a.2 / s.protocol.sampling_rate))),
             a.2 + Phase.n_samples p)
          else a)
        (acc, cur)).1
      = ((r₁.map (fun x => x.2)).foldl
        (fun (a : List NeuroneEvent × Nat) p =>
          if 0 < (Phase.events s.protocol p).length then
            (a.1 ++ (Phase.events s.protocol p).map
                (offsetEvent a.2 (Int.ofNat (a.2 / s.protocol.sampling_rate))),
             a.2 + Phase.n_samples p)
          else a)
        (acc, cur)).1 := by
    intro r₁ r₂ hr
    induction hr with
    | nil => intro acc cur; rfl
    | cons hu _ ih =>
      intro acc cur
      rename_i u v l₁ l₂ _
      simp only [List.map_cons, List.foldl_cons]
      rw [hev s.protocol u.2 v.2 hu.2, hns u.2 v.2 hu.2]
      exact ih _ _
  rcases hm : sortTagged phaseLe s.phases with _ | ⟨ip, rest⟩ <;>
    rcases hm' : sortTagged phaseLe t.phases with _ | ⟨jq, rest'⟩
  · simp
  · rw [hm, hm'] at hsorted; exact absurd hsorted (by simp)
  · rw [hm, hm'] at hsorted; exact absurd hsorted (by simp)
  · rw [hm, hm'] at hsorted
    have hhd := (List.forall₂_cons.1 hsorted).1
    have htl := (List.forall₂_cons.1 hsorted).2
    simp only [List.map_cons]
    rw [hp]
    rw [hev s.protocol ip.2 jq.2 hhd.2, hns ip.2 jq.2 hhd.2]
    exact congrArg Except.ok (hfold htl _ _)

theorem session_n_samples_congr (s t : Session)
    (hrel : List.Forall₂ SkelEq s.phases t.phases) :
    Session.n_samples t = Session.n_samples s := by
  unfold Session.n_samples
  rw [forall₂_map_eq hrel Phase.n_samples Phase.n_samples
    (fun p q hpq => by unfold Phase.n_samples; rw [hpq.2.1])]

theorem forall₂_map_snd {R : α → β → Prop} {l₁ : List (Nat × α)}
    {l₂ : List (Nat × β)}
    (h : List.Forall₂ (fun u v => u.1 = v.1 ∧ R u.2 v.2) l₁ l₂) :
    List.Forall₂ R (l₁.map (fun x => x.2)) (l₂.map (fun x => x.2)) := by
  induction h with
  | nil => exact List.Forall₂.nil
  | cons hr _ ih => exact List.forall₂_cons.2 ⟨hr.2, ih⟩

theorem sessionLe_skel (a b a' b' : Session) (ha : SessSkelEq a a')
    (hb : SessSkelEq b b') : sessionLe a b = sessionLe a' b' := by
  unfold sessionLe
  rw [ha.2.1, hb.2.1]

theorem session_sampling_rate_congr {s t : Session} (h : SessSkelEq s t) :
    Session.sampling_rate t = Session.sampling_rate s := by
  unfold Session.sampling_rate
  rw [h.1]

theorem session_n_samples_congr' {s t : Session} (h : SessSkelEq s t) :
    Session.n_samples t = Session.n_samples s :=
  session_n_samples_congr s t h.2.2

theorem session_events_congr' {s t : Session} (h : SessSkelEq s t) :
    Session.events t = Session.events s :=
  session_events_congr s t h.1 h.2.2

/-- `Recording.events` reads only the sessions' skeletons. -/
theorem recording_events_congr (r r' : Recording)
    (hrel : List.Forall₂ SessSkelEq r.sessions r'.sessions) :
    Recording.events r' = Recording.events r := by
  unfold Recording.events
  dsimp only
  have hsorted := sortTagged_rel sessionLe sessionLe sessionLe_skel hrel
  have hmap := forall₂_map_snd hsorted
  have hrates : ((sortTagged sessionLe r'.sessions).map (fun x => x.2)).map
        Session.sampling_rate
      = ((sortTagged sessionLe r.sessions).map (fun x => x.2)).map
        Session.sampling_rate :=
    forall₂_map_eq hmap Session.sampling_rate Session.sampling_rate
      (fun a b hab => session_sampling_rate_congr hab)
  rw [hrates]
  by_cases hcond : 1 ≤ Recording.distinctCount
      (((sortTagged sessionLe r.sessions).map (fun x => x.2)).map
        Session.sampling_rate)
  · rw [if_pos hcond, if_pos hcond]
    have hloop : ∀ {l₁ l₂ : List Session}, List.Forall₂ SessSkelEq l₁ l₂ →
        ∀ (rate : Nat) (evs : List NeuroneEvent) (cur : Nat),
        Recording.eventsLoop rate l₂ evs cur
          = Recording.eventsLoop rate l₁ evs cur := by
      intro l₁ l₂ hl
      induction hl with
      | nil => intro rate evs cur; rfl
      | cons hu htl ih =>
        intro rate evs cur
        rename_i u v t₁ t₂
        rw [Recording.eventsLoop, Recording.eventsLoop,
          session_events_congr' hu]
        cases hse : Session.events u with
        | error e => rfl
        | ok es =>
          dsimp only
          by_cases hlen : 0 < es.length
          · rw [if_pos hlen, if_pos hlen, session_n_samples_congr' hu]
            exact ih _ _ _
          · rw [if_neg hlen, if_neg hlen]
            exact ih _ _ _
    generalize (sortTagged sessionLe r.sessions).map (fun x => x.2) = L₁ at hmap ⊢
    generalize (sortTagged sessionLe r'.sessions).map (fun x => x.2) = L₂ at hmap ⊢
    cases hmap with
    | nil => rfl
    | cons hhd htl =>
      dsimp only
      rw [session_events_congr' hhd, session_sampling_rate_congr hhd,
        session_n_samples_congr' hhd]
      rename_i s₀ t₀ rest rest'
      cases hse : Session.events s₀ with
      | error e => rfl
      | ok e0 =>
        dsimp only
        exact hloop htl _ _ _
  · rw [if_neg hcond, if_neg hcond]

theorem recording_n_samples_congr (r r' : Recording)
    (hrel : List.Forall₂ SessSkelEq r.sessions r'.sessions) :
    Recording.n_samples r' = Recording.n_samples r := by
  unfold Recording.n_samples
  rw [forall₂_map_eq hrel Session.n_samples Session.n_samples
    (fun a b hab => session_n_samples_congr' hab)]

theorem recording_sampling_rate_congr (r r' : Recording)
    (hrel : List.Forall₂ SessSkelEq r.sessions r'.sessions) :
    Recording.sampling_rate r' = Recording.sampling_rate r := by
  unfold Recording.sampling_rate
  rw [forall₂_map_eq hrel Session.sampling_rate Session.sampling_rate
    (fun a b hab => session_sampling_rate_congr hab)]
  by_cases hall : allEqB (r.sessions.map Session.sampling_rate) = true
  · rw [if_pos hall, if_pos hall]
    rcases hm : r.sessions with _ | ⟨s₀, rest⟩ <;>
      rcases hm' : r'.sessions with _ | ⟨t₀, rest'⟩
    · rfl
    · rw [hm, hm'] at hrel; exact absurd hrel (by simp)
    · rw [hm, hm'] at hrel; exact absurd hrel (by simp)
    · rw [hm, hm'] at hrel
      show Except.ok (Session.sampling_rate t₀) = Except.ok (Session.sampling_rate s₀)
      rw [session_sampling_rate_congr (List.forall₂_cons.1 hrel).1]
  · rw [if_neg hall, if_neg hall]

/-! ## C10: `drop_channels` is frame-local to channel state -/

/-- **C10.**  At every level, `drop_channels` leaves `events`,
`sampling_rate` and `n_samples` unchanged (at the Phase level the sampling
rate lives in the shared protocol, which is not even touched): event records
keep their `ChannelNumber` and sample indices even when they reference a
dropped channel, because the whole events table is bitwise unchanged. -/
theorem C10_drop_frame :
    (∀ (proto : Protocol) (h : Heap) (p : Phase) (names : List String),
      Phase.events proto (Phase.drop_channels proto h p names).2
          = Phase.events proto p
        ∧ Phase.n_samples (Phase.drop_channels proto h p names).2
          = Phase.n_samples p)
    ∧ (∀ (h : Heap) (s : Session) (names : List String) (h' : Heap)
        (s' : Session), Session.drop_channels h s names = .ok (h', s') →
      Session.events s' = Session.events s
        ∧ Session.sampling_rate s' = Session.sampling_rate s
        ∧ Session.n_samples s' = Session.n_samples s)
    ∧ (∀ (h : Heap) (r : Recording) (names : List String) (h' : Heap)
        (r' : Recording), Recording.drop_channels h r names = .ok (h', r') →
      Recording.events r' = Recording.events r
        ∧ Recording.sampling_rate r' = Recording.sampling_rate r
        ∧ Recording.n_samples r' = Recording.n_samples r) := by
  refine ⟨?_, ?_, ?_⟩
  · intro proto h p names
    have hskel := phase_drop_skel proto h p names
    constructor
    · unfold Phase.events; rw [hskel.2.2]
    · unfold Phase.n_samples; rw [hskel.2.1]
  · intro h s names h' s' hok
    have hskel := session_drop_skel h s names h' s' hok
    exact ⟨session_events_congr' hskel, session_sampling_rate_congr hskel,
      session_n_samples_congr' hskel⟩
  · intro h r names h' r' hok
    have hses := recording_drop_sessions_rel SessSkelEq h r names h' r' hok
      (fun newBuf hh so po h₂ out hw =>
        dropWalkRec_skel names newBuf r.sessions hh so po h₂ out hw)
      (fun hh s h₂ s₂ hd => session_drop_skel hh s names h₂ s₂ hd)
    exact ⟨recording_events_congr r r' hses,
      recording_sampling_rate_congr r r' hses,
      recording_n_samples_congr r r' hses⟩

def exC10Res : Heap × Recording :=
  (Recording.drop_channels [] exRecording ["b"]).toOption.getD ([], exRecording)

set_option maxRecDepth 10000 in
/-- Witness for C10: dropping `"b"` on the example recording succeeds and
leaves the recording's events, sampling rate and sample count unchanged. -/
theorem C10_witness :
    Recording.events exC10Res.2 = Recording.events exRecording
      ∧ Recording.sampling_rate exC10Res.2
        = Recording.sampling_rate exRecording
      ∧ Recording.n_samples exC10Res.2 = Recording.n_samples exRecording := by
  exact C10_drop_frame.2.2 [] exRecording ["b"] exC10Res.1 exC10Res.2 (by decide)

/-! ## The Python string order (towards C8) -/

theorem charVal_eq (a b : Char) (h : a.val.toNat = b.val.toNat) : a = b :=
  Char.ext (UInt32.ext h)

theorem strLtB_irrefl (a : List Char) : strLtB a a = false := by
  induction a with
  | nil => rfl
  | cons c cs ih =>
    unfold strLtB
    simp [ih]

theorem strLtB_asymm : ∀ {a b : List Char},
    strLtB a b = true → strLtB b a = false
  | [], [], h => by cases h
  | [], _ :: _, _ => rfl
  | _ :: _, [], h => by cases h
  | c :: cs, d :: ds, h => by
    unfold strLtB at h ⊢
    by_cases h₁ : c.val < d.val
    · have h₂ : ¬ d.val < c.val := by
        intro hcon
        have e₁ : c.val.toNat < d.val.toNat := h₁
        have e₂ : d.val.toNat < c.val.toNat := hcon
        omega
      simp [h₁, h₂]
    · by_cases h₂ : d.val < c.val
      · rw [if_neg h₁, if_pos h₂] at h
        cases h
      · rw [if_neg h₁, if_neg h₂] at h
        rw [if_neg h₂, if_neg h₁]
        exact strLtB_asymm h

theorem strLtB_trans : ∀ {a b c : List Char},
    strLtB a b = true → strLtB b c = true → strLtB a c = true
  | [], [], _, h, _ => by cases h
  | [], _ :: _, [], _, h₂ => by cases h₂
  | [], _ :: _, _ :: _, _, _ => rfl
  | _ :: _, [], _, h, _ => by cases h
  | _ :: _, _ :: _, [], _, h₂ => by cases h₂
  | x :: xs, y :: ys, z :: zs, h₁, h₂ => by
    unfold strLtB at h₁ h₂ ⊢
    have t₁ : x.val.toNat < y.val.toNat ∨
        (x.val.toNat = y.val.toNat ∧ strLtB xs ys = true) := by
      by_cases hxy : x.val < y.val
      · exact Or.inl hxy
      · rw [if_neg hxy] at h₁
        by_cases hyx : y.val < x.val
        · rw [if_pos hyx] at h₁; cases h₁
        · rw [if_neg hyx] at h₁
          have e₁ : ¬ x.val.toNat < y.val.toNat := hxy
          have e₂ : ¬ y.val.toNat < x.val.toNat := hyx
          exact Or.inr ⟨by omega, h₁⟩
    have t₂ : y.val.toNat < z.val.toNat ∨
        (y.val.toNat = z.val.toNat ∧ strLtB ys zs = true) := by
      by_cases hyz : y.val < z.val
      · exact Or.inl hyz
      · rw [if_neg hyz] at h₂
        by_cases hzy : z.val < y.val
        · rw [if_pos hzy] at h₂; cases h₂
        · rw [if_neg hzy] at h₂
          have e₁ : ¬ y.val.toNat < z.val.toNat := hyz
          have e₂ : ¬ z.val.toNat < y.val.toNat := hzy
          exact Or.inr ⟨by omega, h₂⟩
    rcases t₁ with h₁' | ⟨he₁, hr₁⟩ <;> rcases t₂ with h₂' | ⟨he₂, hr₂⟩
    · have : x.val.toNat < z.val.toNat := by omega
      rw [if_pos (show x.val < z.val from this)]
    · have : x.val.toNat < z.val.toNat := by omega
      rw [if_pos (show x.val < z.val from this)]
    · have : x.val.toNat < z.val.toNat := by omega
      rw [if_pos (show x.val < z.val from this)]
    · have hnx : ¬ x.val < z.val := by
        have : ¬ x.val.toNat < z.val.toNat := by omega
        exact this
      have hnz : ¬ z.val < x.val := by
        have : ¬ z.val.toNat < x.val.toNat := by omega
        exact this
      rw [if_neg hnx, if_neg hnz]
      exact strLtB_trans hr₁ hr₂

theorem strLtB_eq_of_not : ∀ {a b : List Char},
    strLtB a b = false → strLtB b a = false → a = b
  | [], [], _, _ => rfl
  | [], _ :: _, h, _ => by cases h
  | _ :: _, [], _, h₂ => by cases h₂
  | x :: xs, y :: ys, h₁, h₂ => by
    unfold strLtB at h₁ h₂
    by_cases hxy : x.val < y.val
    · rw [if_pos hxy] at h₁; cases h₁
    · by_cases hyx : y.val < x.val
      · rw [if_pos hyx] at h₂; cases h₂
      · rw [if_neg hxy, if_neg hyx] at h₁
        rw [if_neg hyx, if_neg hxy] at h₂
        have hx : x = y := by
          have e₁ : ¬ x.val.toNat < y.val.toNat := hxy
          have e₂ : ¬ y.val.toNat < x.val.toNat := hyx
          exact charVal_eq x y (by omega)
        rw [hx, strLtB_eq_of_not h₁ h₂]

theorem strLeB_total (a b : List Char) :
    strLeB a b = true ∨ strLeB b a = true := by
  unfold strLeB
  by_cases h : strLtB b a = true
  · right
    rw [strLtB_asymm h]
    rfl
  · left
    rw [Bool.not_eq_true] at h
    rw [h]
    rfl

theorem strLeB_trans {a b c : List Char} (h₁ : strLeB a b = true)
    (h₂ : strLeB b c = true) : strLeB a c = true := by
  unfold strLeB at *
  rw [Bool.not_eq_eq_eq_not, Bool.not_true] at h₁ h₂ ⊢
  by_cases hca : strLtB c a = true
  · exfalso
    by_cases hab : strLtB a b = true
    · have := strLtB_trans hca hab
      rw [this] at h₂; cases h₂
    · rw [Bool.not_eq_true] at hab
      have : a = b := strLtB_eq_of_not hab h₁
      rw [this] at hca
      rw [hca] at h₂
      cases h₂
  · rw [Bool.not_eq_true] at hca
    exact hca

/-! ## Sortedness and canonicity of the stable sort (towards C8) -/

theorem insertTagged_pairwise {α : Type} (le : α → α → Bool)
    (htrans : ∀ a b c, le a b = true → le b c = true → le a c = true)
    (htot : ∀ a b, le a b = true ∨ le b a = true)
    (x : Nat × α) :
    ∀ (acc : List (Nat × α)),
      acc.Pairwise (fun u v => le u.2 v.2 = true) →
      (insertTagged le x acc).Pairwise (fun u v => le u.2 v.2 = true) := by
  intro acc
  induction acc with
  | nil => intro _; simp [insertTagged]
  | cons y ys ih =>
    intro hacc
    have htail : ys.Pairwise (fun u v => le u.2 v.2 = true) :=
      List.Pairwise.sublist (List.sublist_cons_self y ys) hacc
    unfold insertTagged
    by_cases hle : le y.2 x.2 = true
    · rw [if_pos hle]
      refine List.Pairwise.cons (fun z hz => ?_) (ih htail)
      rcases List.mem_cons.1 ((insertTagged_perm le x ys).mem_iff.1 hz)
          with rfl | hzy
      · exact hle
      · exact List.rel_of_pairwise_cons hacc hzy
    · rw [if_neg hle]
      have hxy : le x.2 y.2 = true :=
        (htot x.2 y.2).resolve_right (by simpa using hle)
      refine List.Pairwise.cons (fun z hz => ?_) hacc
      rcases List.mem_cons.1 hz with rfl | hz
      · exact hxy
      · exact htrans _ _ _ hxy (List.rel_of_pairwise_cons hacc hz)

theorem sortTagged_pairwise {α : Type} (le : α → α → Bool)
    (htrans : ∀ a b c, le a b = true → le b c = true → le a c = true)
    (htot : ∀ a b, le a b = true ∨ le b a = true) (l : List α) :
    (sortTagged le l).Pairwise (fun u v => le u.2 v.2 = true) := by
  unfold sortTagged
  suffices h : ∀ (xs acc : List (Nat × α)),
      acc.Pairwise (fun u v => le u.2 v.2 = true) →
      (xs.foldl (fun acc x => insertTagged le x acc) acc).Pairwise
        (fun u v => le u.2 v.2 = true) by
    exact h l.enum [] List.Pairwise.nil
  intro xs
  induction xs with
  | nil => intro acc hacc; exact hacc
  | cons x xs ih =>
    intro acc hacc
    rw [List.foldl_cons]
    exact ih _ (insertTagged_pairwise le htrans htot x acc hacc)

theorem sortTagged_snd_perm (le : α → α → Bool) (l : List α) :
    ((sortTagged le l).map (fun x => x.2)).Perm l := by
  have h := (sortTagged_perm le l).map (fun x : Nat × α => x.2)
  rwa [List.enum_map_snd] at h

theorem phaseLe_trans (a b c : Phase) (h₁ : phaseLe a b = true)
    (h₂ : phaseLe b c = true) : phaseLe a c = true :=
  strLeB_trans h₁ h₂

theorem phaseLe_total (a b : Phase) :
    phaseLe a b = true ∨ phaseLe b a = true :=
  strLeB_total a.number.data b.number.data

theorem sessionLe_iff (a b : Session) :
    sessionLe a b = true ↔ a.time_start ≤ b.time_start := by
  simp [sessionLe]

theorem sessionLe_trans (a b c : Session) (h₁ : sessionLe a b = true)
    (h₂ : sessionLe b c = true) : sessionLe a c = true := by
  rw [sessionLe_iff] at *
  omega

theorem sessionLe_total (a b : Session) :
    sessionLe a b = true ∨ sessionLe b a = true := by
  rw [sessionLe_iff, sessionLe_iff]
  omega

/-- With pairwise-distinct phase numbers, the processed phase sequence is a
canonical function of the phase *multiset*: any enumeration order yields the
same sorted sequence. -/
theorem sortTagged_phase_canonical (l₁ l₂ : List Phase) (hperm : l₁.Perm l₂)
    (hnd : (l₁.map Phase.number).Nodup) :
    (sortTagged phaseLe l₁).map (fun x => x.2)
      = (sortTagged phaseLe l₂).map (fun x => x.2) := by
  have hp₁ := sortTagged_snd_perm phaseLe l₁
  have hp₂ := sortTagged_snd_perm phaseLe l₂
  have hps : ((sortTagged phaseLe l₁).map (fun x => x.2)).Perm
      ((sortTagged phaseLe l₂).map (fun x => x.2)) :=
    (hp₁.trans hperm).trans hp₂.symm
  have hr : ∀ (l : List Phase), (l.map Phase.number).Nodup →
      List.Sorted (fun p q : Phase =>
        strLtB p.number.data q.number.data = true)
        ((sortTagged phaseLe l).map (fun x => x.2)) := by
    intro l hl
    have hle := sortTagged_pairwise phaseLe phaseLe_trans phaseLe_total l
    have hlemap : ((sortTagged phaseLe l).map (fun x => x.2)).Pairwise
        (fun p q => phaseLe p q = true) := List.pairwise_map.2 hle
    have hndmap : (((sortTagged phaseLe l).map (fun x => x.2)).map
        Phase.number).Nodup := by
      refine ((sortTagged_snd_perm phaseLe l).map Phase.number).nodup_iff.2 hl
    have hne : ((sortTagged phaseLe l).map (fun x => x.2)).Pairwise
        (fun p q : Phase => p.number ≠ q.number) := List.pairwise_map.1 hndmap
    refine (hlemap.and hne).imp ?_
    rintro p q ⟨hle', hne'⟩
    unfold phaseLe strLeB at hle'
    rw [Bool.not_eq_eq_eq_not, Bool.not_true] at hle'
    by_cases hlt : strLtB p.number.data q.number.data = true
    · exact hlt
    · exfalso
      rw [Bool.not_eq_true] at hlt
      have := strLtB_eq_of_not hlt hle'
      have hnum : p.number = q.number := by
        cases hp : p.number
        cases hq : q.number
        rw [hp, hq] at this
        simpa [this] using congrArg String.mk this
      exact hne' hnum
  have hs₁ := hr l₁ hnd
  have hs₂ := hr l₂ (((hperm.map Phase.number).nodup_iff).1 hnd)
  haveI : IsAntisymm Phase
      (fun p q => strLtB p.number.data q.number.data = true) := by
    constructor
    intro a b h₁ h₂
    rw [strLtB_asymm h₁] at h₂
    cases h₂
  exact List.eq_of_perm_of_sorted hps hs₁ hs₂

/-- Same canonicity for sessions keyed by pairwise-distinct `time_start`. -/
theorem sortTagged_session_canonical (l₁ l₂ : List Session)
    (hperm : l₁.Perm l₂) (hnd : (l₁.map Session.time_start).Nodup) :
    (sortTagged sessionLe l₁).map (fun x => x.2)
      = (sortTagged sessionLe l₂).map (fun x => x.2) := by
  have hp₁ := sortTagged_snd_perm sessionLe l₁
  have hp₂ := sortTagged_snd_perm sessionLe l₂
  have hps : ((sortTagged sessionLe l₁).map (fun x => x.2)).Perm
      ((sortTagged sessionLe l₂).map (fun x => x.2)) :=
    (hp₁.trans hperm).trans hp₂.symm
  have hr : ∀ (l : List Session), (l.map Session.time_start).Nodup →
      List.Sorted (fun s t : Session => s.time_start < t.time_start)
        ((sortTagged sessionLe l).map (fun x => x.2)) := by
    intro l hl
    have hle := sortTagged_pairwise sessionLe sessionLe_trans sessionLe_total l
    have hlemap : ((sortTagged sessionLe l).map (fun x => x.2)).Pairwise
        (fun s t => sessionLe s t = true) := List.pairwise_map.2 hle
    have hndmap : (((sortTagged sessionLe l).map (fun x => x.2)).map
        Session.time_start).Nodup :=
      ((sortTagged_snd_perm sessionLe l).map Session.time_start).nodup_iff.2 hl
    have hne : ((sortTagged sessionLe l).map (fun x => x.2)).Pairwise
        (fun s t : Session => s.time_start ≠ t.time_start) :=
      List.pairwise_map.1 hndmap
    refine (hlemap.and hne).imp ?_
    rintro s t ⟨hle', hne'⟩
    rw [sessionLe_iff] at hle'
    omega
  have hs₁ := hr l₁ hnd
  have hs₂ := hr l₂ (((hperm.map Session.time_start).nodup_iff).1 hnd)
  haveI : IsAntisymm Session (fun s t => s.time_start < t.time_start) := by
    constructor
    intro a b h₁ h₂
    omega
  exact List.eq_of_perm_of_sorted hps hs₁ hs₂

/-! ## Aggregation from unloaded phases: the produced buffer is a pure
function of the sorted phase sequence (towards C8) -/

theorem memOfGetElem {l : List α} {i : Nat} {a : α} (h : l[i]? = some a) :
    a ∈ l := by
  obtain ⟨hi, hget⟩ := List.getElem?_eq_some.1 h
  exact hget ▸ List.getElem_mem hi

/-- The per-phase column drop applied by aggregation, as a pure function. -/
def aggDropped (proto : Protocol) (sd : List String) (p : Phase) : Phase :=
  Phase.extend_droplist p (dropResolve (Phase.channels proto p) p.dropped sd)

/-- On an unloaded phase, `drop_channels` is pure bookkeeping. -/
theorem phase_drop_none (proto : Protocol) (h : Heap) (p : Phase)
    (names : List String) (hslot : p.dataSlot = none) :
    Phase.drop_channels proto h p names = (h, aggDropped proto names p) := by
  unfold Phase.drop_channels aggDropped
  rw [hslot]

/-- Reading an unloaded phase computes, stores and returns its matrix, or
propagates the `ValueError` of `_drop_indexes`. -/
theorem phase_data_none (proto : Protocol) (h : Heap) (p : Phase)
    (hslot : p.dataSlot = none) :
    Phase.data proto h p
      = (Phase.dataCompute proto p).map (fun m =>
          (h ++ [m], { p with dataSlot := some ⟨h.length, 0, m.length⟩ }, m)) := by
  cases hdc : Phase.dataCompute proto p with
  | error e => simp [Phase.data, hslot, hdc, ebind, Except.map]
  | ok m => simp [Phase.data, hslot, hdc, ebind, Except.map, allocBuf]

/-- The rows contributed by a list of unloaded phases processed in the given
order (the value of the phase loop, heap-independent): each phase first
receives the session-level drops, then loads.  A `ValueError` of the first
failing phase aborts the whole aggregation. -/
def phaseRowsE (proto : Protocol) (sd : List String) : List Phase → Except String Mat
  | [] => .ok []
  | p :: ps =>
    ebind (Phase.dataCompute proto (aggDropped proto sd p)) (fun m =>
      ebind (phaseRowsE proto sd ps) (fun ms => .ok (m ++ ms)))

/-- Rows produced by the phase loop over unloaded phases: the concatenation
of the phases' freshly computed matrices in processing order, or the first
phase load error — independent of the heap. -/
theorem dataLoop_fresh_except (proto : Protocol) (sd : List String) :
    ∀ (tps : List (Nat × Phase)) (h : Heap) (rows : Mat),
      (∀ ip ∈ tps, ip.2.dataSlot = none) →
      (Session.dataLoop proto sd h rows tps).map (fun out => out.2.2.1)
        = (phaseRowsE proto sd (tps.map (fun x => x.2))).map
            (fun M => rows ++ M) := by
  intro tps
  induction tps with
  | nil =>
    intro h rows _
    simp [Session.dataLoop, phaseRowsE, emap_ok]
  | cons ip tps ih =>
    intro h rows hfresh
    have hslot : ip.2.dataSlot = none := hfresh ip (List.mem_cons_self _ _)
    have hslot' : (aggDropped proto sd ip.2).dataSlot = none := hslot
    simp only [Session.dataLoop, List.map_cons, phaseRowsE]
    rw [phase_drop_none proto h ip.2 sd hslot]
    dsimp only
    rw [phase_data_none proto h (aggDropped proto sd ip.2) hslot']
    cases hdc : Phase.dataCompute proto (aggDropped proto sd ip.2) with
    | error e => simp only [emap_error, ebind_error]
    | ok m =>
      simp only [emap_ok, ebind_ok]
      have hih := ih (h ++ [m]) (rows ++ m)
        (fun jq hjq => hfresh jq (List.mem_cons_of_mem _ hjq))
      cases hrec : phaseRowsE proto sd (tps.map (fun x => x.2)) with
      | error e =>
        rw [hrec, emap_error] at hih
        rw [ebind_error_frame (emap_error_inv hih)]
        simp only [emap_error, ebind_error]
      | ok M =>
        rw [hrec, emap_ok] at hih
        obtain ⟨out, hout, hval⟩ := emap_ok_inv hih
        rw [hout]
        simp only [ebind_ok, emap_ok]
        rw [hval, List.append_assoc]

/-- `Session.dataValue` on an unloaded session with unloaded phases is the
pure aggregation value `phaseRowsE` over the sorted phases — heap does not
matter. -/
theorem session_dataValue_fresh (h : Heap) (s : Session)
    (hslot : s.dataSlot = none)
    (hfresh : ∀ p ∈ s.phases, p.dataSlot = none) :
    Session.dataValue h s
      = phaseRowsE s.protocol s.dropped
          ((sortTagged phaseLe s.phases).map (fun x => x.2)) := by
  have hle := dataLoop_fresh_except s.protocol s.dropped
    (sortTagged phaseLe s.phases) h []
    (fun ip hip => hfresh ip.2
      (memOfGetElem (sortTagged_mem phaseLe s.phases ip.1 ip.2
        (by rw [Prod.mk.eta]; exact hip))))
  simp only [Session.dataValue, hslot, Session.dataCompute]
  cases hdl : Session.dataLoop s.protocol s.dropped h []
      (sortTagged phaseLe s.phases) with
  | error e =>
    rw [hdl, emap_error] at hle
    simp only [ebind_error]
    rw [emap_error_inv hle.symm]
  | ok l =>
    rw [hdl, emap_ok] at hle
    obtain ⟨M, hM, hval⟩ := emap_ok_inv hle.symm
    simp only [ebind_ok]
    rw [hM, ← hval]
    simp

/-- The rows contributed by a list of unloaded sessions processed in the
given order: per session, its sorted phases' rows under the recording-level
drops. -/
def sessionRowsE (rd : List String) : List Session → Except String Mat
  | [] => .ok []
  | s :: ss =>
    ebind (phaseRowsE s.protocol rd
        ((sortTagged phaseLe s.phases).map (fun x => x.2))) (fun m =>
      ebind (sessionRowsE rd ss) (fun ms => .ok (m ++ ms)))

/-- Rows produced by the session loop when every phase is unloaded. -/
theorem dataSessionLoop_fresh_except (rd : List String) :
    ∀ (tss : List (Nat × Session)) (h : Heap) (rows : Mat),
      (∀ ts ∈ tss, ∀ p ∈ ts.2.phases, p.dataSlot = none) →
      (Recording.dataSessionLoop rd h rows tss).map (fun out => out.2.2.1)
        = (sessionRowsE rd (tss.map (fun x => x.2))).map
            (fun M => rows ++ M) := by
  intro tss
  induction tss with
  | nil =>
    intro h rows _
    simp [Recording.dataSessionLoop, sessionRowsE, emap_ok]
  | cons ts tss ih =>
    intro h rows hfresh
    simp only [Recording.dataSessionLoop, List.map_cons, sessionRowsE]
    have hple := dataLoop_fresh_except ts.2.protocol rd
      (sortTagged phaseLe ts.2.phases) h rows
      (fun ip hip => hfresh ts (List.mem_cons_self _ _) ip.2
        (memOfGetElem (sortTagged_mem phaseLe ts.2.phases ip.1 ip.2
          (by rw [Prod.mk.eta]; exact hip))))
    cases hpr : phaseRowsE ts.2.protocol rd
        ((sortTagged phaseLe ts.2.phases).map (fun x => x.2)) with
    | error e =>
      rw [hpr, emap_error] at hple
      rw [ebind_error_frame (emap_error_inv hple)]
      simp only [emap_error, ebind_error]
    | ok m =>
      rw [hpr, emap_ok] at hple
      obtain ⟨pl, hpl, hplval⟩ := emap_ok_inv hple
      rw [hpl]
      simp only [ebind_ok]
      have hih := ih pl.1 pl.2.2.1
        (fun jt hjt => hfresh jt (List.mem_cons_of_mem _ hjt))
      cases hrec : sessionRowsE rd (tss.map (fun x => x.2)) with
      | error e =>
        rw [hrec, emap_error] at hih
        rw [ebind_error_frame (emap_error_inv hih)]
        simp only [emap_error, ebind_error]
      | ok M =>
        rw [hrec, emap_ok] at hih
        obtain ⟨out, hout, hval⟩ := emap_ok_inv hih
        rw [hout]
        simp only [ebind_ok, emap_ok]
        rw [hval, hplval, List.append_assoc]

/-- `Recording.dataValue` on a fully unloaded hierarchy is the pure nested
aggregation value over time-sorted sessions and number-sorted phases. -/
theorem recording_dataValue_fresh (h : Heap) (r : Recording)
    (hslot : r.dataSlot = none)
    (hfresh : ∀ s ∈ r.sessions, ∀ p ∈ s.phases, p.dataSlot = none) :
    Recording.dataValue h r
      = sessionRowsE r.dropped
          ((sortTagged sessionLe r.sessions).map (fun x => x.2)) := by
  have hle := dataSessionLoop_fresh_except r.dropped
    (sortTagged sessionLe r.sessions) h []
    (fun ts hts p hp => hfresh ts.2
      (memOfGetElem (sortTagged_mem sessionLe r.sessions ts.1 ts.2
        (by rw [Prod.mk.eta]; exact hts))) p hp)
  simp only [Recording.dataValue, hslot, Recording.dataCompute]
  cases hdl : Recording.dataSessionLoop r.dropped h []
      (sortTagged sessionLe r.sessions) with
  | error e =>
    rw [hdl, emap_error] at hle
    simp only [ebind_error]
    rw [emap_error_inv hle.symm]
  | ok l =>
    rw [hdl, emap_ok] at hle
    obtain ⟨M, hM, hval⟩ := emap_ok_inv hle.symm
    simp only [ebind_ok]
    rw [hM, ← hval]
    simp

/-- `Session.events` is invariant under enumeration order of the phases,
given pairwise-distinct phase numbers. -/
theorem session_events_perm (proto : Protocol) (t : Nat) (d : List String)
    (slot : Option BufRef) (l₁ l₂ : List Phase) (hperm : l₁.Perm l₂)
    (hnd : (l₁.map Phase.number).Nodup) :
    Session.events ⟨proto, t, l₁, d, slot⟩
      = Session.events ⟨proto, t, l₂, d, slot⟩ := by
  unfold Session.events
  dsimp only
  rw [sortTagged_phase_canonical l₁ l₂ hperm hnd]

/-- `Recording.events` is invariant under enumeration order of the sessions,
given pairwise-distinct `time_start`s. -/
theorem recording_events_perm (d : List String) (slot : Option BufRef)
    (l₁ l₂ : List Session) (hperm : l₁.Perm l₂)
    (hnd : (l₁.map Session.time_start).Nodup) :
    Recording.events ⟨l₁, d, slot⟩ = Recording.events ⟨l₂, d, slot⟩ := by
  unfold Recording.events
  dsimp only
  rw [sortTagged_session_canonical l₁ l₂ hperm hnd]

/-- The freshly aggregated session data — value or `ValueError` alike — is
invariant under heap and enumeration order, given pairwise-distinct phase
numbers. -/
theorem session_data_value_perm (proto : Protocol) (t : Nat)
    (d : List String) (h₁ h₂ : Heap) (l₁ l₂ : List Phase)
    (hperm : l₁.Perm l₂) (hnd : (l₁.map Phase.number).Nodup)
    (hfresh : ∀ p ∈ l₁, p.dataSlot = none) :
    Session.dataValue h₁ ⟨proto, t, l₁, d, none⟩
      = Session.dataValue h₂ ⟨proto, t, l₂, d, none⟩ := by
  rw [session_dataValue_fresh h₁ ⟨proto, t, l₁, d, none⟩ rfl hfresh,
    session_dataValue_fresh h₂ ⟨proto, t, l₂, d, none⟩ rfl
      (fun p hp => hfresh p (hperm.mem_iff.2 hp))]
  dsimp only
  rw [sortTagged_phase_canonical l₁ l₂ hperm hnd]

/-- The freshly aggregated recording data — value or `ValueError` alike — is
invariant under heap and session enumeration order, given pairwise-distinct
`time_start`s. -/
theorem recording_data_value_perm (d : List String) (h₁ h₂ : Heap)
    (l₁ l₂ : List Session) (hperm : l₁.Perm l₂)
    (hnd : (l₁.map Session.time_start).Nodup)
    (hfresh : ∀ s ∈ l₁, ∀ p ∈ s.phases, p.dataSlot = none) :
    Recording.dataValue h₁ ⟨l₁, d, none⟩
      = Recording.dataValue h₂ ⟨l₂, d, none⟩ := by
  rw [recording_dataValue_fresh h₁ ⟨l₁, d, none⟩ rfl hfresh,
    recording_dataValue_fresh h₂ ⟨l₂, d, none⟩ rfl
      (fun s hs => hfresh s (hperm.mem_iff.2 hs))]
  dsimp only
  rw [sortTagged_session_canonical l₁ l₂ hperm hnd]

/-! ## C8: processing order of the aggregations -/

def exProtoLex : Protocol := ⟨["a"], 10⟩

def exPhaseLex2 : Phase := mkFlatPhase "2" 5 [mkDiskEvent 1 7 1 2]

def exPhaseLex10 : Phase := mkFlatPhase "10" 7 [mkDiskEvent 1 7 2 3]

def exSessLex : Session :=
  ⟨exProtoLex, 0, [exPhaseLex2, exPhaseLex10], [], none⟩

def exSessT0a : Session :=
  ⟨⟨["a"], 10⟩, 0, [mkFlatPhase "1" 5 [mkDiskEvent 1 7 1 2]], [], none⟩

def exSessT0b : Session :=
  ⟨⟨["a"], 10⟩, 0, [mkFlatPhase "1" 7 [mkDiskEvent 1 7 2 3]], [], none⟩

def exRecDupA : Recording := ⟨[exSessT0a, exSessT0b], [], none⟩

def exRecDupB : Recording := ⟨[exSessT0b, exSessT0a], [], none⟩

set_option maxRecDepth 10000 in
/-- **C8, counterexample.**  Phase numbers are folder-name *strings*
(`neurone.py:94`) and `sorted` compares them lexicographically: with phases
numbered `"2"` (5 samples, event at 1) and `"10"` (7 samples, event at 2),
the session processes `"10"` *first* (`"10" < "2"` as strings), yielding
events `[2, 8]`, while ascending *phase-number* order (2 before 10) would
yield `[1, 7]`.  Moreover with two sessions sharing one `time_start`,
swapping the enumeration order changes `Recording.events`, so the result is
not deterministic regardless of enumeration order. -/
theorem C8_counterexample :
    (Session.events exSessLex).map (fun evs =>
        evs.map (fun e => e.StartSampleIndex)) = .ok [2, 8]
      ∧ (claimC3Events exProtoLex [exPhaseLex2, exPhaseLex10]).map
          (fun e => e.StartSampleIndex) = [1, 7]
      ∧ ([2, 8] : List Nat) ≠ [1, 7]
      ∧ (Recording.events exRecDupA).map (fun evs =>
          evs.map (fun e => e.StartSampleIndex)) = .ok [1, 7]
      ∧ (Recording.events exRecDupB).map (fun evs =>
          evs.map (fun e => e.StartSampleIndex)) = .ok [2, 8]
      ∧ exRecDupA.sessions.Perm exRecDupB.sessions := by
  refine ⟨by decide, by decide, by decide, by decide, by decide, ?_⟩
  exact List.Perm.swap _ _ _

set_option maxRecDepth 10000 in
/-- **C8, amended.**  Session-level aggregation (`data` and `events`)
processes the phases in ascending *lexicographic* order of their folder-name
strings (which coincides with ascending numeric order only when the digit
strings have equal length, e.g. single-digit phases); Recording-level
aggregation processes the sessions in ascending `time_start` order.  The
processed sequence is a sorted permutation of the stored children, and —
*given pairwise-distinct keys* — the aggregated events and (freshly loaded)
data, the error outcome of a failing load included, are invariant under the
enumeration order of the children and under the heap. -/
theorem C8_processing_order :
    (∀ l : List Phase,
      ((sortTagged phaseLe l).map (fun x => x.2)).Perm l
        ∧ List.Sorted (fun p q : Phase =>
            strLeB p.number.data q.number.data = true)
            ((sortTagged phaseLe l).map (fun x => x.2)))
    ∧ (∀ l : List Session,
      ((sortTagged sessionLe l).map (fun x => x.2)).Perm l
        ∧ List.Sorted (fun s t : Session => s.time_start ≤ t.time_start)
            ((sortTagged sessionLe l).map (fun x => x.2)))
    ∧ (∀ (proto : Protocol) (t : Nat) (d : List String) (slot : Option BufRef)
        (l₁ l₂ : List Phase), l₁.Perm l₂ → (l₁.map Phase.number).Nodup →
      Session.events ⟨proto, t, l₁, d, slot⟩
        = Session.events ⟨proto, t, l₂, d, slot⟩)
    ∧ (∀ (proto : Protocol) (t : Nat) (d : List String) (h₁ h₂ : Heap)
        (l₁ l₂ : List Phase), l₁.Perm l₂ → (l₁.map Phase.number).Nodup →
        (∀ p ∈ l₁, p.dataSlot = none) →
      Session.dataValue h₁ ⟨proto, t, l₁, d, none⟩
        = Session.dataValue h₂ ⟨proto, t, l₂, d, none⟩)
    ∧ (∀ (d : List String) (slot : Option BufRef) (l₁ l₂ : List Session),
        l₁.Perm l₂ → (l₁.map Session.time_start).Nodup →
      Recording.events ⟨l₁, d, slot⟩ = Recording.events ⟨l₂, d, slot⟩)
    ∧ (∀ (d : List String) (h₁ h₂ : Heap) (l₁ l₂ : List Session),
        l₁.Perm l₂ → (l₁.map Session.time_start).Nodup →
        (∀ s ∈ l₁, ∀ p ∈ s.phases, p.dataSlot = none) →
      Recording.dataValue h₁ ⟨l₁, d, none⟩
        = Recording.dataValue h₂ ⟨l₂, d, none⟩) := by
  refine ⟨?_, ?_, session_events_perm, session_data_value_perm,
    recording_events_perm, recording_data_value_perm⟩
  · intro l
    refine ⟨sortTagged_snd_perm phaseLe l, ?_⟩
    exact (List.pairwise_map.2
      (sortTagged_pairwise phaseLe phaseLe_trans phaseLe_total l)).imp
      (fun h => h)
  · intro l
    refine ⟨sortTagged_snd_perm sessionLe l, ?_⟩
    exact (List.pairwise_map.2
      (sortTagged_pairwise sessionLe sessionLe_trans sessionLe_total l)).imp
      (fun h => (sessionLe_iff _ _).1 h)

set_option maxRecDepth 10000 in
/-- Witness for C8: with distinct single-digit phase numbers and distinct
session start times, swapping enumeration order changes nothing. -/
theorem C8_witness :
    Session.events ⟨⟨["a"], 10⟩, 0,
        [mkFlatPhase "1" 5 [mkDiskEvent 1 7 1 2],
         mkFlatPhase "2" 7 [mkDiskEvent 1 7 2 3]], [], none⟩
      = Session.events ⟨⟨["a"], 10⟩, 0,
        [mkFlatPhase "2" 7 [mkDiskEvent 1 7 2 3],
         mkFlatPhase "1" 5 [mkDiskEvent 1 7 1 2]], [], none⟩
      ∧ Session.dataValue [] ⟨⟨["a"], 10⟩, 0,
          [mkFlatPhase "1" 5 [mkDiskEvent 1 7 1 2],
           mkFlatPhase "2" 7 [mkDiskEvent 1 7 2 3]], [], none⟩
        = Session.dataValue [[[5]]] ⟨⟨["a"], 10⟩, 0,
          [mkFlatPhase "2" 7 [mkDiskEvent 1 7 2 3],
           mkFlatPhase "1" 5 [mkDiskEvent 1 7 1 2]], [], none⟩ := by
  constructor
  · exact C8_processing_order.2.2.1 ⟨["a"], 10⟩ 0 [] none _ _
      (List.Perm.swap _ _ _) (by decide)
  · exact C8_processing_order.2.2.2.1 ⟨["a"], 10⟩ 0 [] [] [[[5]]] _ _
      (List.Perm.swap _ _ _) (by decide) (by decide)

/-! ## Materialized `Recording.drop_channels` (towards C2) -/

/-- Row count currently held behind a data slot. -/
def derefLen (h : Heap) : Option BufRef → Nat
  | some ref => (deref h ref).length
  | none => 0

/-- Reading a cached phase is a pure lookup. -/
theorem phase_data_some (proto : Protocol) (h : Heap) (p : Phase)
    (ref : BufRef) (hslot : p.dataSlot = some ref) :
    Phase.data proto h p = .ok (h, p, deref h ref) := by
  unfold Phase.data
  rw [hslot]

/-- Reading a cached session is a pure lookup. -/
theorem session_data_some (h : Heap) (s : Session) (ref : BufRef)
    (hslot : s.dataSlot = some ref) :
    Session.data h s = .ok (h, s, deref h ref) := by
  unfold Session.data
  rw [hslot]

/-- The claim's description of the phase walk: children in stored order, a
cumulative row offset, each phase's own current row count; the drop set is
extended with the names and the data slot re-pointed at the matching row
range of the new buffer `B`. -/
def specDropWalkPhases (h : Heap) (names : List String) (B : Nat) :
    List Phase → Nat → List Phase × Nat
  | [], off => ([], off)
  | p :: ps, off =>
    let len := derefLen h p.dataSlot
    let p' : Phase := { Phase.extend_droplist p names with
      dataSlot := some ⟨B, off, off + len⟩ }
    let r := specDropWalkPhases h names B ps (off + len)
    (p' :: r.1, r.2)

/-- The claim's description of the session walk: sessions in stored order
with their own cumulative offset, phases of all sessions sharing one global
cumulative offset. -/
def specDropWalkSessions (h : Heap) (names : List String) (B : Nat) :
    List Session → Nat → Nat → List Session
  | [], _, _ => []
  | s :: ss, soff, poff =>
    let slen := derefLen h s.dataSlot
    let ph := specDropWalkPhases h names B s.phases poff
    { Session.extend_droplist s names with
        dataSlot := some ⟨B, soff, soff + slen⟩, phases := ph.1 }
      :: specDropWalkSessions h names B ss (soff + slen) ph.2

/-- On fully cached phases, the drop walk allocates nothing and realizes the
claim's walk. -/
theorem dropWalk_materialized (proto : Protocol) (names : List String)
    (B : Nat) : ∀ (ps : List Phase) (hw : Heap) (off : Nat),
    (∀ p ∈ ps, p.dataSlot.isSome) →
    Session.dropWalk proto names B hw off ps
      = .ok (hw, (specDropWalkPhases hw names B ps off).1,
         (specDropWalkPhases hw names B ps off).2) := by
  intro ps
  induction ps with
  | nil => intro hw off _; rw [Session.dropWalk, specDropWalkPhases]
  | cons p ps ih =>
    intro hw off hall
    obtain ⟨ref, href⟩ := Option.isSome_iff_exists.1
      (hall p (List.mem_cons_self _ _))
    rw [Session.dropWalk, specDropWalkPhases]
    have hslot' : (Phase.extend_droplist p names).dataSlot = some ref := href
    rw [phase_data_some proto hw (Phase.extend_droplist p names) ref hslot',
      ebind_ok]
    dsimp only
    rw [show derefLen hw p.dataSlot = (deref hw ref).length from by
      rw [href]; rfl]
    rw [ih hw _ (fun q hq => hall q (List.mem_cons_of_mem _ hq)), ebind_ok]
    rfl

/-- On a fully cached hierarchy, the recording drop walk allocates nothing
and realizes the claim's walk. -/
theorem dropWalkRec_materialized (names : List String) (B : Nat) :
    ∀ (ss : List Session) (hw : Heap) (soff poff : Nat),
    (∀ s ∈ ss, s.dataSlot.isSome ∧ ∀ p ∈ s.phases, p.dataSlot.isSome) →
    Recording.dropWalkRec names B hw soff poff ss
      = .ok (hw, specDropWalkSessions hw names B ss soff poff) := by
  intro ss
  induction ss with
  | nil => intro hw soff poff _; rw [Recording.dropWalkRec, specDropWalkSessions]
  | cons s ss ih =>
    intro hw soff poff hall
    obtain ⟨ref, href⟩ := Option.isSome_iff_exists.1
      (hall s (List.mem_cons_self _ _)).1
    rw [Recording.dropWalkRec, specDropWalkSessions]
    have hslot' : (Session.extend_droplist s names).dataSlot = some ref := href
    rw [session_data_some hw (Session.extend_droplist s names) ref hslot',
      ebind_ok]
    dsimp only [Session.extend_droplist]
    rw [show derefLen hw s.dataSlot = (deref hw ref).length from by
      rw [href]; rfl]
    rw [dropWalk_materialized s.protocol names B s.phases hw poff
      (fun p hp => (hall s (List.mem_cons_self _ _)).2 p hp), ebind_ok]
    dsimp only
    rw [ih hw _ _ (fun t ht => hall t (List.mem_cons_of_mem _ ht)), ebind_ok]

/-- Growing the heap does not change what an existing view shows. -/
theorem deref_append (h ext : Heap) (ref : BufRef) (hlt : ref.buf < h.length) :
    deref (h ++ ext) ref = deref h ref := by
  unfold deref
  rw [List.getD_eq_getElem?_getD, List.getD_eq_getElem?_getD,
    List.getElem?_append_left hlt]

/-- View of a freshly appended whole buffer. -/
theorem deref_new (h : Heap) (m : Mat) :
    deref (h ++ [m]) ⟨h.length, 0, m.length⟩ = m := by
  unfold deref sliceRows
  rw [List.getD_eq_getElem?_getD, List.getElem?_append_right (le_refl _)]
  simp

theorem specDropWalkPhases_hext (h ext : Heap) (names : List String)
    (B : Nat) : ∀ (ps : List Phase) (off : Nat),
    (∀ p ∈ ps, derefLen (h ++ ext) p.dataSlot = derefLen h p.dataSlot) →
    specDropWalkPhases (h ++ ext) names B ps off
      = specDropWalkPhases h names B ps off := by
  intro ps
  induction ps with
  | nil => intro off _; rfl
  | cons p ps ih =>
    intro off hag
    rw [specDropWalkPhases, specDropWalkPhases]
    dsimp only
    rw [hag p (List.mem_cons_self _ _),
      ih _ (fun q hq => hag q (List.mem_cons_of_mem _ hq))]

theorem specDropWalkSessions_hext (h ext : Heap) (names : List String)
    (B : Nat) : ∀ (ss : List Session) (soff poff : Nat),
    (∀ s ∈ ss, derefLen (h ++ ext) s.dataSlot = derefLen h s.dataSlot
      ∧ ∀ p ∈ s.phases, derefLen (h ++ ext) p.dataSlot = derefLen h p.dataSlot) →
    specDropWalkSessions (h ++ ext) names B ss soff poff
      = specDropWalkSessions h names B ss soff poff := by
  intro ss
  induction ss with
  | nil => intro soff poff _; rfl
  | cons s ss ih =>
    intro soff poff hag
    rw [specDropWalkSessions, specDropWalkSessions]
    dsimp only
    rw [(hag s (List.mem_cons_self _ _)).1,
      specDropWalkPhases_hext h ext names B s.phases poff
        (hag s (List.mem_cons_self _ _)).2,
      ih _ _ (fun t ht => hag t (List.mem_cons_of_mem _ ht))]

/-- Every phase produced by the spec walk: same identity fields, drop set
extended by the names, and a slot holding exactly the phase's own current
row count somewhere in the new buffer. -/
theorem specDropWalkPhases_mem (h : Heap) (names : List String) (B : Nat) :
    ∀ (ps : List Phase) (off : Nat) (q : Phase),
    q ∈ (specDropWalkPhases h names B ps off).1 →
    ∃ p ∈ ps, ∃ st,
      q = { Phase.extend_droplist p names with
        dataSlot := some ⟨B, st, st + derefLen h p.dataSlot⟩ } := by
  intro ps
  induction ps with
  | nil => intro off q hq; exact absurd hq (List.not_mem_nil q)
  | cons p ps ih =>
    intro off q hq
    rw [specDropWalkPhases] at hq
    rcases List.mem_cons.1 hq with hq | hq
    · exact ⟨p, List.mem_cons_self _ _, off, hq⟩
    · obtain ⟨p', hp', st, hst⟩ := ih _ q hq
      exact ⟨p', List.mem_cons_of_mem _ hp', st, hst⟩

/-- Every session produced by the spec walk: drop set extended by the names,
protocol kept, phases produced by the phase spec walk. -/
theorem specDropWalkSessions_mem (h : Heap) (names : List String) (B : Nat) :
    ∀ (ss : List Session) (soff poff : Nat) (t : Session),
    t ∈ specDropWalkSessions h names B ss soff poff →
    ∃ s ∈ ss, t.protocol = s.protocol
      ∧ t.dropped = setUnion s.dropped names
      ∧ ∃ off, t.phases = (specDropWalkPhases h names B s.phases off).1 := by
  intro ss
  induction ss with
  | nil => intro soff poff t ht; exact absurd ht (List.not_mem_nil t)
  | cons s ss ih =>
    intro soff poff t ht
    rw [specDropWalkSessions] at ht
    rcases List.mem_cons.1 ht with ht | ht
    · exact ⟨s, List.mem_cons_self _ _, by rw [ht]; rfl, by rw [ht]; rfl,
        poff, by rw [ht]⟩
    · obtain ⟨s', hs', h₁, h₂, off, h₃⟩ := ih _ _ t ht
      exact ⟨s', List.mem_cons_of_mem _ hs', h₁, h₂, off, h₃⟩

/-- Two filters commute. -/
theorem filter_swap (l : List String) (p q : String → Bool) :
    (l.filter p).filter q = (l.filter q).filter p := by
  rw [List.filter_filter, List.filter_filter]
  exact List.filter_congr (fun c _ => Bool.and_comm _ _)

/-- `allEqB` of a constant map. -/
theorem allEqB_map_const {α : Type} (l : List α) (f : α → String)
    (c : String) (hc : ∀ x ∈ l, f x = c) : allEqB (l.map f) = true := by
  cases l with
  | nil => rfl
  | cons a l =>
    show (l.map f).all (fun y => y == f a) = true
    refine List.all_eq_true.2 (fun y hy => ?_)
    obtain ⟨x, hx, hfx⟩ := List.mem_map.1 hy
    rw [← hfx, hc x (List.mem_cons_of_mem _ hx), hc a (List.mem_cons_self _ _)]
    exact beq_self_eq_true c

/-- `Recording.channels` succeeds when all sessions agree on their channel
list, returning that list filtered by the recording's own drop set. -/
theorem recording_channels_ok (ss : List Session) (dropped : List String)
    (slot : Option BufRef) (c : List String) (hne : ss ≠ [])
    (hch : ∀ t ∈ ss, Session.channels t = c) :
    Recording.channels ⟨ss, dropped, slot⟩
      = .ok (c.filter (fun x => !(dropped.contains x))) := by
  cases ss with
  | nil => exact absurd rfl hne
  | cons t ts =>
    unfold Recording.channels
    rw [if_pos (allEqB_map_const (t :: ts) _ (String.join c)
      (fun u hu => by rw [hch u hu]))]
    show Except.ok ((Session.channels t).filter _) = _
    rw [hch t (List.mem_cons_self _ _)]

/-- **C2**: for a Recording whose data (and every descendant's data) is
materialized and a name currently visible in its channel list,
`drop_channels([name])` removes the named column from the owned buffer
(one new buffer, nothing reloaded), re-points every Session and Phase at the
row-range slices of the shrunk buffer described by the cumulative walk
`specDropWalkSessions` (offsets advance by each child's own current row
count), and the name is absent from `channels` at all three levels. -/
theorem C2_drop_propagation (h : Heap) (r : Recording) (ref : BufRef)
    (name : String) (cur chs : List String)
    (hslot : r.dataSlot = some ref)
    (hval : ∀ s ∈ r.sessions,
      (∃ rs, s.dataSlot = some rs ∧ rs.buf < h.length)
      ∧ ∀ p ∈ s.phases, ∃ rp, p.dataSlot = some rp ∧ rp.buf < h.length)
    (hagree : ∀ s ∈ r.sessions, Session.channels s = chs)
    (hcur : Recording.channels r = .ok cur)
    (hname : name ∈ cur) :
    ∃ h' r',
      Recording.drop_channels h r [name] = .ok (h', r')
      ∧ h' = h ++ [deleteCols [cur.indexOf name] (deref h ref)]
      ∧ r'.dataSlot = some ⟨h.length, 0,
          (deleteCols [cur.indexOf name] (deref h ref)).length⟩
      ∧ Recording.dataValue h' r'
          = .ok (deleteCols [cur.indexOf name] (deref h ref))
      ∧ r'.sessions = specDropWalkSessions h [name] h.length r.sessions 0 0
      ∧ (∀ t ∈ r'.sessions, name ∉ Session.channels t
          ∧ ∀ q ∈ t.phases, name ∉ Phase.channels t.protocol q)
      ∧ Recording.channels r'
          = .ok (cur.filter (fun c => !([name].contains c)))
      ∧ name ∉ cur.filter (fun c => !([name].contains c)) := by
  cases hrs : r.sessions with
  | nil =>
    have hcur0 : Recording.channels r = .ok [] := by
      unfold Recording.channels
      rw [hrs]
      rfl
    rw [hcur0] at hcur
    cases Except.ok.inj hcur
    exact absurd hname (List.not_mem_nil name)
  | cons s₀ ss₀ =>
    have hs₀mem : s₀ ∈ r.sessions := by
      rw [hrs]; exact List.mem_cons_self _ _
    -- the resolved column index list is the singleton [cur.indexOf name]
    have hidx : sortDescNat (([name].filter
          (fun c => cur.contains c)).map (fun c => cur.indexOf c))
        = [cur.indexOf name] := by
      rw [List.filter_cons, if_pos ((containsB_iff cur name).2 hname)]
      rfl
    -- derefLen is unchanged by the heap extension, for all stored slots
    have hag : ∀ s ∈ r.sessions,
        derefLen (h ++ [deleteCols [cur.indexOf name] (deref h ref)])
            s.dataSlot = derefLen h s.dataSlot
        ∧ ∀ p ∈ s.phases,
          derefLen (h ++ [deleteCols [cur.indexOf name] (deref h ref)])
              p.dataSlot = derefLen h p.dataSlot := by
      intro s hs
      refine ⟨?_, fun p hp => ?_⟩
      · obtain ⟨rs, hrs', hlt⟩ := (hval s hs).1
        rw [hrs']
        show (deref _ rs).length = (deref h rs).length
        rw [deref_append h _ rs hlt]
      · obtain ⟨rp, hrp, hlt⟩ := (hval s hs).2 p hp
        rw [hrp]
        show (deref _ rp).length = (deref h rp).length
        rw [deref_append h _ rp hlt]
    have hsome : ∀ s ∈ r.sessions,
        s.dataSlot.isSome ∧ ∀ p ∈ s.phases, p.dataSlot.isSome := by
      intro s hs
      refine ⟨?_, fun p hp => ?_⟩
      · obtain ⟨rs, hrs', _⟩ := (hval s hs).1
        rw [hrs']; rfl
      · obtain ⟨rp, hrp, _⟩ := (hval s hs).2 p hp
        rw [hrp]; rfl
    -- the channel list every walked session ends up with
    have hchan : ∀ t ∈ specDropWalkSessions h [name] h.length r.sessions 0 0,
        Session.channels t = chs.filter (fun c => !([name].contains c)) := by
      intro t ht
      obtain ⟨s, hs, hproto, hdrop, _, _⟩ :=
        specDropWalkSessions_mem h [name] h.length r.sessions 0 0 t ht
      unfold Session.channels
      rw [hproto, hdrop, filter_setUnion]
      show (Session.channels s).filter _ = _
      rw [hagree s hs]
    have hSne : specDropWalkSessions h [name] h.length r.sessions 0 0 ≠ [] := by
      intro hcontra
      rw [hrs, specDropWalkSessions] at hcontra
      dsimp only at hcontra
      exact List.noConfusion hcontra
    -- the pre-drop recording channel list, in terms of chs
    have hcurval : chs.filter (fun x => !(r.dropped.contains x)) = cur := by
      unfold Recording.channels at hcur
      rw [hrs] at hcur
      by_cases hallpre : allEqB ((s₀ :: ss₀).map
          (fun s => String.join (Session.channels s))) = true
      · rw [if_pos hallpre] at hcur
        have hinj := Except.ok.inj hcur
        rw [← hagree s₀ hs₀mem]
        exact hinj
      · rw [if_neg hallpre] at hcur
        exact Except.noConfusion hcur
    have hvis : Recording.channels
        ⟨specDropWalkSessions h [name] h.length r.sessions 0 0, r.dropped,
          some ⟨h.length, 0,
            (deleteCols [cur.indexOf name] (deref h ref)).length⟩⟩
        = .ok (cur.filter (fun c => !([name].contains c))) := by
      rw [recording_channels_ok _ r.dropped _
        (chs.filter (fun c => !([name].contains c))) hSne hchan]
      rw [filter_swap, hcurval]
    have hres : dropResolve (cur.filter (fun c => !([name].contains c)))
        r.dropped [name] = [] := by
      refine List.eq_nil_iff_forall_not_mem.2 (fun c hc => ?_)
      obtain ⟨hcn, -, hcv⟩ := (mem_dropResolve _ _ _ c).1 hc
      have hc2 := (List.mem_filter.1 hcv).2
      rw [List.mem_singleton.1 hcn,
        (containsB_iff [name] name).2 (List.mem_cons_self _ _)] at hc2
      exact Bool.noConfusion hc2
    have heq : Recording.drop_channels h r [name]
        = .ok (h ++ [deleteCols [cur.indexOf name] (deref h ref)],
          ⟨specDropWalkSessions h [name] h.length r.sessions 0 0, r.dropped,
            some ⟨h.length, 0,
              (deleteCols [cur.indexOf name] (deref h ref)).length⟩⟩) := by
      unfold Recording.drop_channels
      rw [hslot, hcur]
      dsimp only
      rw [ebind_ok]
      rw [hidx]
      dsimp only [allocBuf]
      rw [dropWalkRec_materialized [name] h.length r.sessions _ 0 0 hsome,
        ebind_ok]
      rw [specDropWalkSessions_hext h _ [name] h.length r.sessions 0 0 hag]
      rw [hvis, ebind_ok]
      dsimp only
      rw [hres]
      rfl
    refine ⟨_, _, heq, rfl, rfl, ?_, ?_, ?_, hvis, ?_⟩
    · show Except.ok (deref (h ++ [deleteCols [cur.indexOf name] (deref h ref)])
          ⟨h.length, 0, (deleteCols [cur.indexOf name] (deref h ref)).length⟩)
        = Except.ok (deleteCols [cur.indexOf name] (deref h ref))
      rw [deref_new h _]
    · show specDropWalkSessions h [name] h.length r.sessions 0 0
        = specDropWalkSessions h [name] h.length (s₀ :: ss₀) 0 0
      rw [hrs]
    · intro t ht
      obtain ⟨s, hs, hproto, hdrop, off, hph⟩ :=
        specDropWalkSessions_mem h [name] h.length r.sessions 0 0 t ht
      constructor
      · intro hmem
        unfold Session.channels at hmem
        have h2 := (List.mem_filter.1 hmem).2
        rw [hdrop, (containsB_iff _ _).2
          ((mem_setUnion s.dropped [name] name).2
            (Or.inr (List.mem_cons_self _ _)))] at h2
        exact Bool.noConfusion h2
      · intro q hq hmem
        rw [hph] at hq
        obtain ⟨p, hp, st, hqe⟩ :=
          specDropWalkPhases_mem h [name] h.length s.phases off q hq
        unfold Phase.channels at hmem
        have h2 := (List.mem_filter.1 hmem).2
        rw [hqe] at h2
        dsimp only [Phase.extend_droplist] at h2
        rw [(containsB_iff _ _).2
          ((mem_setUnion p.dropped [name] name).2
            (Or.inr (List.mem_cons_self _ _)))] at h2
        exact Bool.noConfusion h2
    · intro hmem
      have h2 := (List.mem_filter.1 hmem).2
      rw [(containsB_iff [name] name).2 (List.mem_cons_self _ _)] at h2
      exact Bool.noConfusion h2

/-! ### A concrete fully materialized recording (C2 witness) -/

def exMatC2 : Mat := [[1, 2, 3], [4, 5, 6], [7, 8, 9]]

def exHeapC2 : Heap := [exMatC2]

def exPhaseC2a : Phase := ⟨"1", [], [], [], some ⟨0, 0, 2⟩⟩

def exPhaseC2b : Phase := ⟨"2", [], [], [], some ⟨0, 2, 3⟩⟩

def exSessC2 : Session :=
  ⟨⟨["a", "b", "c"], 10⟩, 0, [exPhaseC2a, exPhaseC2b], [], some ⟨0, 0, 3⟩⟩

def exRecC2 : Recording := ⟨[exSessC2], [], some ⟨0, 0, 3⟩⟩

set_option maxRecDepth 10000 in
theorem C2_witness :
    ∃ h' r',
      Recording.drop_channels exHeapC2 exRecC2 ["b"] = .ok (h', r')
      ∧ h' = exHeapC2 ++ [deleteCols [(["a", "b", "c"] : List String).indexOf "b"]
          (deref exHeapC2 ⟨0, 0, 3⟩)]
      ∧ r'.dataSlot = some ⟨exHeapC2.length, 0,
          (deleteCols [(["a", "b", "c"] : List String).indexOf "b"]
            (deref exHeapC2 ⟨0, 0, 3⟩)).length⟩
      ∧ Recording.dataValue h' r'
          = .ok (deleteCols [(["a", "b", "c"] : List String).indexOf "b"]
            (deref exHeapC2 ⟨0, 0, 3⟩))
      ∧ r'.sessions = specDropWalkSessions exHeapC2 ["b"] exHeapC2.length
          exRecC2.sessions 0 0
      ∧ (∀ t ∈ r'.sessions, "b" ∉ Session.channels t
          ∧ ∀ q ∈ t.phases, "b" ∉ Phase.channels t.protocol q)
      ∧ Recording.channels r'
          = .ok ((["a", "b", "c"] : List String).filter
              (fun c => !(["b"].contains c)))
      ∧ "b" ∉ (["a", "b", "c"] : List String).filter
          (fun c => !(["b"].contains c)) :=
  C2_drop_propagation exHeapC2 exRecC2 ⟨0, 0, 3⟩ "b" ["a", "b", "c"]
    ["a", "b", "c"] rfl
    (by
      intro s hs
      have hs' : s = exSessC2 := List.mem_singleton.1 hs
      subst hs'
      refine ⟨⟨⟨0, 0, 3⟩, rfl, by decide⟩, fun p hp => ?_⟩
      rcases List.mem_cons.1 hp with h1 | hp2
      · exact ⟨⟨0, 0, 2⟩, by rw [h1]; rfl, by decide⟩
      · rcases List.mem_cons.1 hp2 with h1 | hp3
        · exact ⟨⟨0, 2, 3⟩, by rw [h1]; rfl, by decide⟩
        · exact absurd hp3 (List.not_mem_nil p))
    (by decide) (by decide) (by decide)

/-! ## The fresh `Recording.data` aggregation and its aliasing structure
(towards C1) -/

/-- Inserting an element that all accumulator elements compare `le` to goes
to the end (stability). -/
theorem insertTagged_append_of_le {α : Type} (le : α → α → Bool)
    (x : Nat × α) : ∀ (acc : List (Nat × α)),
    (∀ y ∈ acc, le y.2 x.2 = true) →
    insertTagged le x acc = acc ++ [x] := by
  intro acc
  induction acc with
  | nil => intro _; rfl
  | cons y ys ih =>
    intro hall
    unfold insertTagged
    rw [if_pos (hall y (List.mem_cons_self _ _)),
      ih (fun z hz => hall z (List.mem_cons_of_mem _ hz))]
    rfl

/-- `Pairwise` transfers from a list to its tagged enumeration. -/
theorem pairwise_enum {α : Type} {P : α → α → Prop} (l : List α)
    (hp : l.Pairwise P) :
    l.enum.Pairwise (fun u v => P u.2 v.2) := by
  have h : (l.enum.map (fun x => x.2)).Pairwise P := by
    rw [List.enum_map_snd]; exact hp
  exact (List.pairwise_map.1 h)

/-- Sorting an already sorted list is the identity (with position tags). -/
theorem sortTagged_of_sorted {α : Type} (le : α → α → Bool) (l : List α)
    (hsort : l.Pairwise (fun a b => le a b = true)) :
    sortTagged le l = l.enum := by
  unfold sortTagged
  suffices h : ∀ (xs acc : List (Nat × α)),
      xs.Pairwise (fun u v => le u.2 v.2 = true) →
      (∀ y ∈ acc, ∀ x ∈ xs, le y.2 x.2 = true) →
      xs.foldl (fun acc x => insertTagged le x acc) acc = acc ++ xs by
    have := h l.enum [] (pairwise_enum l hsort) (by intro y hy; simp at hy)
    rwa [List.nil_append] at this
  intro xs
  induction xs with
  | nil => intro acc _ _; simp
  | cons x xs ih =>
    intro acc hpair hcross
    rw [List.foldl_cons,
      insertTagged_append_of_le le x acc
        (fun y hy => hcross y hy x (List.mem_cons_self _ _)),
      ih (acc ++ [x]) (List.Pairwise.sublist (List.sublist_cons_self x xs) hpair)
        ?_, List.append_assoc]
    · rfl
    · intro y hy z hz
      rcases List.mem_append.1 hy with hy | hy
      · exact hcross y hy z (List.mem_cons_of_mem _ hz)
      · rw [List.mem_singleton.1 hy]
        exact List.rel_of_pairwise_cons hpair hz

/-- Taking one past an overwritten position. -/
theorem take_succ_set {α : Type} : ∀ (l : List α) (k : Nat) (a : α),
    k < l.length → (l.set k a).take (k + 1) = l.take k ++ [a] := by
  intro l
  induction l with
  | nil => intro k a hk; exact absurd hk (by simp)
  | cons x xs ih =>
    intro k a hk
    cases k with
    | zero => rfl
    | succ k =>
      show x :: (xs.set k a).take (k + 1) = x :: (xs.take k ++ [a])
      rw [ih k a (by simpa using hk)]

/-- Writing consecutively tagged values over a list of matching length
replaces the tail past the first tag. -/
theorem foldl_set_enumFrom {α : Type} : ∀ (vals base : List α) (k : Nat),
    k + vals.length = base.length →
    (List.enumFrom k vals).foldl (fun acc ip => acc.set ip.1 ip.2) base
      = base.take k ++ vals := by
  intro vals
  induction vals with
  | nil =>
    intro base k hk
    rw [List.append_nil, List.take_of_length_le
      (by rw [List.length_nil] at hk; omega)]
    rfl
  | cons v vs ih =>
    intro base k hk
    show (List.enumFrom (k + 1) vs).foldl _ (base.set k v) = _
    rw [List.length_cons] at hk
    rw [ih (base.set k v) (k + 1) (by rw [List.length_set]; omega)]
    rw [take_succ_set base k v (by omega), List.append_assoc]
    rfl

/-- Mapping the payload commutes with tagging. -/
theorem enumFrom_map_snd {α β : Type} (f : α → β) :
    ∀ (l : List α) (k : Nat),
    (List.enumFrom k l).map (fun ip => (ip.1, f ip.2))
      = List.enumFrom k (l.map f) := by
  intro l
  induction l with
  | nil => intro k; rfl
  | cons x xs ih =>
    intro k
    show (k, f x) :: _ = (k, f x) :: _
    rw [ih (k + 1)]

/-- Reading inside a row-range slice. -/
theorem getD_sliceRows (m : Mat) (a b j : Nat) (hab : a + j < b) :
    (sliceRows m a b).getD j [] = m.getD (a + j) [] := by
  unfold sliceRows
  rw [List.getD_eq_getElem?_getD, List.getD_eq_getElem?_getD,
    List.getElem?_drop, Nat.add_comm a j, List.getElem?_take_of_lt
      (by omega), Nat.add_comm j a]

/-- `operator.indexOf` only succeeds on a present element. -/
theorem indexOfE_ok_mem (chs : List String) (c : String) (i : Nat)
    (h : indexOfE chs c = .ok i) : c ∈ chs := by
  unfold indexOfE at h
  by_cases hc : chs.contains c = true
  · exact (containsB_iff chs c).1 hc
  · rw [if_neg hc] at h
    exact Except.noConfusion h

/-- A successful `_drop_indexes` comprehension certifies that every dropped
name is a protocol channel. -/
theorem indexListE_ok_mem (chs : List String) :
    ∀ (l : List String) (is2 : List Nat), indexListE chs l = .ok is2 →
      ∀ c ∈ l, c ∈ chs := by
  intro l
  induction l with
  | nil => intro is2 _ c hc; exact absurd hc (List.not_mem_nil c)
  | cons d ds ih =>
    intro is2 hok c hc
    simp only [indexListE] at hok
    obtain ⟨i, hi, hok₂⟩ := ebind_ok_inv hok
    obtain ⟨is3, his3, _⟩ := ebind_ok_inv hok₂
    rcases List.mem_cons.1 hc with hc | hc
    · exact hc ▸ indexOfE_ok_mem chs d i hi
    · exact ih is3 his3 c hc

/-- A successful phase load certifies its drop set valid. -/
theorem dataCompute_ok_valid (proto : Protocol) (p : Phase) (m : Mat)
    (h : Phase.dataCompute proto p = .ok m) :
    ∀ c ∈ p.dropped, c ∈ proto.channels := by
  simp only [Phase.dataCompute, Phase.drop_indexes] at h
  obtain ⟨idxs, hidxs, _⟩ := ebind_ok_inv h
  obtain ⟨l, hl, _⟩ := ebind_ok_inv hidxs
  exact indexListE_ok_mem proto.channels p.dropped l hl

/-- On a valid drop list the comprehension returns all the indices. -/
theorem indexListE_ok_of_valid (chs : List String) :
    ∀ l : List String, (∀ c ∈ l, c ∈ chs) →
    indexListE chs l = .ok (l.map (fun c => chs.indexOf c)) := by
  intro l
  induction l with
  | nil => intro _; rfl
  | cons d ds ih =>
    intro hv
    have hd : indexOfE chs d = .ok (chs.indexOf d) := by
      unfold indexOfE
      rw [if_pos ((containsB_iff chs d).2 (hv d (List.mem_cons_self _ _)))]
    simp only [indexListE, List.map_cons, hd, ebind_ok,
      ih (fun c hc => hv c (List.mem_cons_of_mem _ hc))]

/-- On a valid drop set the phase load succeeds with the pure value
`Phase.dataMat`. -/
theorem dataCompute_ok_of_valid (proto : Protocol) (p : Phase)
    (hv : ∀ c ∈ p.dropped, c ∈ proto.channels) :
    Phase.dataCompute proto p = .ok (Phase.dataMat proto p) := by
  simp only [Phase.dataCompute, Phase.drop_indexes,
    indexListE_ok_of_valid proto.channels p.dropped hv, ebind_ok]
  rfl

/-- A freshly computed phase matrix has the phase's `n_samples` rows. -/
theorem phase_dataMat_length (proto : Protocol) (q : Phase) :
    (Phase.dataMat proto q).length = Phase.n_samples q := by
  unfold Phase.dataMat deleteCols toMicroVolts Phase.n_samples
  rw [List.length_map, List.length_map]

/-- Clearing a phase whose slot is already empty is the identity. -/
theorem phase_clear_of_none (q : Phase) (hq : q.dataSlot = none) :
    Phase.clear_data q = q := by
  cases q with
  | mk n rd re d slot =>
    cases hq
    rfl

/-- Clearing an otherwise slot-free phase undoes a slot assignment. -/
theorem phase_clear_slot (q : Phase) (slot : Option BufRef)
    (hq : q.dataSlot = none) :
    Phase.clear_data { q with dataSlot := slot } = q := by
  cases q with
  | mk n rd re d s0 =>
    cases hq
    rfl

/-- Consecutive `(start, stop)` row ranges of the given lengths. -/
def specSlices : List Nat → Nat → List (Nat × Nat)
  | [], _ => []
  | l :: ls, off => (off, off + l) :: specSlices ls (off + l)

/-- Per-child slice lists, one child after the other on one global offset. -/
def specSlicesList : List (List Nat) → Nat → List (List (Nat × Nat))
  | [], _ => []
  | ls :: rest, off => specSlices ls off :: specSlicesList rest (off + ls.sum)

/-- The claim's description of the per-phase outcome of `Recording.data`
(and `Session.data`): each phase, with the aggregation's column drops
applied, is re-pointed at the row range of the shared buffer `B` matching
its own row count, ranges advancing cumulatively. -/
def specAggPhases (proto : Protocol) (rd : List String) (B : Nat) :
    List Phase → Nat → List Phase
  | [], _ => []
  | p :: ps, off =>
    Phase.setData (aggDropped proto rd p) ⟨B, off, off + Phase.n_samples p⟩
      :: specAggPhases proto rd B ps (off + Phase.n_samples p)

/-- The claim's description of the per-session outcome of `Recording.data`:
each session is re-pointed at its row range of the shared buffer, its phases
at their sub-ranges, all on one cumulative row offset. -/
def specAggSessions (rd : List String) (B : Nat) :
    List Session → Nat → List Session
  | [], _ => []
  | s :: ss, off =>
    { s with phases := specAggPhases s.protocol rd B s.phases off,
             dataSlot := some ⟨B, off, off + Session.n_samples s⟩ }
      :: specAggSessions rd B ss (off + Session.n_samples s)

/-- Full characterization of loop 1 of the data aggregation over fresh
phases with valid drop sets: heap gets one scratch buffer per phase
(allocated by the phase reload, then orphaned by `del p.data`), the tagged
phases come back with the aggregation drops applied and cleared slots, the
rows grow by the freshly computed matrices, and the recorded slices advance
by each phase's own `n_samples`. -/
theorem dataLoop_fresh_eq (proto : Protocol) (rd : List String) :
    ∀ (tps : List (Nat × Phase)) (h : Heap) (rows : Mat),
    (∀ ip ∈ tps, ip.2.dataSlot = none) →
    (∀ ip ∈ tps, ∀ c ∈ (aggDropped proto rd ip.2).dropped,
      c ∈ proto.channels) →
    Session.dataLoop proto rd h rows tps
      = .ok (h ++ tps.map (fun ip =>
           Phase.dataMat proto (aggDropped proto rd ip.2)),
         tps.map (fun ip => (ip.1, aggDropped proto rd ip.2)),
         rows ++ (tps.map (fun ip =>
           Phase.dataMat proto (aggDropped proto rd ip.2))).flatten,
         specSlices (tps.map (fun ip => Phase.n_samples ip.2)) rows.length) := by
  intro tps
  induction tps with
  | nil =>
    intro h rows _ _
    rw [Session.dataLoop]
    simp [specSlices]
  | cons ip tps ih =>
    intro h rows hfresh hvalid
    obtain ⟨i, p⟩ := ip
    have hp : p.dataSlot = none := hfresh (i, p) (List.mem_cons_self _ _)
    have hagg : (aggDropped proto rd p).dataSlot = none := hp
    rw [Session.dataLoop, phase_drop_none proto h p rd hp]
    dsimp only
    rw [phase_data_none proto h (aggDropped proto rd p) hagg,
      dataCompute_ok_of_valid proto (aggDropped proto rd p)
        (hvalid (i, p) (List.mem_cons_self _ _)),
      emap_ok, ebind_ok]
    dsimp only
    rw [phase_clear_slot (aggDropped proto rd p) _ hagg]
    rw [ih _ _ (fun jq hjq => hfresh jq (List.mem_cons_of_mem _ hjq))
      (fun jq hjq => hvalid jq (List.mem_cons_of_mem _ hjq)), ebind_ok]
    have hlen : (Phase.dataMat proto (aggDropped proto rd p)).length
        = Phase.n_samples p := phase_dataMat_length proto (aggDropped proto rd p)
    simp only [List.map_cons, List.flatten_cons, specSlices,
      List.length_append, hlen, List.append_assoc]
    rfl

theorem enum_eq_enumFrom {α : Type} (l : List α) :
    l.enum = List.enumFrom 0 l := rfl

/-- Writing back a full consecutive tagged update replaces the list. -/
theorem writeBack_enum_full (base vals : List Phase)
    (hlen : vals.length = base.length) :
    Session.writeBack base (List.enumFrom 0 vals) = vals := by
  unfold Session.writeBack
  rw [foldl_set_enumFrom vals base 0 (by omega), List.take_zero,
    List.nil_append]

/-- Total row count of one session's freshly computed phase matrices. -/
theorem sessionRows_length (proto : Protocol) (rd : List String)
    (ps : List Phase) :
    ((ps.map (fun p => Phase.dataMat proto (aggDropped proto rd p))).flatten).length
      = (ps.map Phase.n_samples).sum := by
  rw [List.length_flatten, List.map_map]
  refine congrArg List.sum (List.map_congr_left (fun p _ => ?_))
  exact phase_dataMat_length proto (aggDropped proto rd p)

/-- Mapping a function of the payload over a tagged enumeration. -/
theorem enumFrom_map_val {α β : Type} (f : α → β) :
    ∀ (l : List α) (k : Nat),
    (List.enumFrom k l).map (fun ip => f ip.2) = l.map f := by
  intro l
  induction l with
  | nil => intro k; rfl
  | cons x xs ih =>
    intro k
    show f x :: _ = f x :: _
    rw [ih (k + 1)]

/-- Full characterization of the session loop of `Recording.data` on a fully
unloaded, stored-in-order hierarchy with valid drop sets. -/
theorem dataSessionLoop_fresh_eq (rd : List String) :
    ∀ (ss : List Session) (k : Nat) (h : Heap) (rows : Mat),
    (∀ s ∈ ss, s.dataSlot = none ∧ (∀ p ∈ s.phases, p.dataSlot = none)
      ∧ s.phases.Pairwise (fun a b => phaseLe a b = true)) →
    (∀ s ∈ ss, ∀ p ∈ s.phases,
      ∀ c ∈ (aggDropped s.protocol rd p).dropped, c ∈ s.protocol.channels) →
    Recording.dataSessionLoop rd h rows (List.enumFrom k ss)
      = .ok (h ++ (ss.map (fun s => s.phases.map (fun p =>
           Phase.dataMat s.protocol (aggDropped s.protocol rd p)))).flatten,
         List.enumFrom k (ss.map (fun s =>
           { s with
             phases := s.phases.map (fun p => aggDropped s.protocol rd p),
             dataSlot := none })),
         rows ++ (ss.map (fun s => (s.phases.map (fun p =>
           Phase.dataMat s.protocol (aggDropped s.protocol rd p))).flatten)).flatten,
         specSlices (ss.map Session.n_samples) rows.length,
         specSlicesList (ss.map (fun s => s.phases.map Phase.n_samples))
           rows.length) := by
  intro ss
  induction ss with
  | nil =>
    intro k h rows _ _
    show Recording.dataSessionLoop rd h rows [] = _
    rw [Recording.dataSessionLoop]
    simp [specSlices, specSlicesList]
  | cons s ss ih =>
    intro k h rows hall hvalid
    obtain ⟨hs, hpf, hps⟩ := hall s (List.mem_cons_self _ _)
    show Recording.dataSessionLoop rd h rows ((k, s) :: List.enumFrom (k + 1) ss) = _
    rw [Recording.dataSessionLoop]
    dsimp only
    rw [hs]
    rw [show sortTagged phaseLe s.phases = s.phases.enum from
      sortTagged_of_sorted phaseLe s.phases hps]
    rw [dataLoop_fresh_eq s.protocol rd s.phases.enum h rows
      (fun ip hip => hpf ip.2 (memOfGetElem
        (List.mk_mem_enum_iff_getElem?.mp (by rw [Prod.mk.eta]; exact hip))))
      (fun ip hip => hvalid s (List.mem_cons_self _ _) ip.2 (memOfGetElem
        (List.mk_mem_enum_iff_getElem?.mp (by rw [Prod.mk.eta]; exact hip)))),
      ebind_ok]
    dsimp only
    rw [enum_eq_enumFrom, enumFrom_map_snd, writeBack_enum_full s.phases _
      (by rw [List.length_map])]
    rw [ih (k + 1) _ _ (fun t ht => hall t (List.mem_cons_of_mem _ ht))
      (fun t ht => hvalid t (List.mem_cons_of_mem _ ht)), ebind_ok]
    simp only [List.map_cons, List.flatten_cons, specSlices, specSlicesList,
      List.length_append, enumFrom_map_val,
      enumFrom_map_val (fun p =>
        Phase.dataMat s.protocol (aggDropped s.protocol rd p)) s.phases,
      sessionRows_length, List.append_assoc]
    rfl

/-- Loop 2 of the data aggregation: positionally assigning the recorded
slices realizes the spec phases. -/
theorem zip_setData_spec (proto : Protocol) (rd : List String) (B : Nat) :
    ∀ (ps : List Phase) (off : Nat),
    ((ps.map (fun p => aggDropped proto rd p)).zip
        (specSlices (ps.map Phase.n_samples) off)).map
      (fun q => Phase.setData q.1 ⟨B, q.2.1, q.2.2⟩)
    = specAggPhases proto rd B ps off := by
  intro ps
  induction ps with
  | nil => intro off; rfl
  | cons p ps ih =>
    intro off
    rw [List.map_cons, List.map_cons, specSlices, List.zip_cons_cons,
      List.map_cons, ih (off + Phase.n_samples p)]
    rfl

theorem specAggSessions_length (rd : List String) (B : Nat) :
    ∀ (ss : List Session) (off : Nat),
    (specAggSessions rd B ss off).length = ss.length := by
  intro ss
  induction ss with
  | nil => intro off; rfl
  | cons s ss ih =>
    intro off
    show (specAggSessions rd B ss _).length + 1 = ss.length + 1
    rw [ih]

/-- Loop 2 over the session loop's outputs realizes the spec sessions. -/
theorem dataAssign_spec (rd : List String) (B : Nat) :
    ∀ (ss : List Session) (k off : Nat),
    Recording.dataAssign B
        (List.enumFrom k (ss.map (fun s =>
          { s with
            phases := s.phases.map (fun p => aggDropped s.protocol rd p),
            dataSlot := none })))
        (specSlices (ss.map Session.n_samples) off)
        (specSlicesList (ss.map (fun s => s.phases.map Phase.n_samples)) off)
      = List.enumFrom k (specAggSessions rd B ss off) := by
  intro ss
  induction ss with
  | nil => intro k off; rfl
  | cons s ss ih =>
    intro k off
    simp only [List.map_cons, specSlices, specSlicesList, List.enumFrom_cons]
    rw [Recording.dataAssign]
    dsimp only
    rw [show (List.map Phase.n_samples s.phases).sum = Session.n_samples s
        from rfl]
    rw [zip_setData_spec s.protocol rd B s.phases off,
      ih (k + 1) (off + Session.n_samples s)]
    rfl

/-- Reading a cached recording is a pure lookup. -/
theorem recording_data_some (h : Heap) (r : Recording) (ref : BufRef)
    (hslot : r.dataSlot = some ref) :
    Recording.data h r = .ok (h, r, deref h ref) := by
  unfold Recording.data
  rw [hslot]

/-- A successful fresh phase loop certifies every processed phase's extended
drop set valid against the protocol. -/
theorem dataLoop_ok_valid (proto : Protocol) (sd : List String) :
    ∀ (tps : List (Nat × Phase)) (h : Heap) (rows : Mat)
      (out : Heap × List (Nat × Phase) × Mat × List (Nat × Nat)),
    (∀ ip ∈ tps, ip.2.dataSlot = none) →
    Session.dataLoop proto sd h rows tps = .ok out →
    ∀ ip ∈ tps, ∀ c ∈ (aggDropped proto sd ip.2).dropped,
      c ∈ proto.channels := by
  intro tps
  induction tps with
  | nil => intro h rows out _ _ ip hip; exact absurd hip (List.not_mem_nil ip)
  | cons jq tps ih =>
    intro h rows out hfresh hok ip hip
    obtain ⟨i, p⟩ := jq
    have hp : p.dataSlot = none := hfresh (i, p) (List.mem_cons_self _ _)
    have hagg : (aggDropped proto sd p).dataSlot = none := hp
    rw [Session.dataLoop, phase_drop_none proto h p sd hp] at hok
    dsimp only at hok
    rw [phase_data_none proto h (aggDropped proto sd p) hagg] at hok
    obtain ⟨hpd, hdata, hok₂⟩ := ebind_ok_inv hok
    obtain ⟨m, hm, -⟩ := emap_ok_inv hdata
    rcases List.mem_cons.1 hip with hip | hip
    · rw [hip]
      exact dataCompute_ok_valid proto (aggDropped proto sd p) m hm
    · obtain ⟨rest, hrest, -⟩ := ebind_ok_inv hok₂
      exact ih _ _ _ (fun kq hkq => hfresh kq (List.mem_cons_of_mem _ hkq))
        hrest ip hip

/-- A successful fresh session loop certifies every phase's extended drop
set valid. -/
theorem dataSessionLoop_ok_valid (rd : List String) :
    ∀ (tss : List (Nat × Session)) (h : Heap) (rows : Mat)
      (out : Heap × List (Nat × Session) × Mat × List (Nat × Nat) ×
        List (List (Nat × Nat))),
    (∀ ts ∈ tss, ∀ p ∈ ts.2.phases, p.dataSlot = none) →
    Recording.dataSessionLoop rd h rows tss = .ok out →
    ∀ ts ∈ tss, ∀ p ∈ ts.2.phases,
      ∀ c ∈ (aggDropped ts.2.protocol rd p).dropped,
        c ∈ ts.2.protocol.channels := by
  intro tss
  induction tss with
  | nil => intro h rows out _ _ ts hts; exact absurd hts (List.not_mem_nil ts)
  | cons js tss ih =>
    intro h rows out hfresh hok ts hts
    simp only [Recording.dataSessionLoop] at hok
    obtain ⟨pl, hpl, hok₂⟩ := ebind_ok_inv hok
    rcases List.mem_cons.1 hts with rfl | hts
    · intro p hp
      have hmem : ∃ i, (i, p) ∈ sortTagged phaseLe ts.2.phases := by
        obtain ⟨i, hi⟩ := List.getElem?_of_mem hp
        exact ⟨i, (sortTagged_perm phaseLe ts.2.phases).mem_iff.2
          (List.mk_mem_enum_iff_getElem?.mpr hi)⟩
      obtain ⟨i, hi⟩ := hmem
      exact dataLoop_ok_valid ts.2.protocol rd
        (sortTagged phaseLe ts.2.phases) h rows pl
        (fun ip hip => hfresh ts (List.mem_cons_self _ _) ip.2
          (memOfGetElem (sortTagged_mem phaseLe ts.2.phases ip.1 ip.2
            (by rw [Prod.mk.eta]; exact hip))))
        hpl (i, p) hi
    · obtain ⟨rest, hrest, -⟩ := ebind_ok_inv hok₂
      exact ih _ _ _ (fun kt hkt => hfresh kt (List.mem_cons_of_mem _ hkt))
        hrest ts hts

/-- A successful fresh `Recording.data` certifies every phase's extended
drop set valid. -/
theorem recording_data_ok_valid (h : Heap) (r : Recording)
    (out : Heap × Recording × Mat)
    (hslot : r.dataSlot = none)
    (hfresh : ∀ s ∈ r.sessions, ∀ p ∈ s.phases, p.dataSlot = none)
    (hdata : Recording.data h r = .ok out) :
    ∀ s ∈ r.sessions, ∀ p ∈ s.phases,
      ∀ c ∈ (aggDropped s.protocol r.dropped p).dropped,
        c ∈ s.protocol.channels := by
  intro s hs p hp
  simp only [Recording.data, hslot, Recording.dataCompute] at hdata
  obtain ⟨l, hl, -⟩ := ebind_ok_inv hdata
  have hmem : ∃ i, (i, s) ∈ sortTagged sessionLe r.sessions := by
    obtain ⟨i, hi⟩ := List.getElem?_of_mem hs
    exact ⟨i, (sortTagged_perm sessionLe r.sessions).mem_iff.2
      (List.mk_mem_enum_iff_getElem?.mpr hi)⟩
  obtain ⟨i, hi⟩ := hmem
  exact dataSessionLoop_ok_valid r.dropped (sortTagged sessionLe r.sessions)
    h [] l
    (fun ts hts => hfresh ts.2
      (memOfGetElem (sortTagged_mem sessionLe r.sessions ts.1 ts.2
        (by rw [Prod.mk.eta]; exact hts))))
    hl (i, s) hi p hp

/-- Full characterization of `Recording.data` on a fully unloaded,
stored-in-order hierarchy with valid drop sets: one owned buffer is appended
(after the orphaned per-phase scratch buffers), holding the
session-and-phase-ordered concatenation of the freshly computed matrices,
and the returned recording carries the spec slot assignment. -/
theorem recording_data_fresh_eq (h : Heap) (r : Recording)
    (hslot : r.dataSlot = none)
    (hfresh : ∀ s ∈ r.sessions, s.dataSlot = none
      ∧ (∀ p ∈ s.phases, p.dataSlot = none)
      ∧ s.phases.Pairwise (fun a b => phaseLe a b = true))
    (hsort : r.sessions.Pairwise (fun a b => sessionLe a b = true))
    (hvalid : ∀ s ∈ r.sessions, ∀ p ∈ s.phases,
      ∀ c ∈ (aggDropped s.protocol r.dropped p).dropped,
        c ∈ s.protocol.channels) :
    Recording.data h r
      = .ok ((h ++ (r.sessions.map (fun s => s.phases.map (fun p =>
            Phase.dataMat s.protocol (aggDropped s.protocol r.dropped p)))).flatten)
           ++ [(r.sessions.map (fun s => (s.phases.map (fun p =>
                Phase.dataMat s.protocol
                  (aggDropped s.protocol r.dropped p))).flatten)).flatten],
         { r with
           sessions := specAggSessions r.dropped
             (h ++ (r.sessions.map (fun s => s.phases.map (fun p =>
               Phase.dataMat s.protocol
                 (aggDropped s.protocol r.dropped p)))).flatten).length
             r.sessions 0,
           dataSlot := some ⟨(h ++ (r.sessions.map (fun s => s.phases.map (fun p =>
               Phase.dataMat s.protocol
                 (aggDropped s.protocol r.dropped p)))).flatten).length, 0,
             ((r.sessions.map (fun s => (s.phases.map (fun p =>
               Phase.dataMat s.protocol
                 (aggDropped s.protocol r.dropped p))).flatten)).flatten).length⟩ },
         (r.sessions.map (fun s => (s.phases.map (fun p =>
           Phase.dataMat s.protocol
             (aggDropped s.protocol r.dropped p))).flatten)).flatten) := by
  unfold Recording.data
  rw [hslot]
  unfold Recording.dataCompute
  dsimp only
  rw [sortTagged_of_sorted sessionLe r.sessions hsort, enum_eq_enumFrom,
    dataSessionLoop_fresh_eq r.dropped r.sessions 0 h [] hfresh hvalid,
    ebind_ok]
  dsimp only [allocBuf]
  rw [List.nil_append, List.length_nil,
    dataAssign_spec r.dropped _ r.sessions 0 0]
  rw [foldl_set_enumFrom _ r.sessions 0
    (by rw [Nat.zero_add, specAggSessions_length])]
  rw [List.take_zero, List.nil_append]

/-- Every phase produced by the spec aggregation sits at some row range of
the shared buffer matching its own `n_samples`. -/
theorem specAggPhases_mem (proto : Protocol) (rd : List String) (B : Nat) :
    ∀ (ps : List Phase) (off : Nat) (q : Phase),
    q ∈ specAggPhases proto rd B ps off →
    ∃ p ∈ ps, ∃ o, q = Phase.setData (aggDropped proto rd p)
      ⟨B, o, o + Phase.n_samples p⟩ := by
  intro ps
  induction ps with
  | nil => intro off q hq; exact absurd hq (List.not_mem_nil q)
  | cons p ps ih =>
    intro off q hq
    rcases List.mem_cons.1 hq with hq | hq
    · exact ⟨p, List.mem_cons_self _ _, off, hq⟩
    · obtain ⟨p', hp', o, ho⟩ := ih _ q hq
      exact ⟨p', List.mem_cons_of_mem _ hp', o, ho⟩

/-- Every session produced by the spec aggregation sits at some row range of
the shared buffer matching its own `n_samples`, its phases assigned by the
phase spec on some offset. -/
theorem specAggSessions_mem (rd : List String) (B : Nat) :
    ∀ (ss : List Session) (off : Nat) (t : Session),
    t ∈ specAggSessions rd B ss off →
    ∃ s ∈ ss, ∃ o, t = { s with
      phases := specAggPhases s.protocol rd B s.phases o,
      dataSlot := some ⟨B, o, o + Session.n_samples s⟩ } := by
  intro ss
  induction ss with
  | nil => intro off t ht; exact absurd ht (List.not_mem_nil t)
  | cons s ss ih =>
    intro off t ht
    rcases List.mem_cons.1 ht with ht | ht
    · exact ⟨s, List.mem_cons_self _ _, off, ht⟩
    · obtain ⟨s', hs', o, ho⟩ := ih _ t ht
      exact ⟨s', List.mem_cons_of_mem _ hs', o, ho⟩

/-- In-place mutation through one view of a buffer is observable through any
other view of the same buffer at the corresponding row. -/
theorem readCell_heapWrite (h : Heap) (w tgt : BufRef) (i j c : Nat) (v : ℚ)
    (hbuf : tgt.buf = w.buf) (hlt : w.buf < h.length)
    (hrow : tgt.start + j = w.start + i)
    (hj : tgt.start + j < tgt.stop)
    (hi : w.start + i < (h.getD w.buf []).length)
    (hc : c < ((h.getD w.buf []).getD (w.start + i) []).length) :
    readCell (heapWrite h w i c v) tgt j c = v := by
  unfold readCell heapWrite deref setEntry
  rw [hbuf]
  have h1 : (h.set w.buf ((h.getD w.buf []).set (w.start + i)
        (((h.getD w.buf []).getD (w.start + i) []).set c v))).getD w.buf []
      = (h.getD w.buf []).set (w.start + i)
          (((h.getD w.buf []).getD (w.start + i) []).set c v) := by
    rw [List.getD_eq_getElem?_getD, List.getElem?_set_self hlt]
    rfl
  rw [h1, getD_sliceRows _ tgt.start tgt.stop j hj, hrow]
  have h2 : ((h.getD w.buf []).set (w.start + i)
        (((h.getD w.buf []).getD (w.start + i) []).set c v)).getD
          (w.start + i) []
      = ((h.getD w.buf []).getD (w.start + i) []).set c v := by
    rw [List.getD_eq_getElem?_getD, List.getElem?_set_self hi]
    rfl
  rw [h2, List.getD_eq_getElem?_getD, List.getElem?_set_self hc]
  rfl

theorem getD_append_self (l : List Mat) (m : Mat) :
    (l ++ [m]).getD l.length [] = m := by
  rw [List.getD_eq_getElem?_getD, List.getElem?_append_right (le_refl _)]
  simp

/-- **C1**: after `Recording.data` is computed on a fully unloaded hierarchy
(children stored in processing order), one shared owned buffer exists; the
recording, every session and every phase hold views into it (the sessions
exactly the spec aggregation assignment), reading any of them again on any
later heap is a pure lookup (no reload, no heap change), and an in-place
write through a phase's view at row `ri` is observable through that phase,
through the recording at row `start + ri`, and through the session at the
corresponding offset row. -/
theorem C1_shared_buffer (h : Heap) (r : Recording) (h₁ : Heap)
    (r₁ : Recording) (buf : Mat)
    (hslot : r.dataSlot = none)
    (hfresh : ∀ s ∈ r.sessions, s.dataSlot = none
      ∧ (∀ p ∈ s.phases, p.dataSlot = none)
      ∧ s.phases.Pairwise (fun a b => phaseLe a b = true))
    (hsort : r.sessions.Pairwise (fun a b => sessionLe a b = true))
    (hdata : Recording.data h r = .ok (h₁, r₁, buf)) :
    ∃ B : Nat,
      B < h₁.length
      ∧ h₁.getD B [] = buf
      ∧ r₁.dataSlot = some ⟨B, 0, buf.length⟩
      ∧ r₁.sessions = specAggSessions r.dropped B r.sessions 0
      ∧ (∀ h₂, Recording.data h₂ r₁ = .ok (h₂, r₁, deref h₂ ⟨B, 0, buf.length⟩))
      ∧ ∀ t ∈ r₁.sessions, ∀ sref, t.dataSlot = some sref →
          sref.buf = B
          ∧ (∀ h₂, Session.data h₂ t = .ok (h₂, t, deref h₂ sref))
          ∧ ∀ q ∈ t.phases, ∀ pref, q.dataSlot = some pref →
              pref.buf = B
              ∧ (∀ h₂, Phase.data t.protocol h₂ q = .ok (h₂, q, deref h₂ pref))
              ∧ ∀ ri c v,
                  pref.start + ri < pref.stop →
                  pref.start + ri < buf.length →
                  c < (buf.getD (pref.start + ri) []).length →
                  readCell (heapWrite h₁ pref ri c v) pref ri c = v
                  ∧ readCell (heapWrite h₁ pref ri c v)
                      ⟨B, 0, buf.length⟩ (pref.start + ri) c = v
                  ∧ (sref.start ≤ pref.start + ri →
                     pref.start + ri < sref.stop →
                     readCell (heapWrite h₁ pref ri c v) sref
                       (pref.start + ri - sref.start) c = v) := by
  have hvalid := recording_data_ok_valid h r (h₁, r₁, buf) hslot
    (fun s hs => (hfresh s hs).2.1) hdata
  rw [recording_data_fresh_eq h r hslot hfresh hsort hvalid] at hdata
  simp only [Except.ok.injEq, Prod.mk.injEq] at hdata
  obtain ⟨hh, hr, hb⟩ := hdata
  subst hh
  subst hr
  subst hb
  refine ⟨(h ++ (r.sessions.map (fun s => s.phases.map (fun p =>
      Phase.dataMat s.protocol (aggDropped s.protocol r.dropped p)))).flatten).length,
    by simp, getD_append_self _ _, rfl, rfl, fun h₂ => recording_data_some h₂ _ _ rfl,
    ?_⟩
  intro t ht sref hsref
  obtain ⟨s, hs, o, ho⟩ := specAggSessions_mem r.dropped _ r.sessions 0 t ht
  have hsval : sref = ⟨(h ++ (r.sessions.map (fun s => s.phases.map (fun p =>
      Phase.dataMat s.protocol (aggDropped s.protocol r.dropped p)))).flatten).length, o, o + Session.n_samples s⟩ := by
    rw [ho] at hsref
    exact (Option.some.inj hsref).symm
  have hsbuf : sref.buf = (h ++ (r.sessions.map (fun s => s.phases.map (fun p =>
      Phase.dataMat s.protocol (aggDropped s.protocol r.dropped p)))).flatten).length := by rw [hsval]
  refine ⟨hsbuf, fun h₂ => session_data_some h₂ t sref hsref, ?_⟩
  intro q hq pref hpref
  rw [ho] at hq
  dsimp only at hq
  obtain ⟨p, hp, o', ho'⟩ := specAggPhases_mem s.protocol r.dropped _
    s.phases o q hq
  have hpval : pref = ⟨(h ++ (r.sessions.map (fun s => s.phases.map (fun p =>
      Phase.dataMat s.protocol (aggDropped s.protocol r.dropped p)))).flatten).length, o', o' + Phase.n_samples p⟩ := by
    rw [ho'] at hpref
    exact (Option.some.inj hpref).symm
  have hpbuf : pref.buf = (h ++ (r.sessions.map (fun s => s.phases.map (fun p =>
      Phase.dataMat s.protocol (aggDropped s.protocol r.dropped p)))).flatten).length := by rw [hpval]
  refine ⟨hpbuf, fun h₂ => phase_data_some t.protocol h₂ q pref hpref, ?_⟩
  intro ri c v hin1 hin2 hin3
  have hBlt : pref.buf
      < ((h ++ (r.sessions.map (fun s => s.phases.map (fun p =>
          Phase.dataMat s.protocol (aggDropped s.protocol r.dropped p)))).flatten)
        ++ [(r.sessions.map (fun s => (s.phases.map (fun p =>
          Phase.dataMat s.protocol (aggDropped s.protocol r.dropped p))).flatten)).flatten]).length := by
    rw [hpbuf]
    simp
  have hgb : ((h ++ (r.sessions.map (fun s => s.phases.map (fun p =>
        Phase.dataMat s.protocol (aggDropped s.protocol r.dropped p)))).flatten)
      ++ [(r.sessions.map (fun s => (s.phases.map (fun p =>
        Phase.dataMat s.protocol (aggDropped s.protocol r.dropped p))).flatten)).flatten]).getD
        pref.buf []
      = (r.sessions.map (fun s => (s.phases.map (fun p =>
          Phase.dataMat s.protocol (aggDropped s.protocol r.dropped p))).flatten)).flatten := by
    rw [hpbuf]
    exact getD_append_self _ _
  have hi' : pref.start + ri
      < (((h ++ (r.sessions.map (fun s => s.phases.map (fun p =>
          Phase.dataMat s.protocol (aggDropped s.protocol r.dropped p)))).flatten)
        ++ [(r.sessions.map (fun s => (s.phases.map (fun p =>
          Phase.dataMat s.protocol (aggDropped s.protocol r.dropped p))).flatten)).flatten]).getD
          pref.buf []).length := by
    rw [hgb]
    exact hin2
  have hc' : c
      < ((((h ++ (r.sessions.map (fun s => s.phases.map (fun p =>
          Phase.dataMat s.protocol (aggDropped s.protocol r.dropped p)))).flatten)
        ++ [(r.sessions.map (fun s => (s.phases.map (fun p =>
          Phase.dataMat s.protocol (aggDropped s.protocol r.dropped p))).flatten)).flatten]).getD
          pref.buf []).getD (pref.start + ri) []).length := by
    rw [hgb]
    exact hin3
  refine ⟨readCell_heapWrite _ pref pref ri ri c v rfl hBlt rfl hin1 hi' hc',
    readCell_heapWrite _ pref _ ri (pref.start + ri) c v
      (by rw [hpbuf]) hBlt (Nat.zero_add _) (by rw [Nat.zero_add]; exact hin2)
      hi' hc',
    fun ha hb2 => readCell_heapWrite _ pref sref ri
      (pref.start + ri - sref.start) c v (by rw [hsbuf, hpbuf]) hBlt
      (by omega) (by omega) hi' hc'⟩

def exProtoC1 : Protocol := ⟨["a"], 10⟩

def exPhaseC1 : Phase := ⟨"1", [[0]], [], [], none⟩

def exSessC1 : Session := ⟨exProtoC1, 0, [exPhaseC1], [], none⟩

def exRecC1 : Recording := ⟨[exSessC1], [], none⟩

/-- The (heap, recording, matrix) result of loading the example recording. -/
def exC1Res : Heap × Recording × Mat :=
  (Recording.data [] exRecC1).toOption.getD ([], exRecC1, [])

set_option maxRecDepth 10000 in
theorem C1_witness :
    ∃ B : Nat,
      B < exC1Res.1.length
      ∧ exC1Res.1.getD B [] = exC1Res.2.2
      ∧ exC1Res.2.1.dataSlot = some ⟨B, 0, exC1Res.2.2.length⟩
      ∧ exC1Res.2.1.sessions
          = specAggSessions exRecC1.dropped B exRecC1.sessions 0
      ∧ (∀ h₂, Recording.data h₂ exC1Res.2.1
          = .ok (h₂, exC1Res.2.1, deref h₂ ⟨B, 0, exC1Res.2.2.length⟩))
      ∧ ∀ t ∈ exC1Res.2.1.sessions, ∀ sref,
          t.dataSlot = some sref →
          sref.buf = B
          ∧ (∀ h₂, Session.data h₂ t = .ok (h₂, t, deref h₂ sref))
          ∧ ∀ q ∈ t.phases, ∀ pref, q.dataSlot = some pref →
              pref.buf = B
              ∧ (∀ h₂, Phase.data t.protocol h₂ q = .ok (h₂, q, deref h₂ pref))
              ∧ ∀ ri c v,
                  pref.start + ri < pref.stop →
                  pref.start + ri < exC1Res.2.2.length →
                  c < (exC1Res.2.2.getD (pref.start + ri) []).length →
                  readCell (heapWrite exC1Res.1 pref ri c v) pref ri c = v
                  ∧ readCell (heapWrite exC1Res.1 pref ri c v)
                      ⟨B, 0, exC1Res.2.2.length⟩ (pref.start + ri) c = v
                  ∧ (sref.start ≤ pref.start + ri →
                     pref.start + ri < sref.stop →
                     readCell (heapWrite exC1Res.1 pref ri c v)
                       sref (pref.start + ri - sref.start) c = v) :=
  C1_shared_buffer [] exRecC1 exC1Res.1 exC1Res.2.1 exC1Res.2.2 rfl
    (by decide) (by decide) rfl

/-! ## Clearing and reloading (towards C7) -/

/-- The aggregation bookkeeping resolves nothing the second time: applying
the same drop set again is the identity. -/
theorem aggDropped_idem (proto : Protocol) (sd : List String) (p : Phase) :
    aggDropped proto sd (aggDropped proto sd p) = aggDropped proto sd p := by
  have hres : dropResolve (Phase.channels proto (aggDropped proto sd p))
      (aggDropped proto sd p).dropped sd = [] := by
    refine List.eq_nil_iff_forall_not_mem.2 (fun c hc => ?_)
    obtain ⟨hc1, hc2, hc3⟩ := (mem_dropResolve _ _ _ c).1 hc
    have hd : (aggDropped proto sd p).dropped
        = setUnion p.dropped (dropResolve (Phase.channels proto p) p.dropped sd) :=
      rfl
    rw [hd] at hc2
    have hpd : c ∉ p.dropped := fun hx => hc2 ((mem_setUnion _ _ c).2 (Or.inl hx))
    have hr1 : c ∉ dropResolve (Phase.channels proto p) p.dropped sd :=
      fun hx => hc2 ((mem_setUnion _ _ c).2 (Or.inr hx))
    have hcp : c ∈ Phase.channels proto p := by
      unfold Phase.channels at hc3 ⊢
      have hm := List.mem_filter.1 hc3
      refine List.mem_filter.2 ⟨hm.1, ?_⟩
      simp only [contains_eq_decide, hpd]
      decide
    exact hr1 ((mem_dropResolve _ _ _ c).2 ⟨hc1, hpd, hcp⟩)
  show Phase.extend_droplist (aggDropped proto sd p)
      (dropResolve (Phase.channels proto (aggDropped proto sd p))
        (aggDropped proto sd p).dropped sd)
    = aggDropped proto sd p
  rw [hres]
  unfold Phase.extend_droplist
  rw [setUnion_nil]

/-- A name in the aggregation's drop set is never visible in an aggregated
phase's channel list. -/
theorem aggDropped_channels_excl (proto : Protocol) (sd : List String)
    (p : Phase) (name : String) (hn : name ∈ sd) :
    name ∉ Phase.channels proto (aggDropped proto sd p) := by
  intro hmem
  unfold Phase.channels at hmem
  have h2 := (List.mem_filter.1 hmem).2
  have h1 := (List.mem_filter.1 hmem).1
  have hd : (aggDropped proto sd p).dropped
      = setUnion p.dropped (dropResolve (Phase.channels proto p) p.dropped sd) :=
    rfl
  rw [hd] at h2
  by_cases hpd : name ∈ p.dropped
  · rw [(containsB_iff _ _).2 ((mem_setUnion _ _ name).2 (Or.inl hpd))] at h2
    exact Bool.noConfusion h2
  · have hcp : name ∈ Phase.channels proto p := by
      refine List.mem_filter.2 ⟨h1, ?_⟩
      simp only [contains_eq_decide, hpd]
      decide
    have hres : name ∈ dropResolve (Phase.channels proto p) p.dropped sd :=
      (mem_dropResolve _ _ _ name).2 ⟨hn, hpd, hcp⟩
    rw [(containsB_iff _ _).2 ((mem_setUnion _ _ name).2 (Or.inr hres))] at h2
    exact Bool.noConfusion h2

/-- `aggDropped` keeps the phase number (and the slot). -/
theorem aggDropped_number (proto : Protocol) (sd : List String) (p : Phase) :
    (aggDropped proto sd p).number = p.number := rfl

/-- Sortedness survives the aggregation bookkeeping. -/
theorem pairwise_phaseLe_map_agg (proto : Protocol) (sd : List String)
    (ps : List Phase) (hp : ps.Pairwise (fun a b => phaseLe a b = true)) :
    (ps.map (fun p => aggDropped proto sd p)).Pairwise
      (fun a b => phaseLe a b = true) := by
  refine List.pairwise_map.2 (List.Pairwise.imp ?_ hp)
  intro a b hab
  show phaseLe (aggDropped proto sd a) (aggDropped proto sd b) = true
  unfold phaseLe
  rw [aggDropped_number, aggDropped_number]
  exact hab

theorem specAggPhases_length (proto : Protocol) (rd : List String) (B : Nat) :
    ∀ (ps : List Phase) (off : Nat),
    (specAggPhases proto rd B ps off).length = ps.length := by
  intro ps
  induction ps with
  | nil => intro off; rfl
  | cons p ps ih =>
    intro off
    show (specAggPhases proto rd B ps _).length + 1 = ps.length + 1
    rw [ih]

/-- Clearing the spec phases recovers the bookkept phases. -/
theorem clear_specAggPhases (proto : Protocol) (rd : List String) (B : Nat) :
    ∀ (ps : List Phase) (off : Nat),
    (∀ p ∈ ps, p.dataSlot = none) →
    (specAggPhases proto rd B ps off).map Phase.clear_data
      = ps.map (fun p => aggDropped proto rd p) := by
  intro ps
  induction ps with
  | nil => intro off _; rfl
  | cons p ps ih =>
    intro off hall
    show Phase.clear_data (Phase.setData _ _) :: _ = _ :: _
    rw [ih _ (fun q hq => hall q (List.mem_cons_of_mem _ hq))]
    rw [show Phase.clear_data (Phase.setData (aggDropped proto rd p)
          ⟨B, off, off + Phase.n_samples p⟩)
        = aggDropped proto rd p from
      phase_clear_slot (aggDropped proto rd p) _ (hall p (List.mem_cons_self _ _))]

/-- Loop 2 of `Session.data`: the tagged slice assignment realizes the spec
phases. -/
theorem zip_setData_tagged_spec (proto : Protocol) (rd : List String)
    (B : Nat) : ∀ (ps : List Phase) (k off : Nat),
    ((List.enumFrom k (ps.map (fun p => aggDropped proto rd p))).zip
        (specSlices (ps.map Phase.n_samples) off)).map
      (fun psl => (psl.1.1, Phase.setData psl.1.2 ⟨B, psl.2.1, psl.2.2⟩))
    = List.enumFrom k (specAggPhases proto rd B ps off) := by
  intro ps
  induction ps with
  | nil => intro k off; rfl
  | cons p ps ih =>
    intro k off
    simp only [List.map_cons, specSlices, specAggPhases, List.enumFrom_cons,
      List.zip_cons_cons]
    rw [ih (k + 1) (off + Phase.n_samples p)]

/-- Full characterization of `Session.data` on a fresh, stored-in-order
session: scratch buffers, then one owned buffer holding the concatenation of
the freshly computed phase matrices, the phases re-pointed at their row
ranges. -/
theorem session_data_fresh_eq (h : Heap) (s : Session)
    (hslot : s.dataSlot = none)
    (hfresh : ∀ p ∈ s.phases, p.dataSlot = none)
    (hsort : s.phases.Pairwise (fun a b => phaseLe a b = true))
    (hvalid : ∀ p ∈ s.phases,
      ∀ c ∈ (aggDropped s.protocol s.dropped p).dropped,
        c ∈ s.protocol.channels) :
    Session.data h s
      = .ok ((h ++ s.phases.map (fun p =>
            Phase.dataMat s.protocol (aggDropped s.protocol s.dropped p)))
           ++ [(s.phases.map (fun p =>
             Phase.dataMat s.protocol (aggDropped s.protocol s.dropped p))).flatten],
         { s with
           phases := specAggPhases s.protocol s.dropped
             (h ++ s.phases.map (fun p =>
               Phase.dataMat s.protocol (aggDropped s.protocol s.dropped p))).length
             s.phases 0,
           dataSlot := some ⟨(h ++ s.phases.map (fun p =>
               Phase.dataMat s.protocol (aggDropped s.protocol s.dropped p))).length,
             0, ((s.phases.map (fun p =>
               Phase.dataMat s.protocol (aggDropped s.protocol s.dropped p))).flatten).length⟩ },
         (s.phases.map (fun p =>
           Phase.dataMat s.protocol (aggDropped s.protocol s.dropped p))).flatten) := by
  unfold Session.data
  rw [hslot]
  unfold Session.dataCompute
  dsimp only
  rw [sortTagged_of_sorted phaseLe s.phases hsort,
    dataLoop_fresh_eq s.protocol s.dropped s.phases.enum h []
      (fun ip hip => hfresh ip.2 (memOfGetElem
        (List.mk_mem_enum_iff_getElem?.mp (by rw [Prod.mk.eta]; exact hip))))
      (fun ip hip => hvalid ip.2 (memOfGetElem
        (List.mk_mem_enum_iff_getElem?.mp (by rw [Prod.mk.eta]; exact hip)))),
    ebind_ok]
  dsimp only [allocBuf]
  rw [List.nil_append, List.length_nil, enum_eq_enumFrom, enumFrom_map_snd,
    enumFrom_map_val Phase.n_samples s.phases 0,
    zip_setData_tagged_spec s.protocol s.dropped _ s.phases 0 0]
  unfold Session.writeBack
  rw [foldl_set_enumFrom _ s.phases 0
    (by rw [Nat.zero_add, specAggPhases_length]), List.take_zero,
    List.nil_append,
    enumFrom_map_val (fun p =>
      Phase.dataMat s.protocol (aggDropped s.protocol s.dropped p))
      s.phases 0]

theorem clear_specAggSessions (rd : List String) (B : Nat) :
    ∀ (ss : List Session) (off : Nat),
    (∀ s ∈ ss, ∀ p ∈ s.phases, p.dataSlot = none) →
    (specAggSessions rd B ss off).map Session.clear_data
      = ss.map (fun s =>
          { s with phases := s.phases.map (fun p => aggDropped s.protocol rd p),
                   dataSlot := none }) := by
  intro ss
  induction ss with
  | nil => intro off _; rfl
  | cons s ss ih =>
    intro off hall
    show Session.clear_data _ :: _ = _ :: _
    rw [ih _ (fun t ht => hall t (List.mem_cons_of_mem _ ht))]
    unfold Session.clear_data
    dsimp only
    rw [clear_specAggPhases s.protocol rd B s.phases off
      (hall s (List.mem_cons_self _ _))]

/-- Re-running the aggregation over already aggregated phases reproduces the
same matrix bit for bit. -/
theorem reload_value_eq (proto : Protocol) (rd : List String)
    (ps : List Phase) :
    ((ps.map (fun p => aggDropped proto rd p)).map
        (fun p => Phase.dataMat proto (aggDropped proto rd p))).flatten
      = (ps.map (fun p => Phase.dataMat proto (aggDropped proto rd p))).flatten := by
  rw [List.map_map]
  refine congrArg List.flatten (List.map_congr_left (fun p _ => ?_))
  show Phase.dataMat proto (aggDropped proto rd (aggDropped proto rd p))
    = Phase.dataMat proto (aggDropped proto rd p)
  rw [aggDropped_idem]

theorem session_clear_spec (s : Session) (rd : List String) (B off : Nat)
    (ref : BufRef) (hf : ∀ p ∈ s.phases, p.dataSlot = none) :
    Session.clear_data { s with
        phases := specAggPhases s.protocol rd B s.phases off,
        dataSlot := some ref }
      = { s with
          phases := s.phases.map (fun p => aggDropped s.protocol rd p),
          dataSlot := none } := by
  unfold Session.clear_data
  dsimp only
  rw [clear_specAggPhases s.protocol rd B s.phases off hf]

theorem recording_clear_spec (r : Recording) (rd : List String) (B : Nat)
    (ref : BufRef)
    (hf : ∀ s ∈ r.sessions, ∀ p ∈ s.phases, p.dataSlot = none) :
    Recording.clear_data { r with
        sessions := specAggSessions rd B r.sessions 0,
        dataSlot := some ref }
      = { r with
          sessions := r.sessions.map (fun s =>
            { s with
              phases := s.phases.map (fun p => aggDropped s.protocol rd p),
              dataSlot := none }),
          dataSlot := none } := by
  unfold Recording.clear_data
  dsimp only
  rw [clear_specAggSessions rd B r.sessions 0 hf]

theorem pairwise_sessionLe_map_clear (rd : List String) (ss : List Session)
    (h : ss.Pairwise (fun a b => sessionLe a b = true)) :
    (ss.map (fun s =>
        { s with phases := s.phases.map (fun p => aggDropped s.protocol rd p),
                 dataSlot := none })).Pairwise
      (fun a b => sessionLe a b = true) := by
  refine List.pairwise_map.2 (List.Pairwise.imp ?_ h)
  intro a b hab
  exact hab

/-- A successful fresh `Session.data` certifies every phase's extended drop
set valid. -/
theorem session_data_ok_valid (h : Heap) (s : Session)
    (out : Heap × Session × Mat)
    (hslot : s.dataSlot = none)
    (hfresh : ∀ p ∈ s.phases, p.dataSlot = none)
    (hdata : Session.data h s = .ok out) :
    ∀ p ∈ s.phases, ∀ c ∈ (aggDropped s.protocol s.dropped p).dropped,
      c ∈ s.protocol.channels := by
  intro p hp
  simp only [Session.data, hslot, Session.dataCompute] at hdata
  obtain ⟨l, hl, -⟩ := ebind_ok_inv hdata
  have hmem : ∃ i, (i, p) ∈ sortTagged phaseLe s.phases := by
    obtain ⟨i, hi⟩ := List.getElem?_of_mem hp
    exact ⟨i, (sortTagged_perm phaseLe s.phases).mem_iff.2
      (List.mk_mem_enum_iff_getElem?.mpr hi)⟩
  obtain ⟨i, hi⟩ := hmem
  exact dataLoop_ok_valid s.protocol s.dropped (sortTagged phaseLe s.phases)
    h [] l
    (fun ip hip => hfresh ip.2
      (memOfGetElem (sortTagged_mem phaseLe s.phases ip.1 ip.2
        (by rw [Prod.mk.eta]; exact hip))))
    hl (i, p) hi

/-- **C7**: at each level, when `data` loads successfully, the cached view's
value equals the loaded matrix, clearing and re-reading `data` succeeds and
reproduces that matrix bit for bit, and channels dropped before the clear
stay excluded from `channels` after the reload (nothing is restored).
Session and Recording are taken fresh and stored in processing order, as the
loader builds them. -/
theorem C7_clear_reload (proto : Protocol) (p : Phase) (h h₂ : Heap)
    (s : Session) (h₃ h₄ : Heap) (r : Recording) (h₅ h₆ : Heap)
    (hp : p.dataSlot = none)
    (hs : s.dataSlot = none)
    (hsf : ∀ q ∈ s.phases, q.dataSlot = none)
    (hss : s.phases.Pairwise (fun a b => phaseLe a b = true))
    (hr : r.dataSlot = none)
    (hrf : ∀ t ∈ r.sessions, t.dataSlot = none
      ∧ (∀ q ∈ t.phases, q.dataSlot = none)
      ∧ t.phases.Pairwise (fun a b => phaseLe a b = true))
    (hrs : r.sessions.Pairwise (fun a b => sessionLe a b = true)) :
    (∀ h₁ p₁ m, Phase.data proto h p = .ok (h₁, p₁, m) →
      Phase.dataValue proto h₁ p₁ = .ok m
      ∧ (Phase.data proto h₂ (Phase.clear_data p₁)).map (fun x => x.2.2)
          = .ok m
      ∧ ∀ h' p₂ m₂,
          Phase.data proto h₂ (Phase.clear_data p₁) = .ok (h', p₂, m₂) →
          ∀ name ∈ p.dropped, name ∉ Phase.channels proto p₂)
    ∧ (∀ h₁ s₁ m, Session.data h₃ s = .ok (h₁, s₁, m) →
      Session.dataValue h₁ s₁ = .ok m
      ∧ (Session.data h₄ (Session.clear_data s₁)).map (fun x => x.2.2)
          = .ok m
      ∧ ∀ h' s₂ m₂,
          Session.data h₄ (Session.clear_data s₁) = .ok (h', s₂, m₂) →
          ∀ name ∈ s.dropped, ∀ q ∈ s₂.phases,
            name ∉ Phase.channels s.protocol q)
    ∧ (∀ h₁ r₁ m, Recording.data h₅ r = .ok (h₁, r₁, m) →
      Recording.dataValue h₁ r₁ = .ok m
      ∧ (Recording.data h₆ (Recording.clear_data r₁)).map (fun x => x.2.2)
          = .ok m
      ∧ ∀ h' r₂ m₂,
          Recording.data h₆ (Recording.clear_data r₁) = .ok (h', r₂, m₂) →
          ∀ name ∈ r.dropped, ∀ t ∈ r₂.sessions, ∀ q ∈ t.phases,
            name ∉ Phase.channels t.protocol q) := by
  have hsf' : ∀ q ∈ s.phases.map (fun x => aggDropped s.protocol s.dropped x),
      q.dataSlot = none := by
    intro q hq
    obtain ⟨p0, hp0, rfl⟩ := List.mem_map.1 hq
    exact hsf p0 hp0
  have hrfME : ∀ t ∈ r.sessions.map (fun s0 =>
      { s0 with
        phases := s0.phases.map (fun q => aggDropped s0.protocol r.dropped q),
        dataSlot := none }),
      t.dataSlot = none ∧ (∀ q ∈ t.phases, q.dataSlot = none)
        ∧ t.phases.Pairwise (fun a b => phaseLe a b = true) := by
    intro t ht
    obtain ⟨s0, hs0, rfl⟩ := List.mem_map.1 ht
    refine ⟨rfl, ?_, pairwise_phaseLe_map_agg _ _ _ (hrf s0 hs0).2.2⟩
    intro q hq
    obtain ⟨p0, hp0, rfl⟩ := List.mem_map.1 hq
    exact (hrf s0 hs0).2.1 p0 hp0
  refine ⟨?_, ?_, ?_⟩
  · intro h₁ p₁ m hdata
    rw [phase_data_none proto h p hp] at hdata
    obtain ⟨m0, hm0, hval⟩ := emap_ok_inv hdata
    simp only [Prod.mk.injEq] at hval
    obtain ⟨rfl, rfl, rfl⟩ := hval
    refine ⟨?_, ?_, ?_⟩
    · unfold Phase.dataValue
      dsimp only
      rw [deref_new h m0]
    · rw [phase_clear_slot p _ hp, phase_data_none proto h₂ p hp, hm0,
        emap_ok, emap_ok]
    · intro h' p₂ m₂ hok name hname
      rw [phase_clear_slot p _ hp, phase_data_none proto h₂ p hp, hm0,
        emap_ok] at hok
      simp only [Except.ok.injEq, Prod.mk.injEq] at hok
      obtain ⟨-, rfl, -⟩ := hok
      intro hmem
      unfold Phase.channels at hmem
      have hco := (List.mem_filter.1 hmem).2
      rw [(containsB_iff _ _).2 hname] at hco
      exact Bool.noConfusion hco
  · intro h₁ s₁ m hdata
    have hvalidS := session_data_ok_valid h₃ s (h₁, s₁, m) hs hsf hdata
    have hvalid' : ∀ q ∈ s.phases.map
        (fun x => aggDropped s.protocol s.dropped x),
        ∀ c ∈ (aggDropped s.protocol s.dropped q).dropped,
          c ∈ s.protocol.channels := by
      intro q hq c hc
      obtain ⟨p0, hp0, rfl⟩ := List.mem_map.1 hq
      rw [aggDropped_idem] at hc
      exact hvalidS p0 hp0 c hc
    rw [session_data_fresh_eq h₃ s hs hsf hss hvalidS] at hdata
    simp only [Except.ok.injEq, Prod.mk.injEq] at hdata
    obtain ⟨rfl, rfl, rfl⟩ := hdata
    refine ⟨?_, ?_, ?_⟩
    · unfold Session.dataValue
      dsimp only
      rw [deref_new _ _]
    · rw [session_clear_spec s s.dropped _ 0 _ hsf,
        session_data_fresh_eq h₄ _ rfl hsf'
          (pairwise_phaseLe_map_agg s.protocol s.dropped s.phases hss) hvalid',
        emap_ok]
      dsimp only
      exact congrArg Except.ok (reload_value_eq s.protocol s.dropped s.phases)
    · intro h' s₂ m₂ hok name hname q hq
      rw [session_clear_spec s s.dropped _ 0 _ hsf,
        session_data_fresh_eq h₄ _ rfl hsf'
          (pairwise_phaseLe_map_agg s.protocol s.dropped s.phases hss)
          hvalid'] at hok
      simp only [Except.ok.injEq, Prod.mk.injEq] at hok
      obtain ⟨-, rfl, -⟩ := hok
      dsimp only at hq
      obtain ⟨p', hp', o, hqe⟩ := specAggPhases_mem _ _ _ _ _ q hq
      intro hmem
      rw [hqe] at hmem
      exact aggDropped_channels_excl s.protocol s.dropped p' name hname hmem
  · intro h₁ r₁ m hdata
    have hvalidR := recording_data_ok_valid h₅ r (h₁, r₁, m) hr
      (fun t ht => (hrf t ht).2.1) hdata
    have hvalid2 : ∀ t ∈ r.sessions.map (fun s0 =>
        { s0 with
          phases := s0.phases.map (fun q => aggDropped s0.protocol r.dropped q),
          dataSlot := none }),
        ∀ q ∈ t.phases,
        ∀ c ∈ (aggDropped t.protocol r.dropped q).dropped,
          c ∈ t.protocol.channels := by
      intro t ht q hq c hc
      obtain ⟨s0, hs0, rfl⟩ := List.mem_map.1 ht
      obtain ⟨p0, hp0, rfl⟩ := List.mem_map.1 hq
      dsimp only at hc ⊢
      rw [aggDropped_idem] at hc
      exact hvalidR s0 hs0 p0 hp0 c hc
    rw [recording_data_fresh_eq h₅ r hr hrf hrs hvalidR] at hdata
    simp only [Except.ok.injEq, Prod.mk.injEq] at hdata
    obtain ⟨rfl, rfl, rfl⟩ := hdata
    refine ⟨?_, ?_, ?_⟩
    · unfold Recording.dataValue
      dsimp only
      rw [deref_new _ _]
    · rw [recording_clear_spec r r.dropped _ _ (fun t ht => (hrf t ht).2.1),
        recording_data_fresh_eq h₆ _ rfl hrfME
          (pairwise_sessionLe_map_clear r.dropped r.sessions hrs) hvalid2,
        emap_ok]
      dsimp only
      refine congrArg Except.ok ?_
      rw [List.map_map]
      refine congrArg List.flatten (List.map_congr_left (fun s0 _ => ?_))
      exact reload_value_eq s0.protocol r.dropped s0.phases
    · intro h' r₂ m₂ hok name hname t ht q hq
      rw [recording_clear_spec r r.dropped _ _ (fun u hu => (hrf u hu).2.1),
        recording_data_fresh_eq h₆ _ rfl hrfME
          (pairwise_sessionLe_map_clear r.dropped r.sessions hrs)
          hvalid2] at hok
      simp only [Except.ok.injEq, Prod.mk.injEq] at hok
      obtain ⟨-, rfl, -⟩ := hok
      dsimp only at ht
      obtain ⟨s', hs', o, hte⟩ := specAggSessions_mem _ _ _ _ t ht
      rw [hte] at hq
      dsimp only at hq
      obtain ⟨p', hp', o', hqe⟩ := specAggPhases_mem _ _ _ _ _ q hq
      intro hmem
      rw [hte, hqe] at hmem
      exact aggDropped_channels_excl s'.protocol r.dropped p' name hname hmem

def exProtoC7 : Protocol := ⟨["a", "b"], 10⟩

def exPhaseC7 : Phase := ⟨"1", [[0, 0]], [], ["b"], none⟩

def exSessC7 : Session := ⟨exProtoC7, 0, [exPhaseC7], ["b"], none⟩

def exRecC7 : Recording := ⟨[exSessC7], ["b"], none⟩

/-- Loaded results of the C7 example containers. -/
def exC7PhRes : Heap × Phase × Mat :=
  (Phase.data exProtoC7 [] exPhaseC7).toOption.getD ([], exPhaseC7, [])

def exC7SeRes : Heap × Session × Mat :=
  (Session.data [] exSessC7).toOption.getD ([], exSessC7, [])

def exC7ReRes : Heap × Recording × Mat :=
  (Recording.data [] exRecC7).toOption.getD ([], exRecC7, [])

theorem C7_witness :
    (Phase.dataValue exProtoC7 exC7PhRes.1 exC7PhRes.2.1 = .ok exC7PhRes.2.2
      ∧ (Phase.data exProtoC7 [] (Phase.clear_data exC7PhRes.2.1)).map
          (fun x => x.2.2) = .ok exC7PhRes.2.2)
    ∧ (Session.dataValue exC7SeRes.1 exC7SeRes.2.1 = .ok exC7SeRes.2.2
      ∧ (Session.data [] (Session.clear_data exC7SeRes.2.1)).map
          (fun x => x.2.2) = .ok exC7SeRes.2.2)
    ∧ (Recording.dataValue exC7ReRes.1 exC7ReRes.2.1 = .ok exC7ReRes.2.2
      ∧ (Recording.data [] (Recording.clear_data exC7ReRes.2.1)).map
          (fun x => x.2.2) = .ok exC7ReRes.2.2) := by
  have hmain := C7_clear_reload exProtoC7 exPhaseC7 [] [] exSessC7 [] []
    exRecC7 [] [] rfl rfl (by decide) (by decide) rfl (by decide) (by decide)
  have hph := hmain.1 exC7PhRes.1 exC7PhRes.2.1 exC7PhRes.2.2 rfl
  have hse := hmain.2.1 exC7SeRes.1 exC7SeRes.2.1 exC7SeRes.2.2 rfl
  have hre := hmain.2.2 exC7ReRes.1 exC7ReRes.2.1 exC7ReRes.2.2 rfl
  exact ⟨⟨hph.1, hph.2.1⟩, ⟨hse.1, hse.2.1⟩, ⟨hre.1, hre.2.1⟩⟩

/-! ## Channel count bookkeeping (towards C4) -/

theorem length_filter_not_add (f : String → Bool) :
    ∀ (l : List String),
    (l.filter (fun c => !(f c))).length + (l.filter f).length = l.length := by
  intro l
  induction l with
  | nil => rfl
  | cons x xs ih =>
    cases hfx : f x <;>
      simp [List.filter_cons, hfx, Nat.add_assoc, Nat.add_comm,
        Nat.add_left_comm, ← ih]

/-- When the drop set is a duplicate-free subset of the protocol channels,
the filtered channel list loses exactly `|dropped|` entries. -/
theorem channels_length_of_subset (chs D : List String) (hchs : chs.Nodup)
    (hD : D.Nodup) (hsub : ∀ c ∈ D, c ∈ chs) :
    (chs.filter (fun c => !(D.contains c))).length = chs.length - D.length := by
  have hpart := length_filter_not_add (fun c => D.contains c) chs
  have hperm : (chs.filter (fun c => D.contains c)).Perm D := by
    refine (List.perm_ext_iff_of_nodup (hchs.filter _) hD).mpr (fun a => ?_)
    rw [List.mem_filter, contains_eq_decide]
    constructor
    · intro ⟨_, hd⟩
      exact of_decide_eq_true hd
    · intro ha
      exact ⟨hsub a ha, decide_eq_true ha⟩
  have hlen := hperm.length_eq
  omega

theorem allEqB_map_const_nat {α : Type} (l : List α) (f : α → Nat) (c : Nat)
    (hc : ∀ x ∈ l, f x = c) : allEqB (l.map f) = true := by
  cases l with
  | nil => rfl
  | cons a l =>
    show (l.map f).all (fun y => y == f a) = true
    refine List.all_eq_true.2 (fun y hy => ?_)
    obtain ⟨x, hx, hfx⟩ := List.mem_map.1 hy
    rw [← hfx, hc x (List.mem_cons_of_mem _ hx), hc a (List.mem_cons_self _ _)]
    exact beq_self_eq_true c

/-- **C4 counterexample**: dropping a perfectly valid channel on a Phase and
then reading the containing (single-phase) Session's counters leaves
`len(channels) = 2` but `n_channels = ok 1`: the session's own channel list
knows nothing of the phase-level drop its `n_channels` reports. -/
theorem C4_counterexample :
    Session.n_channels ⟨⟨["a", "b"], 10⟩, 0,
        [(Phase.drop_channels ⟨["a", "b"], 10⟩ []
            ⟨"1", [[0, 0]], [], [], none⟩ ["a"]).2], [], none⟩
      = .ok 1
    ∧ (Session.channels ⟨⟨["a", "b"], 10⟩, 0,
        [(Phase.drop_channels ⟨["a", "b"], 10⟩ []
            ⟨"1", [[0, 0]], [], [], none⟩ ["a"]).2], [], none⟩).length = 2
    ∧ Session.n_channels ⟨⟨["a", "b"], 10⟩, 0,
        [(Phase.drop_channels ⟨["a", "b"], 10⟩ []
            ⟨"1", [[0, 0]], [], [], none⟩ ["a"]).2], [], none⟩
      ≠ .ok ((Session.channels ⟨⟨["a", "b"], 10⟩, 0,
        [(Phase.drop_channels ⟨["a", "b"], 10⟩ []
            ⟨"1", [[0, 0]], [], [], none⟩ ["a"]).2], [], none⟩).length) := by
  refine ⟨by decide, by decide, by decide⟩

/-- Auxiliary for C4: a constant session `n_channels` list. -/
theorem nChannelsList_const (k : Nat) :
    ∀ (ss : List Session),
    (∀ t ∈ ss, Session.n_channels t = .ok k) →
    Recording.nChannelsList ss = .ok (ss.map (fun _ => k)) := by
  intro ss
  induction ss with
  | nil => intro _; rfl
  | cons t ts ih =>
    intro hall
    rw [Recording.nChannelsList, hall t (List.mem_cons_self _ _),
      ih (fun u hu => hall u (List.mem_cons_of_mem _ hu))]
    rfl

/-- **C4** (amended): `len(channels) = n_channels` holds at a Phase exactly
under the counting conditions (duplicate-free protocol, duplicate-free drop
set contained in the protocol), and at a Session/Recording when additionally
every descendant's drop set agrees with the ancestor's (uniform drops, as
produced by dropping at that level only; the recording's own drop set stays
empty, C6).  The unrestricted claim is false: `C4_counterexample`. -/
theorem C4_channel_count (proto : Protocol) (p : Phase) (s : Session)
    (r : Recording) (D : List String)
    (hnp : proto.channels.Nodup)
    (hpd : p.dropped.Nodup) (hps : ∀ c ∈ p.dropped, c ∈ proto.channels)
    (hsne : s.phases ≠ []) (hsp : s.protocol = proto)
    (hsd : s.dropped.Nodup) (hss : ∀ c ∈ s.dropped, c ∈ proto.channels)
    (hsal : ∀ q ∈ s.phases, q.dropped = s.dropped)
    (hrne : r.sessions ≠ []) (hrd : r.dropped = [])
    (hDn : D.Nodup) (hDs : ∀ c ∈ D, c ∈ proto.channels)
    (hral : ∀ t ∈ r.sessions, t.protocol = proto ∧ t.dropped = D
      ∧ t.phases ≠ [] ∧ ∀ q ∈ t.phases, q.dropped = D) :
    (Phase.channels proto p).length = Phase.n_channels proto p
    ∧ Session.n_channels s = .ok ((Session.channels s).length)
    ∧ ∃ l, Recording.channels r = .ok l
        ∧ Recording.n_channels r = .ok l.length := by
  have hfilterid : ∀ l : List String,
      l.filter (fun c => !(([] : List String).contains c)) = l :=
    fun l => List.filter_eq_self.2 (fun c _ => rfl)
  have hphase : ∀ (q : Phase), q.dropped.Nodup →
      (∀ c ∈ q.dropped, c ∈ proto.channels) →
      (Phase.channels proto q).length = Phase.n_channels proto q := by
    intro q h1 h2
    unfold Phase.channels Phase.n_channels
    exact channels_length_of_subset proto.channels q.dropped hnp h1 h2
  have hsession : ∀ (t : Session), t.phases ≠ [] → t.protocol = proto →
      t.dropped.Nodup → (∀ c ∈ t.dropped, c ∈ proto.channels) →
      (∀ q ∈ t.phases, q.dropped = t.dropped) →
      Session.n_channels t = .ok ((Session.channels t).length) := by
    intro t hne hproto h1 h2 halign
    unfold Session.n_channels
    rw [if_pos (allEqB_map_const_nat t.phases _
      (proto.channels.length - t.dropped.length) (fun q hq => by
        unfold Phase.n_channels
        rw [halign q hq, hproto]))]
    cases hphases : t.phases with
    | nil => exact absurd hphases hne
    | cons q qs =>
      refine congrArg Except.ok ?_
      have hq : q.dropped = t.dropped :=
        halign q (by rw [hphases]; exact List.mem_cons_self _ _)
      dsimp only
      unfold Phase.n_channels Session.channels
      rw [hq, hproto,
        channels_length_of_subset proto.channels t.dropped hnp h1 h2]
  refine ⟨hphase p hpd hps, hsession s hsne hsp hsd hss hsal, ?_⟩
  cases hsessions : r.sessions with
  | nil => exact absurd hsessions hrne
  | cons t ts =>
    have hchan : Recording.channels r
        = .ok (proto.channels.filter (fun c => !(D.contains c))) := by
      have := recording_channels_ok r.sessions r.dropped r.dataSlot
        (proto.channels.filter (fun c => !(D.contains c)))
        (by rw [hsessions]; exact List.cons_ne_nil _ _)
        (fun u hu => by
          unfold Session.channels
          rw [(hral u hu).1, (hral u hu).2.1])
      rw [hrd] at this
      rw [show r = (⟨r.sessions, r.dropped, r.dataSlot⟩ : Recording) from rfl,
        hrd]
      rw [this, hfilterid]
    refine ⟨proto.channels.filter (fun c => !(D.contains c)), hchan, ?_⟩
    unfold Recording.n_channels
    rw [nChannelsList_const (proto.channels.length - D.length) r.sessions
      (fun u hu => by
        have h1 := (hral u hu).1
        have h2 := (hral u hu).2.1
        refine Eq.trans (hsession u (hral u hu).2.2.1 h1 (h2 ▸ hDn)
          (fun c hc => hDs c (h2 ▸ hc)) (fun q hq => by
            rw [(hral u hu).2.2.2 q hq, h2])) ?_
        refine congrArg Except.ok ?_
        unfold Session.channels
        rw [h1, h2,
          channels_length_of_subset proto.channels D hnp hDn hDs])]
    dsimp only
    rw [if_pos (allEqB_map_const_nat r.sessions _
      (proto.channels.length - D.length) (fun _ _ => rfl))]
    rw [hsessions]
    show Except.ok (proto.channels.length - D.length) = _
    rw [channels_length_of_subset proto.channels D hnp hDn hDs]

def exProtoC4 : Protocol := ⟨["a", "b", "c"], 10⟩

def exPhaseC4 : Phase := ⟨"1", [], [], ["b"], none⟩

def exSessC4 : Session :=
  ⟨exProtoC4, 0, [⟨"1", [], [], ["b"], none⟩, ⟨"2", [], [], ["b"], none⟩],
   ["b"], none⟩

def exRecC4 : Recording := ⟨[exSessC4], [], none⟩

theorem C4_witness :
    (Phase.channels exProtoC4 exPhaseC4).length
        = Phase.n_channels exProtoC4 exPhaseC4
    ∧ Session.n_channels exSessC4 = .ok ((Session.channels exSessC4).length)
    ∧ ∃ l, Recording.channels exRecC4 = .ok l
        ∧ Recording.n_channels exRecC4 = .ok l.length :=
  C4_channel_count exProtoC4 exPhaseC4 exSessC4 exRecC4 ["b"]
    (by decide) (by decide) (by decide) (by decide) rfl (by decide)
    (by decide) (by decide) (by decide) rfl (by decide) (by decide)
    (by decide)
